import Mathlib

/-!
# TvChannelList: request scheduler, freshness resolver and bookmark matcher

A shallow embedding of `src/tvchannellist.cpp`.  The object `TvChannelList` becomes a
record of its member variables and every member function becomes a function on that
record.  Collaborators that live outside the file are explicit arguments:

* the network disk cache (`m_nam.cache()`) is a pair of lookup functions handed to each call,
* `QDateTime::currentDateTime()` is the argument `now` (milliseconds),
* the XML walk that ends in `TvChannelList::load` is the argument `load`,
* `TvBookmark::match` is the argument `verdict`.

Signals (`emit ...`) carry no state and are left out.  `QList::at` outside the list is an
assertion failure in Qt; it is the only way the embedded functions can fail (`none`).
The `int` counters and priorities are unbounded integers: nothing below depends on
wrap-around.  The throttle timer is a `QTimer` in single-shot mode: once started with 1000 it
calls `throttleTimeout` once, no earlier than 1000 ms later.
-/

namespace TvGuide

/-! ## Data model -/

/-- A `QUrl`: an identity together with the answer of `QUrl::isValid()`. -/
structure QUrl where
  id : Nat
  isValid : Bool
deriving DecidableEq, Repr

/-- The default-constructed `QUrl()`, which is not valid. -/
def QUrl.null : QUrl := ⟨0, false⟩

/-- A `QDateTime` in milliseconds; `none` is the invalid date-time `QDateTime()`. -/
abbrev QDateTime := Option Int

/-- The member `QDateTime::isValid()`. -/
def QDateTime.isValid (t : QDateTime) : Bool := t.isSome

/-- The comparison `a >= b` on `QDateTime`; an invalid date-time sorts before every valid one. -/
def QDateTime.ge (a b : QDateTime) : Bool :=
  match a, b with
  | some x, some y => decide (y ≤ x)
  | none, some _ => false
  | _, none => true

/-- The member `QDateTime::addSecs`. -/
def QDateTime.addSecs (t : QDateTime) (secs : Int) : QDateTime :=
  t.map (fun x => x + 1000 * secs)

/-- A `QByteArray`, also used for the contents behind a `QIODevice`. -/
abbrev QByteArray := List Nat

/-- A `QString`. -/
abbrev QString := String

/-- The struct `TvChannelList::Request`. -/
structure Request where
  urls : List QUrl
  priority : Int
  channel : Option Nat
  date : Option Int
deriving DecidableEq, Repr

/-- The part of `QNetworkCacheMetaData` that `requestData` reads. -/
structure QNetworkCacheMetaData where
  isValid : Bool
  lastModified : QDateTime

/-- What `m_nam.cache()` answers at the time of one call: `metaData(url)` and
`data(url)`, the latter `none` for a null `QIODevice *`. -/
structure QAbstractNetworkCache where
  metaData : QUrl → QNetworkCacheMetaData
  data : QUrl → Option QByteArray

/-- A `TvBookmark *`: the pointer identity and the title the bookmark carries. -/
structure TvBookmark where
  ptr : Nat
  title : QString
deriving DecidableEq, Repr

/-- A `TvProgramme` as far as the matcher reads it. -/
structure TvProgramme where
  title : QString
deriving DecidableEq, Repr

/-- The member variables of `TvChannelList`.  `χ` is the channel model that `load`
maintains (`m_channels`, `m_activeChannels`, `m_hasDataFor`, ...).  `m_reply` is true for a
non-null reply pointer, `m_throttleTimer` is the time at which the armed single-shot timer
fires, and `m_nam` lists the GET requests handed to the network access manager, latest first,
each with the time it was issued. -/
structure TvChannelList (χ : Type) where
  m_startUrl : QUrl
  m_startUrlRefresh : Int
  m_throttled : Bool
  m_busy : Bool
  m_progress : ℚ
  m_requestsToDo : Int
  m_requestsDone : Int
  m_reply : Bool
  m_currentRequest : QUrl
  m_requests : List Request
  m_contents : QByteArray
  m_lastFetch : List (QUrl × Int)
  m_throttleTimer : Option Int
  m_nam : List (Int × QUrl)
  m_model : χ
  m_bookmarks : List TvBookmark
  m_indexedBookmarks : List (QString × TvBookmark)

variable {χ : Type}

/-- The state the constructor leaves behind (it ends in `reloadService`), for the start URL,
refresh interval, bookmarks and empty channel model read from the settings. -/
def TvChannelList.init (startUrl : QUrl) (refresh : Int) (model : χ)
    (bookmarks : List TvBookmark) (index : List (QString × TvBookmark)) : TvChannelList χ :=
  { m_startUrl := startUrl
    m_startUrlRefresh := refresh
    m_throttled := false
    m_busy := false
    m_progress := 1
    m_requestsToDo := 0
    m_requestsDone := 0
    m_reply := false
    m_currentRequest := QUrl.null
    m_requests := []
    m_contents := []
    m_lastFetch := []
    m_throttleTimer := none
    m_nam := []
    m_model := model
    m_bookmarks := bookmarks
    m_indexedBookmarks := index }

/-! ## `QMap<QUrl, QDateTime>` operations on `m_lastFetch` -/

/-- The lookup `m_lastFetch.value(url, QDateTime())`. -/
def lastFetchValue (m : List (QUrl × Int)) (url : QUrl) : QDateTime :=
  (m.find? (fun e => e.1 == url)).map Prod.snd

/-- The call `m_lastFetch.remove(url)`. -/
def lastFetchRemove (m : List (QUrl × Int)) (url : QUrl) : List (QUrl × Int) :=
  m.filter (fun e => !(e.1 == url))

/-- The call `m_lastFetch.insert(url, t)`, which replaces an existing entry. -/
def lastFetchInsert (m : List (QUrl × Int)) (url : QUrl) (t : Int) : List (QUrl × Int) :=
  (url, t) :: lastFetchRemove m url

/-! ## Scheduler -/

/-- The function `TvChannelList::forceProgressUpdate`. -/
def forceProgressUpdate (s : TvChannelList χ) : TvChannelList χ :=
  if s.m_requestsDone < s.m_requestsToDo then
    { s with m_progress := (s.m_requestsDone : ℚ) / (s.m_requestsToDo : ℚ) }
  else
    { s with m_progress := 1 }

/-- The second half of `nextPending`: the GET for `url`, the head request's first URL, is
handed to the network access manager at time `now`, with `rest` left in the queue; the
throttle timer is armed for 1000 ms and the busy flag is turned on. -/
def startFetch (now : Int) (rest : List Request) (url : QUrl) (s : TvChannelList χ) :
    TvChannelList χ :=
  { s with
    m_requests := rest
    m_currentRequest := url
    m_contents := []
    m_reply := true
    m_nam := (now, url) :: s.m_nam
    m_lastFetch := lastFetchRemove s.m_lastFetch url
    m_throttleTimer := some (now + 1000)
    m_throttled := true
    m_busy := true }

/-- The function `TvChannelList::nextPending`, called at time `now`. -/
def nextPending (now : Int) (s : TvChannelList χ) : Option (TvChannelList χ) :=
  if s.m_currentRequest.isValid || s.m_requests.isEmpty || s.m_throttled then
    some (forceProgressUpdate s)
  else
    match s.m_requests with
    | [] => some (forceProgressUpdate s)
    | req :: rest =>
      match req.urls with
      | [] => none
      | url :: _ => some (forceProgressUpdate (startFetch now rest url s))

/-- The function `TvChannelList::throttleTimeout`. -/
def throttleTimeout (now : Int) (s : TvChannelList χ) : Option (TvChannelList χ) :=
  nextPending now { s with m_throttled := false }

/-- The function `TvChannelList::requestReadyRead`, for the bytes the reply has ready.  The
slot is connected to the signals of the live reply only, so it does nothing without one. -/
def requestReadyRead (bytes : QByteArray) (s : TvChannelList χ) : TvChannelList χ :=
  if s.m_reply then { s with m_contents := s.m_contents ++ bytes } else s

/-- The function `TvChannelList::abort`. -/
def abort (s : TvChannelList χ) : TvChannelList χ :=
  { s with
    m_currentRequest := QUrl.null
    m_requests := []
    m_contents := []
    m_busy := false
    m_progress := 1
    m_requestsToDo := 0
    m_requestsDone := 0
    m_reply := false }

/-- The removal loop of `requestFinished`: drops every queued request that lists `cur`
and decrements `m_requestsToDo` for each. -/
def removeRepeated (cur : QUrl) : List Request → Int → List Request × Int
  | [], toDo => ([], toDo)
  | r :: rs, toDo =>
    if r.urls.contains cur then removeRepeated cur rs (toDo - 1)
    else
      let res := removeRepeated cur rs toDo
      (r :: res.1, res.2)

/-- The first half of `requestFinished`, for a non-null reply: the reply is released, a
non-empty body is recorded as fetched at `now` and merged, queued repeats of the finished URL
are removed, the in-flight slot is cleared and `m_requestsDone` is incremented. -/
def finishReply (load : QUrl → QByteArray → QUrl → χ → χ) (now : Int)
    (s : TvChannelList χ) : TvChannelList χ :=
  let s1 : TvChannelList χ := { s with m_reply := false }
  let s2 : TvChannelList χ :=
    if !s1.m_contents.isEmpty then
      { s1 with
        m_lastFetch := lastFetchInsert s1.m_lastFetch s1.m_currentRequest now
        m_model := load s1.m_startUrl s1.m_contents s1.m_currentRequest s1.m_model
        m_contents := [] }
    else s1
  let res := removeRepeated s2.m_currentRequest s2.m_requests s2.m_requestsToDo
  { s2 with
    m_requests := res.1
    m_requestsToDo := res.2
    m_currentRequest := QUrl.null
    m_requestsDone := s2.m_requestsDone + 1 }

/-- The function `TvChannelList::requestFinished`, called at time `now`. -/
def requestFinished (load : QUrl → QByteArray → QUrl → χ → χ) (now : Int)
    (s : TvChannelList χ) : Option (TvChannelList χ) :=
  if !s.m_reply then some s
  else
    match nextPending now (finishReply load now s) with
    | none => none
    | some s4 =>
      if !s4.m_currentRequest.isValid && s4.m_busy && s4.m_requests.isEmpty then
        some { s4 with m_busy := false, m_progress := 1, m_requestsToDo := 0, m_requestsDone := 0 }
      else some s4

/-- The removal loop of `trimRequests`: the remaining queue, the decremented
`m_requestsToDo` and the flag `removed`. -/
def trimLoop (first last : Int) : List Request → Int → Bool → List Request × Int × Bool
  | [], toDo, removed => ([], toDo, removed)
  | r :: rs, toDo, removed =>
    if first ≤ r.priority && r.priority ≤ last then trimLoop first last rs (toDo - 1) true
    else
      let res := trimLoop first last rs toDo removed
      (r :: res.1, res.2.1, res.2.2)

/-- The function `TvChannelList::trimRequests`. -/
def trimRequests (first last : Int) (s : TvChannelList χ) : TvChannelList χ :=
  let res := trimLoop first last s.m_requests s.m_requestsToDo false
  let s1 : TvChannelList χ := { s with m_requests := res.1, m_requestsToDo := res.2.1 }
  if res.2.2 then
    if s1.m_requests.isEmpty && !s1.m_currentRequest.isValid then
      { s1 with m_busy := false, m_progress := 1, m_requestsToDo := 0, m_requestsDone := 0 }
    else forceProgressUpdate s1
  else s1

/-- The cache loop of `requestData`: walks the candidate URLs in order and stops at the
first one for which a device was obtained, returning that URL and the device contents.
`refreshAge` counts hours and `60 * 60 * refreshAge` is taken in the integers, as it is in
`int` for every refresh age below 596523 hours. -/
def findFresh (cache : QAbstractNetworkCache) (lastFetchMap : List (QUrl × Int)) (now : Int)
    (lastmod : QDateTime) (refreshAge : Int) : List QUrl → Option (QUrl × QByteArray)
  | [] => none
  | url :: rest =>
    let age : QDateTime := QDateTime.addSecs (some now) (-(60 * 60))
    let refAge : QDateTime := QDateTime.addSecs (some now) (-(60 * 60 * refreshAge))
    let byMeta : Option QByteArray :=
      if QDateTime.isValid lastmod then
        let metaData := cache.metaData url
        if metaData.isValid && metaData.lastModified == lastmod then cache.data url else none
      else if refreshAge != -1 then
        let metaData := cache.metaData url
        if metaData.isValid && QDateTime.ge metaData.lastModified refAge then cache.data url
        else none
      else none
    match byMeta with
    | some device => some (url, device)
    | none =>
      let lastFetch := lastFetchValue lastFetchMap url
      let byFetch : Option QByteArray :=
        if QDateTime.isValid lastFetch && QDateTime.ge lastFetch age then cache.data url
        else none
      match byFetch with
      | some device => some (url, device)
      | none => findFresh cache lastFetchMap now lastmod refreshAge rest

/-- The queue scan of `requestData`: `none` when the request is already queued, otherwise
the index at which it is inserted. -/
def insertIndex (url : QUrl) (priority : Int) : List Request → Option Nat
  | [] => some 0
  | r :: rs =>
    if r.priority == priority && r.urls.contains url then none
    else if priority < r.priority then some 0
    else (insertIndex url priority rs).map (fun i => i + 1)

/-- The call `QList::insert(index, req)`. -/
def qlistInsert (req : Request) : Nat → List Request → List Request
  | 0, l => req :: l
  | _ + 1, [] => [req]
  | i + 1, r :: rs => r :: qlistInsert req i rs

/-- The function `TvChannelList::requestData`, called at time `now` with the cache as it is
then. -/
def requestData (load : QUrl → QByteArray → QUrl → χ → χ) (cache : QAbstractNetworkCache)
    (now : Int) (req : Request) (lastmod : QDateTime) (refreshAge : Int)
    (s : TvChannelList χ) : Option (TvChannelList χ) :=
  if s.m_currentRequest.isValid && req.urls.contains s.m_currentRequest then some s
  else
    match findFresh cache s.m_lastFetch now lastmod refreshAge req.urls with
    | some (url, device) =>
      some { s with m_model := load s.m_startUrl device url s.m_model }
    | none =>
      match req.urls with
      | [] => none
      | url :: _ =>
        match insertIndex url req.priority s.m_requests with
        | none => some s
        | some index =>
          nextPending now
            { s with
              m_requests := qlistInsert req index s.m_requests
              m_requestsToDo := s.m_requestsToDo + 1 }

/-- The function `TvChannelList::refreshChannels`. -/
def refreshChannels (load : QUrl → QByteArray → QUrl → χ → χ) (cache : QAbstractNetworkCache)
    (now : Int) (forceReload : Bool) (s : TvChannelList χ) : Option (TvChannelList χ) :=
  if s.m_startUrl.isValid then
    requestData load cache now
      { urls := [s.m_startUrl], priority := 0, channel := none, date := none }
      none (if forceReload then -1 else s.m_startUrlRefresh) s
  else some s

/-- The function `TvChannelList::reload`. -/
def reload (load : QUrl → QByteArray → QUrl → χ → χ) (cache : QAbstractNetworkCache)
    (now : Int) (s : TvChannelList χ) : Option (TvChannelList χ) :=
  refreshChannels load cache now true { s with m_lastFetch := [] }

/-! ## Event traces -/

/-- One call into the scheduler from outside: the public operations, the slots driven by the
network reply and by the throttle timer, and `nextPending` itself. -/
inductive Op where
  | requestData (cache : QAbstractNetworkCache) (now : Int) (req : Request)
      (lastmod : QDateTime) (refreshAge : Int)
  | refreshChannels (cache : QAbstractNetworkCache) (now : Int) (forceReload : Bool)
  | reload (cache : QAbstractNetworkCache) (now : Int)
  | requestReadyRead (bytes : QByteArray)
  | requestFinished (now : Int)
  | trimRequests (first last : Int)
  | abort
  | throttleTimeout (now : Int)
  | nextPending (now : Int)

/-- Runs one operation.  The throttle timer is single-shot, so it is no longer armed when its
slot `throttleTimeout` runs. -/
def step (load : QUrl → QByteArray → QUrl → χ → χ) (op : Op) (s : TvChannelList χ) :
    Option (TvChannelList χ) :=
  match op with
  | .requestData cache now req lastmod refreshAge =>
    requestData load cache now req lastmod refreshAge s
  | .refreshChannels cache now forceReload => refreshChannels load cache now forceReload s
  | .reload cache now => reload load cache now s
  | .requestReadyRead bytes => some (requestReadyRead bytes s)
  | .requestFinished now => requestFinished load now s
  | .trimRequests first last => some (trimRequests first last s)
  | .abort => some (abort s)
  | .throttleTimeout now => throttleTimeout now { s with m_throttleTimer := none }
  | .nextPending now => nextPending now s

/-- Runs a sequence of operations, first to last. -/
def run (load : QUrl → QByteArray → QUrl → χ → χ) : List Op → TvChannelList χ →
    Option (TvChannelList χ)
  | [], s => some s
  | op :: ops, s =>
    match step load op s with
    | none => none
    | some s1 => run load ops s1

/-- A `requestData` call carries at least one candidate URL, as every caller in the source
guarantees; the other operations carry no constraint. -/
def Op.wellFormed : Op → Prop
  | .requestData _ _ req _ _ => req.urls ≠ []
  | _ => True

instance (op : Op) : Decidable op.wellFormed := by
  cases op <;> simp only [Op.wellFormed] <;> infer_instance

/-! ## Invariants of the scheduler -/

/-- The queue is sorted by non-decreasing priority. -/
def SortedQueue (q : List Request) : Prop :=
  q.Pairwise (fun a b => a.priority ≤ b.priority)

/-- Of two queued requests with one priority, the later one's first URL is not a candidate of
the earlier one. -/
def NoRepeat (q : List Request) : Prop :=
  q.Pairwise (fun a b => a.priority = b.priority → ∀ u, b.urls.head? = some u → u ∉ a.urls)

/-- Every queued request has a candidate URL. -/
def UrlsNonempty (q : List Request) : Prop :=
  ∀ r ∈ q, r.urls ≠ []

/-- The three queue invariants together. -/
structure QueueInv (q : List Request) : Prop where
  urls : UrlsNonempty q
  sorted : SortedQueue q
  norepeat : NoRepeat q

/-- The value `forceProgressUpdate` stores for the two counters. -/
def progressOf (done toDo : Int) : ℚ :=
  if done < toDo then (done : ℚ) / (toDo : ℚ) else 1

/-- The progress invariant: `m_requestsDone` is not negative and the stored progress agrees
with the counters. -/
structure ProgressInv (s : TvChannelList χ) : Prop where
  done_nonneg : 0 ≤ s.m_requestsDone
  progress : s.m_progress = progressOf s.m_requestsDone s.m_requestsToDo

/-- What one operation establishes in its result `s1` when started in `s`: the queue
invariants, and the progress invariant if it held before. -/
def Preserved (s s1 : TvChannelList χ) : Prop :=
  QueueInv s1.m_requests ∧ (ProgressInv s → ProgressInv s1)

/-- All candidate URLs of a `requestData` call are valid URLs. -/
def Op.validUrls : Op → Prop
  | .requestData _ _ req _ _ => ∀ u ∈ req.urls, u.isValid = true
  | _ => True

instance (op : Op) : Decidable op.validUrls := by
  cases op <;> simp only [Op.validUrls] <;> infer_instance

/-- The reply pointer is set exactly when the in-flight URL is valid, and every queued
candidate URL is valid. -/
structure InFlightInv (s : TvChannelList χ) : Prop where
  reply : s.m_reply = s.m_currentRequest.isValid
  valid : ∀ r ∈ s.m_requests, ∀ u ∈ r.urls, u.isValid = true

/-! ## Timed traces -/

/-- The time at which an operation runs, for the operations that read the clock. -/
def Op.time : Op → Option Int
  | .requestData _ now _ _ _ => some now
  | .refreshChannels _ now _ => some now
  | .reload _ now => some now
  | .requestFinished now => some now
  | .throttleTimeout now => some now
  | .nextPending now => some now
  | _ => none

/-- The operation is the slot of the throttle timer. -/
def Op.isThrottleTimeout : Op → Bool
  | .throttleTimeout _ => true
  | _ => false

/-- The operation is the slot `requestFinished` of the reply. -/
def Op.isRequestFinished : Op → Bool
  | .requestFinished _ => true
  | _ => false

/-- The single-shot throttle timer is armed and its 1000 ms have elapsed at `now`. -/
def timerDue (s : TvChannelList χ) (now : Int) : Bool :=
  match s.m_throttleTimer with
  | some due => decide (due ≤ now)
  | none => false

/-- An operation can happen at clock reading `t` in state `s`: the clock does not run
backwards, and `throttleTimeout` is only ever called by the timer, when it is due. -/
def Op.enabledAt (t : Int) (s : TvChannelList χ) (op : Op) : Bool :=
  (match op.time with
   | some now => decide (t ≤ now)
   | none => true) &&
  (match op with
   | .throttleTimeout now => timerDue s now
   | _ => true)

/-- A trace that can happen in real time from state `s` at clock reading `t`. -/
def timedTrace (load : QUrl → QByteArray → QUrl → χ → χ) : Int → TvChannelList χ →
    List Op → Bool
  | _, _, [] => true
  | t, s, op :: ops =>
    op.enabledAt t s &&
      (match step load op s with
       | none => false
       | some s1 => timedTrace load (op.time.getD t) s1 ops)

/-- The step `op` from `s` hands a GET to the network access manager. -/
def startsFetch (load : QUrl → QByteArray → QUrl → χ → χ) (op : Op) (s : TvChannelList χ) :
    Bool :=
  match step load op s with
  | none => false
  | some s1 => decide (s1.m_nam.length = s.m_nam.length + 1)

/-- The throttle state is the same in `s1` as in `s`: the GETs issued, the throttle flag and
the timer. -/
def SameThrottle (s s1 : TvChannelList χ) : Prop :=
  s1.m_nam = s.m_nam ∧ s1.m_throttled = s.m_throttled ∧ s1.m_throttleTimer = s.m_throttleTimer

/-- Between `s` and `s1` one GET was issued at `now`, from an unthrottled state, and the
throttle was set with the timer armed for 1000 ms. -/
def Dispatched (now : Int) (s s1 : TvChannelList χ) : Prop :=
  s.m_throttled = false ∧ ∃ url, s1.m_nam = (now, url) :: s.m_nam ∧ s1.m_throttled = true ∧
    s1.m_throttleTimer = some (now + 1000)

/-- The invariant behind the throttle: while throttled the timer is armed for 1000 ms after
the latest GET, otherwise the timer is idle and the latest GET is at least 1000 ms old; and
the GETs issued so far are at least 1000 ms apart. -/
structure ThrottleInv (t : Int) (s : TvChannelList χ) : Prop where
  armed : s.m_throttled = true →
    ∃ g url rest, s.m_nam = (g, url) :: rest ∧ s.m_throttleTimer = some (g + 1000)
  idle : s.m_throttled = false →
    s.m_throttleTimer = none ∧ ∀ g url rest, s.m_nam = (g, url) :: rest → g + 1000 ≤ t
  spaced : s.m_nam.Chain' (fun later earlier => earlier.1 + 1000 ≤ later.1)

/-! ## Bookmark matcher -/

/-- Modelled from the spec: the enumeration `TvBookmark::Match` is declared in a header that
is not part of the sources.  `matchBookmarks` names `NoMatch`, `ShouldMatch` and `TitleMatch`;
every other enumerator is an exact or specific match kind, kept apart by a number. -/
inductive TvBookmark.Match where
  | NoMatch
  | ShouldMatch
  | TitleMatch
  | Specific (kind : Nat)
deriving DecidableEq, Repr

open TvBookmark.Match in
/-- The verdict is stronger than `TitleMatch` in the tier order. -/
def TvBookmark.Match.isSpecific : TvBookmark.Match → Bool
  | NoMatch => false
  | ShouldMatch => false
  | TitleMatch => false
  | Specific _ => true

/-- The member `QString::toLower()`, folding the letters the way `Char.toLower` does: the
letters A to Z.  `QString::toLower` folds the other cased letters as well; the theorems use
the folding only as a function from titles to keys. -/
def toLower (s : QString) : QString := ⟨s.data.map Char.toLower⟩

/-- The comparison `a < b` of two `QString`s, by their code units. -/
def QString.lt (a b : QString) : Prop := a.data.map Char.toNat < b.data.map Char.toNat

instance (a b : QString) : Decidable (QString.lt a b) := by
  unfold QString.lt
  infer_instance

/-- The call `QMultiMap::constFind(key)` on the entries in iteration order: the iterator is
the part of the map from the first entry with that key on, and `constEnd()` is `[]`. -/
def constFind (key : QString) : List (QString × TvBookmark) → List (QString × TvBookmark)
  | [] => []
  | e :: rest => if e.1 == key then e :: rest else constFind key rest

open TvBookmark.Match in
/-- The loop of `matchBookmarks` from iterator position `it`, with the running `result` and
the contents of `*bookmark`. -/
def matchLoop (verdict : TvBookmark → TvBookmark.Match) :
    List (QString × TvBookmark) → TvBookmark.Match → Option TvBookmark →
    TvBookmark.Match × Option TvBookmark
  | [], result, bookmark => (result, bookmark)
  | e :: it, result, bookmark =>
    let m := verdict e.2
    if m != NoMatch then
      if m == ShouldMatch then
        if result != TitleMatch then matchLoop verdict it ShouldMatch (some e.2)
        else matchLoop verdict it result bookmark
      else if m != TitleMatch then (m, some e.2)
      else matchLoop verdict it TitleMatch (some e.2)
    else matchLoop verdict it result bookmark

/-- The function `TvChannelList::matchBookmarks`: the returned verdict and the contents of
`*bookmark` afterwards, which holds `bookmark` on entry.  `verdict` is `TvBookmark::match`. -/
def matchBookmarks (verdict : TvBookmark → TvProgramme → Nat → TvBookmark.Match)
    (s : TvChannelList χ) (programme : TvProgramme) (bookmark : Option TvBookmark)
    (options : Nat) : TvBookmark.Match × Option TvBookmark :=
  matchLoop (fun b => verdict b programme options)
    (constFind (toLower programme.title) s.m_indexedBookmarks) TvBookmark.Match.NoMatch bookmark

/-- The bookmarks indexed under `key`, in iteration order. -/
def candidates (key : QString) (index : List (QString × TvBookmark)) : List TvBookmark :=
  (index.filter (fun e => e.1 == key)).map Prod.snd

/-- The keys of a `QMultiMap` come in non-decreasing order. -/
def IndexSorted (index : List (QString × TvBookmark)) : Prop :=
  index.Pairwise (fun a b => ¬ QString.lt b.1 a.1)

/-! ## Freshness rules -/

/-- Rule 1 of `requestData` hits for `url`: valid metadata whose Last-Modified equals the
expected one, and a readable cached stream. -/
def lastModifiedHit (cache : QAbstractNetworkCache) (lastmod : QDateTime) (url : QUrl) : Bool :=
  (cache.metaData url).isValid && (cache.metaData url).lastModified == lastmod &&
    (cache.data url).isSome

/-- Rule 3 of `requestData` hits for `url`: fetched by this process within the last hour,
and a readable cached stream. -/
def recentFetchHit (cache : QAbstractNetworkCache) (lastFetchMap : List (QUrl × Int))
    (now : Int) (url : QUrl) : Bool :=
  QDateTime.isValid (lastFetchValue lastFetchMap url) &&
    QDateTime.ge (lastFetchValue lastFetchMap url) (QDateTime.addSecs (some now) (-(60 * 60))) &&
    (cache.data url).isSome

/-! ## Concrete inputs -/

/-- A valid URL with the given identity. -/
def exUrl (n : Nat) : QUrl := ⟨n, true⟩

/-- A cache that knows no URL. -/
def emptyCache : QAbstractNetworkCache :=
  { metaData := fun _ => { isValid := false, lastModified := none }
    data := fun _ => none }

/-- A channel model that records every document handed to `load`, with its URL. -/
abbrev LoadLog := List (QUrl × QByteArray)

/-- A merge that appends the document to the log. -/
def exLoad : QUrl → QByteArray → QUrl → LoadLog → LoadLog :=
  fun _ device url log => log ++ [(url, device)]

/-- The initial state for start URL 1 with a 24-hour refresh and no bookmarks. -/
def exInit : TvChannelList LoadLog := TvChannelList.init (exUrl 1) 24 [] [] []

/-- A request for the given candidate URLs at the given priority. -/
def exRequest (urls : List Nat) (priority : Int) : Request :=
  { urls := urls.map exUrl, priority := priority, channel := none, date := none }

/-- Three cache-missing `requestData` calls: the first is dispatched at once, the other two
stay queued behind it at priority 1 and share URL 2. -/
def exOverlapOps : List Op :=
  [ .requestData emptyCache 0 (exRequest [9] 0) none (-1),
    .requestData emptyCache 5 (exRequest [2, 3] 1) none (-1),
    .requestData emptyCache 6 (exRequest [4, 2] 1) none (-1) ]

/-- Two `requestData` calls, the body and completion of the first fetch after 200 ms, and
the throttle timer firing 1000 ms after the first GET. -/
def exThrottleOps : List Op :=
  [ .requestData emptyCache 0 (exRequest [9] 0) none (-1),
    .requestData emptyCache 5 (exRequest [2, 3] 1) none (-1),
    .requestReadyRead [60, 116, 118, 62],
    .requestFinished 200,
    .throttleTimeout 1000 ]

/-- A verdict function that depends on the bookmark only: bookmark 1 gives `ShouldMatch`,
bookmark 2 `TitleMatch`, bookmark 3 a specific match and every other bookmark `NoMatch`. -/
def exVerdict : TvBookmark → TvProgramme → Nat → TvBookmark.Match :=
  fun b _ _ =>
    match b.ptr with
    | 1 => TvBookmark.Match.ShouldMatch
    | 2 => TvBookmark.Match.TitleMatch
    | 3 => TvBookmark.Match.Specific 0
    | _ => TvBookmark.Match.NoMatch

/-- The initial state with the given bookmark index. -/
def exMatcher (index : List (QString × TvBookmark)) : TvChannelList LoadLog :=
  TvChannelList.init (exUrl 1) 24 [] (index.map Prod.snd) index

/-- A bookmark with the given pointer and title. -/
def exBookmark (ptr : Nat) (title : QString) : TvBookmark := { ptr := ptr, title := title }

/-- A programme titled "News". -/
def exNews : TvProgramme := { title := "News" }

/-- A sorted index with a `NoMatch` bookmark under "news" and a specific-match bookmark
under "sport". -/
def exIndexSpecific : List (QString × TvBookmark) :=
  [("news", exBookmark 4 "News"), ("sport", exBookmark 3 "Sport")]

/-- A sorted index with a `ShouldMatch` and a `TitleMatch` bookmark under "news" and a
specific-match bookmark under "sport". -/
def exIndexTitle : List (QString × TvBookmark) :=
  [("news", exBookmark 1 "News"), ("news", exBookmark 2 "News"),
    ("sport", exBookmark 3 "Sport")]

/-- A sorted index with a `NoMatch` bookmark under "news" and a `ShouldMatch` bookmark under
"sport". -/
def exIndexShould : List (QString × TvBookmark) :=
  [("news", exBookmark 4 "News"), ("sport", exBookmark 1 "Sport")]

/-- A cache in which URL 2 is stored with Last-Modified 50 and URL 3 with Last-Modified 77,
both readable. -/
def exCache : QAbstractNetworkCache :=
  { metaData := fun url =>
      if url = exUrl 2 then { isValid := true, lastModified := some 50 }
      else if url = exUrl 3 then { isValid := true, lastModified := some 77 }
      else { isValid := false, lastModified := none }
    data := fun url =>
      if url = exUrl 2 then some [2, 2]
      else if url = exUrl 3 then some [3, 3]
      else none }

/-- URL 2 is fetched from the network, with a body, and the fetch finishes at 200 ms. -/
def exFetchOps : List Op :=
  [ .requestData emptyCache 0 (exRequest [2] 1) none (-1),
    .requestReadyRead [60, 116, 118, 62],
    .requestFinished 200 ]

/-- URL 2 is fetched and the fetch finishes at 200 ms; at 250 ms, with the throttle still
set, a request for URL 3 arrives. -/
def exStallOps : List Op :=
  exFetchOps ++ [.requestData emptyCache 250 (exRequest [3] 1) none (-1)]

/-- The state after `exFetchOps`: URL 2 is recorded as fetched at 200 ms, its body is merged
and the scheduler is idle again. -/
def exFetched : TvChannelList LoadLog :=
  { exInit with
    m_throttled := true
    m_lastFetch := [(exUrl 2, 200)]
    m_throttleTimer := some 1000
    m_nam := [(0, exUrl 2)]
    m_model := [(exUrl 2, [60, 116, 118, 62])] }

/-- Two states agree on everything the scheduler reads and writes apart from the
recently-fetched map and the channel model. -/
structure SameScheduling (a b : TvChannelList χ) : Prop where
  requests : a.m_requests = b.m_requests
  toDo : a.m_requestsToDo = b.m_requestsToDo
  done : a.m_requestsDone = b.m_requestsDone
  busy : a.m_busy = b.m_busy
  progress : a.m_progress = b.m_progress
  current : a.m_currentRequest = b.m_currentRequest
  reply : a.m_reply = b.m_reply
  throttled : a.m_throttled = b.m_throttled
  contents : a.m_contents = b.m_contents
  nam : a.m_nam = b.m_nam
  timer : a.m_throttleTimer = b.m_throttleTimer

/-- A state with URL 9 in flight since time 0 and the request `[2, 3]` queued behind it. -/
def exQueued : TvChannelList LoadLog :=
  { exInit with
    m_throttled := true
    m_busy := true
    m_progress := 0
    m_requestsToDo := 2
    m_reply := true
    m_currentRequest := exUrl 9
    m_requests := [exRequest [2, 3] 1]
    m_throttleTimer := some 1000
    m_nam := [(0, exUrl 9)] }

instance (q : List Request) : Decidable (UrlsNonempty q) := by
  unfold UrlsNonempty
  infer_instance

/-- The invariant behind the idle reset, for traces whose candidate URLs are all valid: the
in-flight invariant, busy is set while a reply is outstanding, and with an empty queue and
nothing in flight the scheduler is in its reset state. -/
structure IdleInv (s : TvChannelList χ) : Prop where
  inflight : InFlightInv s
  busy : s.m_reply = true → s.m_busy = true
  idle : s.m_requests = [] → s.m_currentRequest.isValid = false →
    s.m_busy = false ∧ s.m_progress = 1 ∧ s.m_requestsToDo = 0 ∧ s.m_requestsDone = 0

/-- A request whose only candidate URL is not a valid URL. -/
def exInvalidRequest : Request :=
  { urls := [{ id := 7, isValid := false }], priority := 1, channel := none, date := none }

/-- The invalid URL is handed to the network, a second request is queued behind it and
trimmed again, and then the reply for the invalid URL finishes. -/
def exInvalidOps : List Op :=
  [ .requestData emptyCache 0 exInvalidRequest none (-1),
    .requestData emptyCache 1 (exRequest [2] 1) none (-1),
    .trimRequests 1 2,
    .requestFinished 50 ]

/-- A verdict function with two bookmarks in each tier: bookmarks 1 and 5 give `ShouldMatch`,
bookmarks 2 and 6 `TitleMatch`, every other bookmark `NoMatch`. -/
def exTieVerdict : TvBookmark → TvProgramme → Nat → TvBookmark.Match :=
  fun b _ _ =>
    match b.ptr with
    | 1 => TvBookmark.Match.ShouldMatch
    | 5 => TvBookmark.Match.ShouldMatch
    | 2 => TvBookmark.Match.TitleMatch
    | 6 => TvBookmark.Match.TitleMatch
    | _ => TvBookmark.Match.NoMatch

/-- Two `TitleMatch` bookmarks indexed under "news": bookmark 2 comes first in iteration
order, bookmark 6 second. -/
def exIndexTie : List (QString × TvBookmark) :=
  [("news", exBookmark 2 "News"), ("news", exBookmark 6 "News")]

/-! ## Channel model and `TvChannelList::load` -/

/-- The content of one XML element, as the loader of that element reads it. -/
abbrev XmlBody := QString

/-- Modelled from the spec: the class `TvChannel` is declared outside the sources.  A channel
has an id, a name, a hidden flag, the answer of `hasDataFor()`, its programmes in the order
they were added and its channel numbers; `addProgramme` and `addChannelNumber` append. -/
structure TvChannel where
  id : QString
  name : QString
  hidden : Bool
  hasDataFor : Bool
  programmes : List TvProgramme
  channelNumbers : List QString
deriving DecidableEq, Repr

/-- The channel `new TvChannel(this)`. -/
def TvChannel.new : TvChannel :=
  { id := "", name := "", hidden := false, hasDataFor := false, programmes := [],
    channelNumbers := [] }

/-- What `load` uses from outside the file: `TvChannel::load` on a `channel` element with the
given `id` attribute and content (the updated channel and whether it changed),
`TvChannel::trimProgrammes`, `TvChannel::compare`, the programme that `TvProgramme::load`
builds from a `programme` element, whether the host of a URL ends in `.oztivo.net`,
and the channel entries of the bundled file `channels_oztivo.xml`, each with its `number`
elements as pairs of the `system` attribute and the element text (`none` when the file cannot
be opened). -/
structure LoadEnv where
  channelLoad : QString → XmlBody → TvChannel → TvChannel × Bool
  trimProgrammes : TvChannel → TvChannel × Bool
  compare : TvChannel → TvChannel → Int
  programmeLoad : QString → XmlBody → TvProgramme
  hostIsOzTivo : QUrl → Bool
  ozTivoData : Option (List (QString × List (QString × QString)))

/-- What the loop of `load` sees between `<tv>` and `</tv>`: a `channel` start element with
its `id` attribute, a `programme` start element with its `channel` attribute (each with the
content its loader consumes), the end element `</tv>`, or any other token. -/
inductive TvItem where
  | channel (id : QString) (body : XmlBody)
  | programme (channel : QString) (body : XmlBody)
  | endTv
  | other
deriving DecidableEq, Repr

/-- The channel side of `TvChannelList`: the registry `m_channels` in key order, the list
`m_activeChannels` (each pointer given by the registry key of its channel), and the flags and
hidden ids that `load` reads and writes. -/
structure ChannelModel where
  m_channels : List (QString × TvChannel)
  m_activeChannels : List QString
  m_hasDataFor : Bool
  m_haveChannelNumbers : Bool
  m_hiddenChannelIds : List QString
deriving DecidableEq, Repr

/-- The signals emitted by one `load`: `channelsChanged`, the channels reported by
`programmesChanged`, and `channelIndexLoaded`. -/
structure LoadSignals where
  channelsChanged : Bool
  programmesChanged : List QString
  channelIndexLoaded : Bool
deriving DecidableEq, Repr

/-- The locals of `load` while the loop runs. -/
structure LoadState where
  model : ChannelModel
  newChannels : Bool
  newProgrammes : List QString
deriving DecidableEq, Repr

/-- The lookup `m_channels.value(id, 0)`. -/
def channelValue (channels : List (QString × TvChannel)) (id : QString) : Option TvChannel :=
  (channels.find? (fun e => e.1 == id)).map Prod.snd

/-- The call `m_channels.insert(id, channel)` on a `QMap` kept in key order. -/
def channelInsert (id : QString) (channel : TvChannel) :
    List (QString × TvChannel) → List (QString × TvChannel)
  | [] => [(id, channel)]
  | e :: rest =>
    if e.1 == id then (id, channel) :: rest
    else if QString.lt id e.1 then (id, channel) :: e :: rest
    else e :: channelInsert id channel rest

/-- A change made through the pointer of the channel registered under `id`. -/
def channelSet (id : QString) (channel : TvChannel) (channels : List (QString × TvChannel)) :
    List (QString × TvChannel) :=
  channels.map (fun e => if e.1 == id then (e.1, channel) else e)

/-- The call `newProgrammes.insert(channel)` on the `QSet`. -/
def qsetInsert (id : QString) (set : List QString) : List QString :=
  if set.contains id then set else set ++ [id]

/-- The statement `if (channel->hasDataFor()) m_hasDataFor = true;` of `load`. -/
def noteDataFor (channel : TvChannel) (st : LoadState) : LoadState :=
  if channel.hasDataFor then { st with model := { st.model with m_hasDataFor := true } }
  else st

/-- The body of the loop of `load` for a `channel` start element. -/
def loadChannel (env : LoadEnv) (id : QString) (body : XmlBody) (st : LoadState) : LoadState :=
  match channelValue st.model.m_channels id with
  | some channel =>
    let loaded := env.channelLoad id body channel
    if loaded.2 then
      let trimmed := env.trimProgrammes loaded.1
      noteDataFor trimmed.1
        { st with
          model := { st.model with m_channels := channelSet id trimmed.1 st.model.m_channels }
          newChannels := true
          newProgrammes :=
            if trimmed.2 then qsetInsert id st.newProgrammes else st.newProgrammes }
    else
      noteDataFor loaded.1
        { st with
          model := { st.model with m_channels := channelSet id loaded.1 st.model.m_channels } }
  | none =>
    let loaded := (env.channelLoad id body TvChannel.new).1
    let channel : TvChannel :=
      if st.model.m_hiddenChannelIds.contains id then { loaded with hidden := true } else loaded
    noteDataFor channel
      { st with
        model := { st.model with m_channels := channelInsert id channel st.model.m_channels }
        newChannels := true }

/-- The body of the loop of `load` for a `programme` start element. -/
def loadProgramme (env : LoadEnv) (channelId : QString) (body : XmlBody) (st : LoadState) :
    LoadState :=
  let st1 : LoadState :=
    match channelValue st.model.m_channels channelId with
    | some _ => st
    | none =>
      let created : TvChannel := { TvChannel.new with id := channelId, name := channelId }
      let channel : TvChannel :=
        if st.model.m_hiddenChannelIds.contains channelId then { created with hidden := true }
        else created
      { st with
        model :=
          { st.model with m_channels := channelInsert channelId channel st.model.m_channels }
        newChannels := true }
  let channel := (channelValue st1.model.m_channels channelId).getD TvChannel.new
  let programme := env.programmeLoad channelId body
  { st1 with
    model :=
      { st1.model with
        m_channels :=
          channelSet channelId { channel with programmes := channel.programmes ++ [programme] }
            st1.model.m_channels }
    newProgrammes := qsetInsert channelId st1.newProgrammes }

/-- The loop of `load`: it ends at `</tv>` or when the reader has no more tokens. -/
def loadLoop (env : LoadEnv) : List TvItem → LoadState → LoadState
  | [], st => st
  | .endTv :: _, st => st
  | .other :: rest, st => loadLoop env rest st
  | .channel id body :: rest, st => loadLoop env rest (loadChannel env id body st)
  | .programme channelId body :: rest, st =>
    loadLoop env rest (loadProgramme env channelId body st)

/-- The overload `loadOzTivoChannelData(reader, channel)`: the `number` elements of one
channel entry, where a `foxtel` number is skipped when the channel already has a number.
The result is the channel and whether a number was added. -/
def loadOzTivoChannel : List (QString × QString) → TvChannel → TvChannel × Bool
  | [], channel => (channel, false)
  | (system, num) :: rest, channel =>
    if system == "foxtel" && !channel.channelNumbers.isEmpty then
      loadOzTivoChannel rest channel
    else
      let res := loadOzTivoChannel rest
        { channel with channelNumbers := channel.channelNumbers ++ [num] }
      (res.1, true)

/-- The loop of `loadOzTivoChannelData()` over the channel entries of the bundled file. -/
def loadOzTivoEntries : List (QString × List (QString × QString)) → ChannelModel → ChannelModel
  | [], m => m
  | (id, numbers) :: rest, m =>
    match channelValue m.m_channels id with
    | some channel =>
      let res := loadOzTivoChannel numbers channel
      loadOzTivoEntries rest
        { m with
          m_channels := channelSet id res.1 m.m_channels
          m_haveChannelNumbers := m.m_haveChannelNumbers || res.2 }
    | none => loadOzTivoEntries rest m

/-- The function `TvChannelList::loadOzTivoChannelData()`. -/
def loadOzTivoChannelData (env : LoadEnv) (m : ChannelModel) : ChannelModel :=
  match env.ozTivoData with
  | none => m
  | some entries => loadOzTivoEntries entries m

/-- The comparison `sortActiveChannels` on two registry keys, which stand for the channel
pointers. -/
def sortActiveChannels (env : LoadEnv) (channels : List (QString × TvChannel))
    (k1 k2 : QString) : Bool :=
  decide (env.compare ((channelValue channels k1).getD TvChannel.new)
    ((channelValue channels k2).getD TvChannel.new) < 0)

/-- The call `qSort(begin, end, lessThan)`: the list in an order in which no element is less
than an earlier one.  Qt leaves the order of equal elements open; here they keep the order
they had. -/
def qSort (lessThan : QString → QString → Bool) (l : List QString) : List QString :=
  l.insertionSort (fun a b => lessThan b a = false)

/-- The part of `load` after the loop that rebuilds the active-channel list. -/
def rebuildActiveChannels (env : LoadEnv) (startUrl : QUrl) (m : ChannelModel) : ChannelModel :=
  let active : List QString :=
    if m.m_hasDataFor then (m.m_channels.filter (fun e => e.2.hasDataFor)).map Prod.fst
    else m.m_channels.map Prod.fst
  let m1 : ChannelModel := { m with m_activeChannels := active }
  let m2 : ChannelModel := if env.hostIsOzTivo startUrl then loadOzTivoChannelData env m1 else m1
  { m2 with
    m_activeChannels := qSort (sortActiveChannels env m2.m_channels) m2.m_activeChannels }

/-- The function `TvChannelList::load` for the items of one `<tv>` element fetched from
`url`: the channel model afterwards and the signals emitted. -/
def TvChannelList.load (env : LoadEnv) (startUrl : QUrl) (items : List TvItem) (url : QUrl)
    (m : ChannelModel) : ChannelModel × LoadSignals :=
  let st := loadLoop env items { model := m, newChannels := false, newProgrammes := [] }
  let m1 := if st.newChannels then rebuildActiveChannels env startUrl st.model else st.model
  (m1, { channelsChanged := st.newChannels
         programmesChanged := st.newProgrammes
         channelIndexLoaded := decide (url = startUrl) })

/-- The XML walk of `requestData` and `requestFinished` over one document: every `tv` start
element found by the tokenizer `parse` is handed to `load`.  This is the `load` argument of
the scheduler for the channel model `ChannelModel`. -/
def loadDocument (env : LoadEnv) (parse : QByteArray → List (List TvItem)) (startUrl : QUrl)
    (device : QByteArray) (url : QUrl) (m : ChannelModel) : ChannelModel :=
  (parse device).foldl (fun acc items => (TvChannelList.load env startUrl items url acc).1) m

/-- An environment for the examples: a channel element with the body "datafor" declares data
and any other body declares none, the channel changes when that differs from before;
nothing is trimmed; channels compare by the length of their id; the host is not an OzTivo
one. -/
def exEnv : LoadEnv :=
  { channelLoad := fun id body channel =>
      ({ channel with id := id, name := id, hasDataFor := body == "datafor" },
        channel.hasDataFor != (body == "datafor") || channel.id != id)
    trimProgrammes := fun channel => (channel, false)
    compare := fun a b => (a.id.length : Int) - (b.id.length : Int)
    programmeLoad := fun _ body => { title := body }
    hostIsOzTivo := fun _ => false
    ozTivoData := none }

/-- The channel model before anything was loaded. -/
def exEmptyModel : ChannelModel :=
  { m_channels := [], m_activeChannels := [], m_hasDataFor := false,
    m_haveChannelNumbers := false, m_hiddenChannelIds := [] }

/-- Whether a token of the stream leaves the channel `c` alone: it is neither a `channel` nor
a `programme` element for `c`, nor the end element `</tv>`. -/
def TvItem.avoids (c : QString) : TvItem → Bool
  | .channel id _ => id != c
  | .programme channelId _ => channelId != c
  | .endTv => false
  | .other => true

/-- The flag `m_hasDataFor` covers the registry: it is set as soon as some registered channel
reports `hasDataFor`. -/
def FlagInv (m : ChannelModel) : Prop :=
  ∀ (k : QString) (ch : TvChannel), channelValue m.m_channels k = some ch →
    ch.hasDataFor = true → m.m_hasDataFor = true

/-- A first document: channel "A" declares data, channel "BB" declares none. -/
def exDataForItems : List TvItem :=
  [TvItem.channel "A" "datafor", TvItem.channel "BB" "", TvItem.endTv]

/-- A second document: channel "A" is sent again and declares no data any more. -/
def exNoDataForItems : List TvItem := [TvItem.channel "A" "", TvItem.endTv]

/-- The channel model after the first document. -/
def exAfterFirst : ChannelModel :=
  (TvChannelList.load exEnv (exUrl 1) exDataForItems (exUrl 1) exEmptyModel).1

/-- The channel model after the second document. -/
def exAfterSecond : ChannelModel :=
  (TvChannelList.load exEnv (exUrl 1) exNoDataForItems (exUrl 2) exAfterFirst).1

/-! ## Bookmark list and title index -/

/-- The call `QMultiMap::insert(key, bookmark)`: the new entry goes in front of the first
entry whose key is not smaller, so entries stay in key order and the latest of equal keys
comes first. -/
def indexInsert (key : QString) (bookmark : TvBookmark) :
    List (QString × TvBookmark) → List (QString × TvBookmark)
  | [] => [(key, bookmark)]
  | e :: rest =>
    if QString.lt e.1 key then e :: indexInsert key bookmark rest
    else (key, bookmark) :: e :: rest

/-- The call `QMultiMap::remove(key, bookmark)`: every entry with that key and that pointer is
removed. -/
def indexRemove (key : QString) (bookmark : TvBookmark) (index : List (QString × TvBookmark)) :
    List (QString × TvBookmark) :=
  index.filter (fun e => !(e.1 == key && e.2.ptr == bookmark.ptr))

/-- The `TvChannelList` object together with the pointers of the bookmark objects that it has
deleted.  The list owns its bookmarks: `replaceBookmarks` deletes them with `qDeleteAll`, and
reading a deleted bookmark or deleting one twice has no defined result (`none` below). -/
structure BookmarkHeap (χ : Type) where
  channelList : TvChannelList χ
  deleted : List Nat

/-- The function `TvChannelList::addBookmark`; `bookmark->title()` reads the bookmark.
`saveBookmarks` writes the bookmarks of the list to the settings and changes no member. -/
def addBookmark (bookmark : TvBookmark) (h : BookmarkHeap χ) : Option (BookmarkHeap χ) :=
  if h.deleted.contains bookmark.ptr then none
  else
    some { h with
      channelList :=
        { h.channelList with
          m_bookmarks := h.channelList.m_bookmarks ++ [bookmark]
          m_indexedBookmarks :=
            indexInsert (toLower bookmark.title) bookmark h.channelList.m_indexedBookmarks } }

/-- The function `TvChannelList::removeBookmark`; `removeAll` compares pointers and
`bookmark->title()` reads the bookmark.  The argument `notify` only decides whether the
signal is emitted and the settings are saved. -/
def removeBookmark (bookmark : TvBookmark) (_notify : Bool) (h : BookmarkHeap χ) :
    Option (BookmarkHeap χ) :=
  if h.deleted.contains bookmark.ptr then none
  else
    some { h with
      channelList :=
        { h.channelList with
          m_bookmarks := h.channelList.m_bookmarks.filter (fun b => !(b.ptr == bookmark.ptr))
          m_indexedBookmarks :=
            indexRemove (toLower bookmark.title) bookmark h.channelList.m_indexedBookmarks } }

/-- The call `qDeleteAll(bookmarks)`: every pointer of the list is deleted, in order; the
result is the deleted pointers afterwards, and there is none when a pointer is deleted that
was deleted before. -/
def qDeleteAll : List TvBookmark → List Nat → Option (List Nat)
  | [], deleted => some deleted
  | b :: rest, deleted =>
    if deleted.contains b.ptr then none else qDeleteAll rest (b.ptr :: deleted)

/-- The loop of `replaceBookmarks` over the new list: each bookmark is read for its title
and inserted into the index. -/
def indexLoop (deleted : List Nat) :
    List TvBookmark → List (QString × TvBookmark) → Option (List (QString × TvBookmark))
  | [], index => some index
  | b :: rest, index =>
    if deleted.contains b.ptr then none
    else indexLoop deleted rest (indexInsert (toLower b.title) b index)

/-- The function `TvChannelList::replaceBookmarks`: the bookmarks of the old list are
deleted, the new list is taken over and the index is rebuilt from it. -/
def replaceBookmarks (bookmarks : List TvBookmark) (h : BookmarkHeap χ) :
    Option (BookmarkHeap χ) :=
  match qDeleteAll h.channelList.m_bookmarks h.deleted with
  | none => none
  | some deleted =>
    match indexLoop deleted bookmarks [] with
    | none => none
    | some index =>
      some
        { channelList :=
            { h.channelList with m_bookmarks := bookmarks, m_indexedBookmarks := index }
          deleted := deleted }

/-- One call that edits the bookmarks. -/
inductive BookmarkOp where
  | addBookmark (bookmark : TvBookmark)
  | removeBookmark (bookmark : TvBookmark) (notify : Bool)
  | replaceBookmarks (bookmarks : List TvBookmark)

/-- The bookmarks an operation is called with. -/
def BookmarkOp.bookmarks : BookmarkOp → List TvBookmark
  | .addBookmark bookmark => [bookmark]
  | .removeBookmark bookmark _ => [bookmark]
  | .replaceBookmarks bookmarks => bookmarks

/-- Runs one bookmark operation. -/
def bookmarkStep (op : BookmarkOp) (h : BookmarkHeap χ) : Option (BookmarkHeap χ) :=
  match op with
  | .addBookmark bookmark => addBookmark bookmark h
  | .removeBookmark bookmark flag => removeBookmark bookmark flag h
  | .replaceBookmarks bookmarks => replaceBookmarks bookmarks h

/-- Runs a sequence of bookmark operations, first to last. -/
def bookmarkRun : List BookmarkOp → BookmarkHeap χ → Option (BookmarkHeap χ)
  | [], h => some h
  | op :: ops, h =>
    match bookmarkStep op h with
    | none => none
    | some h1 => bookmarkRun ops h1

/-- The titles do not change: `title` gives the title of the bookmark behind each pointer, and
the bookmark carries it whenever it is seen. -/
def TitlesFixed (title : Nat → QString) (bookmarks : List TvBookmark) : Prop :=
  ∀ b ∈ bookmarks, b.title = title b.ptr

/-- The index holds the pair of lower-cased title and bookmark for each bookmark of the list,
as often as the list holds the bookmark. -/
def IndexConsistent (s : TvChannelList χ) : Prop :=
  s.m_indexedBookmarks.Perm (s.m_bookmarks.map (fun b => (toLower b.title, b)))

/-- No bookmark of the list has been deleted. -/
def BookmarksLive (h : BookmarkHeap χ) : Prop :=
  ∀ b ∈ h.channelList.m_bookmarks, b.ptr ∉ h.deleted

/-- The operation is called with new bookmarks: `addBookmark` with a bookmark that is neither
deleted nor in the list, `replaceBookmarks` with distinct such bookmarks, and
`removeBookmark` with a bookmark that is not deleted. -/
def freshOp (op : BookmarkOp) (h : BookmarkHeap χ) : Bool :=
  match op with
  | .addBookmark bookmark =>
    !h.deleted.contains bookmark.ptr &&
      !(h.channelList.m_bookmarks.map TvBookmark.ptr).contains bookmark.ptr
  | .removeBookmark bookmark _ => !h.deleted.contains bookmark.ptr
  | .replaceBookmarks bookmarks =>
    decide (bookmarks.map TvBookmark.ptr).Nodup &&
      bookmarks.all (fun b => !h.deleted.contains b.ptr &&
        !(h.channelList.m_bookmarks.map TvBookmark.ptr).contains b.ptr)

/-- Every operation of the sequence is called with new bookmarks in the state it runs in. -/
def freshRun : List BookmarkOp → BookmarkHeap χ → Bool
  | [], _ => true
  | op :: ops, h =>
    freshOp op h &&
      (match bookmarkStep op h with
       | none => true
       | some h1 => freshRun ops h1)

instance (title : Nat → QString) (bookmarks : List TvBookmark) :
    Decidable (TitlesFixed title bookmarks) := by
  unfold TitlesFixed
  infer_instance

/-- The titles behind the pointers of the examples: bookmark 1 is "News", every other one is
"Sport". -/
def exTitle (ptr : Nat) : QString := if ptr = 1 then "News" else "Sport"

/-- The object the constructor leaves, with no bookmark deleted yet. -/
def exHeap : BookmarkHeap LoadLog := { channelList := exInit, deleted := [] }

/-- Bookmarks 1 and 2 are added, bookmark 2 is removed and added again, the list is replaced
by bookmarks 3 and 5, which deletes bookmarks 1 and 2, bookmark 4 is added and bookmark 5 is
removed. -/
def exBookmarkOps : List BookmarkOp :=
  [ .addBookmark (exBookmark 1 "News"),
    .addBookmark (exBookmark 2 "Sport"),
    .removeBookmark (exBookmark 2 "Sport") true,
    .addBookmark (exBookmark 2 "Sport"),
    .replaceBookmarks [exBookmark 3 "Sport", exBookmark 5 "Sport"],
    .addBookmark (exBookmark 4 "Sport"),
    .removeBookmark (exBookmark 5 "Sport") false ]

/-- Bookmark 1 is added twice and then removed, which takes both copies off the list and the
index, and bookmark 2 is added twice. -/
def exTwiceOps : List BookmarkOp :=
  [ .addBookmark (exBookmark 1 "News"),
    .addBookmark (exBookmark 1 "News"),
    .addBookmark (exBookmark 2 "Sport"),
    .removeBookmark (exBookmark 1 "News") true,
    .addBookmark (exBookmark 2 "Sport") ]

/-- After bookmark 1 was added twice the list is replaced: `qDeleteAll` deletes bookmark 1
twice. -/
def exDoubleFreeOps : List BookmarkOp :=
  [ .addBookmark (exBookmark 1 "News"),
    .addBookmark (exBookmark 1 "News"),
    .replaceBookmarks [exBookmark 3 "Sport"] ]

/-- The list is replaced by a list that holds bookmark 1 of the old list, which was just
deleted. -/
def exReuseOps : List BookmarkOp :=
  [ .addBookmark (exBookmark 1 "News"),
    .replaceBookmarks [exBookmark 3 "Sport", exBookmark 1 "News"] ]

/-- The invariant of the scheduler on traces whose candidate URLs are all valid: the in-flight
invariant; `m_requestsToDo` counts the finished, the queued and the in-flight requests; a
non-empty queue with nothing in flight waits for the throttle; busy is set while a fetch is
in flight; and while throttled the timer is armed. -/
structure FlowInv (s : TvChannelList χ) : Prop where
  inflight : InFlightInv s
  count : s.m_requestsToDo =
    s.m_requestsDone + (s.m_requests.length : Int) +
      (if s.m_currentRequest.isValid then 1 else 0)
  stall : s.m_requests ≠ [] → s.m_currentRequest.isValid = false → s.m_throttled = true
  busy : s.m_currentRequest.isValid = true → s.m_busy = true
  armed : s.m_throttled = true → s.m_throttleTimer.isSome = true

/-- A cache that holds the start URL 1 with Last-Modified 100, readable. -/
def exStartCache : QAbstractNetworkCache :=
  { metaData := fun url =>
      if url = exUrl 1 then { isValid := true, lastModified := some 100 }
      else { isValid := false, lastModified := none }
    data := fun url => if url = exUrl 1 then some [1, 1] else none }

/-- An idle state in which the start URL 1 was fetched at 200 ms and the throttle has
expired. -/
def exStartFetched : TvChannelList LoadLog :=
  { exInit with
    m_lastFetch := [(exUrl 1, 200)]
    m_nam := [(0, exUrl 1)]
    m_model := [(exUrl 1, [60, 116, 118, 62])] }

/-- URL 9 is in flight and the throttle has expired; two of the four queued requests list
URL 9 among their candidates. -/
def exPurge : TvChannelList LoadLog :=
  { exInit with
    m_busy := true
    m_progress := 0
    m_requestsToDo := 5
    m_reply := true
    m_currentRequest := exUrl 9
    m_requests := [exRequest [5, 9] 1, exRequest [3] 1, exRequest [9, 6] 2, exRequest [4] 2]
    m_nam := [(0, exUrl 9)] }

/-! # Lemmas -/

theorem QueueInv.nil : QueueInv [] :=
  ⟨fun _ h => by simp at h, List.Pairwise.nil, List.Pairwise.nil⟩

theorem QueueInv.sublist {q q1 : List Request} (h : q1.Sublist q) (hq : QueueInv q) :
    QueueInv q1 :=
  ⟨fun r hr => hq.urls r (h.subset hr), hq.sorted.sublist h, hq.norepeat.sublist h⟩

theorem mem_qlistInsert {req x : Request} : ∀ {i : Nat} {l : List Request},
    x ∈ qlistInsert req i l → x = req ∨ x ∈ l
  | 0, l, h => by simpa [qlistInsert] using h
  | _ + 1, [], h => by simpa [qlistInsert] using h
  | i + 1, r :: rs, h => by
    simp only [qlistInsert, List.mem_cons] at h
    rcases h with h | h
    · exact Or.inr (by simp [h])
    · rcases mem_qlistInsert h with h1 | h1
      · exact Or.inl h1
      · exact Or.inr (by simp [h1])

theorem QueueInv.insert {req : Request} {url : QUrl} {us : List QUrl}
    (hreq : req.urls = url :: us) : ∀ {q : List Request} {i : Nat},
    QueueInv q → insertIndex url req.priority q = some i → QueueInv (qlistInsert req i q) := by
  intro q
  induction q with
  | nil =>
    intro i _ hi
    simp only [insertIndex, Option.some.injEq] at hi
    subst hi
    refine ⟨?_, ?_, ?_⟩
    · intro r hr
      simp only [qlistInsert, List.mem_singleton] at hr
      subst hr
      simp [hreq]
    · simp [SortedQueue, qlistInsert]
    · simp [NoRepeat, qlistInsert]
  | cons r rs ih =>
    intro i hq hi
    have hrs : QueueInv rs := hq.sublist (List.sublist_cons_self r rs)
    have hsr := List.pairwise_cons.1 hq.sorted
    have hnr := List.pairwise_cons.1 hq.norepeat
    simp only [insertIndex] at hi
    split at hi
    · exact absurd hi (by simp)
    · rename_i hdup
      split at hi
      · rename_i hlt
        simp only [Option.some.injEq] at hi
        subst hi
        refine ⟨?_, ?_, ?_⟩
        · intro x hx
          simp only [qlistInsert, List.mem_cons] at hx
          rcases hx with hx | hx | hx
          · subst hx; simp [hreq]
          · subst hx; exact hq.urls _ (by simp)
          · exact hq.urls _ (by simp [hx])
        · refine List.pairwise_cons.2 ⟨?_, hq.sorted⟩
          intro x hx
          simp only [List.mem_cons] at hx
          rcases hx with hx | hx
          · subst hx; exact le_of_lt hlt
          · exact le_trans (le_of_lt hlt) (hsr.1 x hx)
        · refine List.pairwise_cons.2 ⟨?_, hq.norepeat⟩
          intro x hx heq
          simp only [List.mem_cons] at hx
          rcases hx with hx | hx
          · subst hx; omega
          · have := hsr.1 x hx
            omega
      · rename_i hge
        cases hj : insertIndex url req.priority rs with
        | none => simp [hj] at hi
        | some j =>
          simp only [hj, Option.map_some', Option.some.injEq] at hi
          subst hi
          have hins := ih hrs hj
          refine ⟨?_, ?_, ?_⟩
          · intro x hx
            simp only [qlistInsert, List.mem_cons] at hx
            rcases hx with hx | hx
            · subst hx; exact hq.urls _ (by simp)
            · exact hins.urls x hx
          · refine List.pairwise_cons.2 ⟨?_, hins.sorted⟩
            intro x hx
            rcases mem_qlistInsert hx with hx | hx
            · subst hx; omega
            · exact hsr.1 x hx
          · refine List.pairwise_cons.2 ⟨?_, hins.norepeat⟩
            intro x hx heq u hu
            rcases mem_qlistInsert hx with hx | hx
            · subst hx
              simp only [hreq, List.head?_cons, Option.some.injEq] at hu
              subst hu
              intro hmem
              apply hdup
              simp [heq, hmem]
            · exact hnr.1 x hx heq u hu

theorem removeRepeated_sublist (cur : QUrl) : ∀ (q : List Request) (toDo : Int),
    (removeRepeated cur q toDo).1.Sublist q
  | [], _ => by simp [removeRepeated]
  | r :: rs, toDo => by
    simp only [removeRepeated]
    split
    · exact (removeRepeated_sublist cur rs (toDo - 1)).trans (List.sublist_cons_self r rs)
    · exact (removeRepeated_sublist cur rs toDo).cons₂ r

theorem trimLoop_sublist (first last : Int) : ∀ (q : List Request) (toDo : Int) (rm : Bool),
    (trimLoop first last q toDo rm).1.Sublist q
  | [], _, _ => by simp [trimLoop]
  | r :: rs, toDo, rm => by
    simp only [trimLoop]
    split
    · exact (trimLoop_sublist first last rs (toDo - 1) true).trans (List.sublist_cons_self r rs)
    · exact (trimLoop_sublist first last rs toDo rm).cons₂ r

theorem forceProgressUpdate_eq (s : TvChannelList χ) :
    forceProgressUpdate s =
      { s with m_progress := progressOf s.m_requestsDone s.m_requestsToDo } := by
  unfold forceProgressUpdate progressOf
  split <;> rfl

theorem progressInv_init (startUrl : QUrl) (refresh : Int) (model : χ)
    (bookmarks : List TvBookmark) (index : List (QString × TvBookmark)) :
    ProgressInv (TvChannelList.init startUrl refresh model bookmarks index) :=
  ⟨le_refl _, by simp [TvChannelList.init, progressOf]⟩

theorem progressInv_forceProgressUpdate {s : TvChannelList χ} (hd : 0 ≤ s.m_requestsDone) :
    ProgressInv (forceProgressUpdate s) := by
  rw [forceProgressUpdate_eq]
  exact ⟨hd, rfl⟩

theorem forceProgressUpdate_requests (s : TvChannelList χ) :
    (forceProgressUpdate s).m_requests = s.m_requests := by
  rw [forceProgressUpdate_eq]

theorem nextPending_idle (now : Int) {s : TvChannelList χ}
    (h : (s.m_currentRequest.isValid || s.m_requests.isEmpty || s.m_throttled) = true) :
    nextPending now s = some (forceProgressUpdate s) := by
  unfold nextPending
  rw [if_pos h]

theorem nextPending_dispatch (now : Int) {s : TvChannelList χ} {req : Request}
    {rest : List Request} {url : QUrl} {us : List QUrl}
    (hcur : s.m_currentRequest.isValid = false) (hthr : s.m_throttled = false)
    (hreqs : s.m_requests = req :: rest) (hurls : req.urls = url :: us) :
    nextPending now s = some (forceProgressUpdate (startFetch now rest url s)) := by
  unfold nextPending
  rw [if_neg (by simp [hcur, hthr, hreqs])]
  simp only [hreqs, hurls]

theorem nextPending_inv (now : Int) {s : TvChannelList χ} (hq : QueueInv s.m_requests) :
    ∃ s1, nextPending now s = some s1 ∧ QueueInv s1.m_requests ∧
      (0 ≤ s.m_requestsDone → ProgressInv s1) := by
  by_cases hc : (s.m_currentRequest.isValid || s.m_requests.isEmpty || s.m_throttled) = true
  · exact ⟨_, nextPending_idle now hc, by rwa [forceProgressUpdate_requests],
      progressInv_forceProgressUpdate⟩
  · simp only [Bool.or_eq_true, not_or, Bool.not_eq_true, List.isEmpty_eq_true] at hc
    obtain ⟨⟨hcur, hne⟩, hthr⟩ := hc
    cases hreqs : s.m_requests with
    | nil => simp [hreqs] at hne
    | cons req rest =>
      cases hurls : req.urls with
      | nil => exact absurd hurls (hq.urls req (by simp [hreqs]))
      | cons url us =>
        refine ⟨_, nextPending_dispatch now hcur hthr hreqs hurls, ?_,
          fun hd => progressInv_forceProgressUpdate hd⟩
        have hsub : rest.Sublist s.m_requests := by
          rw [hreqs]; exact List.sublist_cons_self req rest
        rw [forceProgressUpdate_requests]
        exact hq.sublist hsub

theorem trimLoop_flag_true (first last : Int) : ∀ (q : List Request) (toDo : Int),
    (trimLoop first last q toDo true).2.2 = true
  | [], _ => rfl
  | r :: rs, toDo => by
    simp only [trimLoop]
    split
    · exact trimLoop_flag_true first last rs (toDo - 1)
    · exact trimLoop_flag_true first last rs toDo

theorem trimLoop_unchanged (first last : Int) : ∀ (q : List Request) (toDo : Int),
    (trimLoop first last q toDo false).2.2 = false →
      (trimLoop first last q toDo false).1 = q ∧ (trimLoop first last q toDo false).2.1 = toDo
  | [], _, _ => ⟨rfl, rfl⟩
  | r :: rs, toDo, h => by
    simp only [trimLoop] at h ⊢
    split at h
    · rw [trimLoop_flag_true] at h
      exact absurd h (by simp)
    · rename_i hc
      simp only [hc]
      have := trimLoop_unchanged first last rs toDo h
      simp [this.1, this.2]

theorem trimRequests_inv (first last : Int) {s : TvChannelList χ}
    (h : QueueInv s.m_requests) : Preserved s (trimRequests first last s) := by
  have hsub := trimLoop_sublist first last s.m_requests s.m_requestsToDo false
  unfold trimRequests
  simp only
  split
  · split
    · exact ⟨h.sublist hsub, fun _ => ⟨le_refl _, by simp [progressOf]⟩⟩
    · exact ⟨by rw [forceProgressUpdate_requests]; exact h.sublist hsub,
        fun hp => progressInv_forceProgressUpdate hp.done_nonneg⟩
  · rename_i hflag
    have hun := trimLoop_unchanged first last s.m_requests s.m_requestsToDo
      (by simpa using hflag)
    refine ⟨h.sublist hsub, fun hp => ⟨hp.done_nonneg, ?_⟩⟩
    simp only [hun.2]
    exact hp.progress

theorem finishReply_requests (load : QUrl → QByteArray → QUrl → χ → χ) (now : Int)
    (s : TvChannelList χ) :
    (finishReply load now s).m_requests =
      (removeRepeated s.m_currentRequest s.m_requests s.m_requestsToDo).1 := by
  unfold finishReply
  simp only
  split <;> rfl

theorem finishReply_requestsDone (load : QUrl → QByteArray → QUrl → χ → χ) (now : Int)
    (s : TvChannelList χ) :
    (finishReply load now s).m_requestsDone = s.m_requestsDone + 1 := by
  unfold finishReply
  simp only
  split <;> rfl

theorem requestFinished_inv (load : QUrl → QByteArray → QUrl → χ → χ) (now : Int)
    {s : TvChannelList χ} (h : QueueInv s.m_requests) :
    ∃ s1, requestFinished load now s = some s1 ∧ Preserved s s1 := by
  unfold requestFinished
  split
  · exact ⟨s, rfl, h, id⟩
  · have hq : QueueInv (finishReply load now s).m_requests := by
      rw [finishReply_requests]
      exact h.sublist (removeRepeated_sublist _ _ _)
    obtain ⟨s4, hs4, hq4, hp4⟩ := nextPending_inv now hq
    rw [finishReply_requestsDone] at hp4
    simp only [hs4]
    split
    · exact ⟨_, rfl, hq4, fun _ => ⟨le_refl _, by simp [progressOf]⟩⟩
    · exact ⟨_, rfl, hq4, fun hp => hp4 (by have := hp.done_nonneg; omega)⟩

theorem requestData_inv (load : QUrl → QByteArray → QUrl → χ → χ)
    (cache : QAbstractNetworkCache) (now : Int) (req : Request) (lastmod : QDateTime)
    (refreshAge : Int) {s : TvChannelList χ} (h : QueueInv s.m_requests)
    (hreq : req.urls ≠ []) :
    ∃ s1, requestData load cache now req lastmod refreshAge s = some s1 ∧ Preserved s s1 := by
  unfold requestData
  split
  · exact ⟨s, rfl, h, id⟩
  · split
    · exact ⟨_, rfl, h, fun hp => ⟨hp.done_nonneg, hp.progress⟩⟩
    · cases hurls : req.urls with
      | nil => exact absurd hurls hreq
      | cons url us =>
        simp only
        cases hidx : insertIndex url req.priority s.m_requests with
        | none => exact ⟨s, rfl, h, id⟩
        | some index =>
          simp only
          obtain ⟨s1, hs1, hq1, hp1⟩ := nextPending_inv now
            (s := { s with
              m_requests := qlistInsert req index s.m_requests
              m_requestsToDo := s.m_requestsToDo + 1 }) (h.insert hurls hidx)
          exact ⟨s1, hs1, hq1, fun hp => hp1 hp.done_nonneg⟩

theorem step_inv (load : QUrl → QByteArray → QUrl → χ → χ) (op : Op) {s : TvChannelList χ}
    (h : QueueInv s.m_requests) (hop : op.wellFormed) :
    ∃ s1, step load op s = some s1 ∧ Preserved s s1 := by
  cases op with
  | requestData cache now req lastmod refreshAge =>
    exact requestData_inv load cache now req lastmod refreshAge h hop
  | refreshChannels cache now forceReload =>
    simp only [step, refreshChannels]
    split
    · exact requestData_inv load cache now _ _ _ h (by simp)
    · exact ⟨s, rfl, h, id⟩
  | reload cache now =>
    simp only [step, reload, refreshChannels]
    split
    · obtain ⟨s1, hs1, hq1, hp1⟩ := requestData_inv load cache now
        { urls := [s.m_startUrl], priority := 0, channel := none, date := none } none (-1)
        (s := { s with m_lastFetch := [] }) h (by simp)
      exact ⟨s1, hs1, hq1, fun hp => hp1 ⟨hp.done_nonneg, hp.progress⟩⟩
    · exact ⟨_, rfl, h, fun hp => ⟨hp.done_nonneg, hp.progress⟩⟩
  | requestReadyRead bytes =>
    refine ⟨_, rfl, ?_⟩
    unfold requestReadyRead
    split
    · exact ⟨h, fun hp => ⟨hp.done_nonneg, hp.progress⟩⟩
    · exact ⟨h, id⟩
  | requestFinished now => exact requestFinished_inv load now h
  | trimRequests first last => exact ⟨_, rfl, trimRequests_inv first last h⟩
  | abort =>
    exact ⟨_, rfl, QueueInv.nil, fun _ => ⟨le_refl _, by simp [abort, progressOf]⟩⟩
  | throttleTimeout now =>
    obtain ⟨s1, hs1, hq1, hp1⟩ := nextPending_inv now
      (s := { s with m_throttleTimer := none, m_throttled := false }) h
    exact ⟨s1, hs1, hq1, fun hp => hp1 hp.done_nonneg⟩
  | nextPending now =>
    obtain ⟨s1, hs1, hq1, hp1⟩ := nextPending_inv now h
    exact ⟨s1, hs1, hq1, fun hp => hp1 hp.done_nonneg⟩

theorem run_inv (load : QUrl → QByteArray → QUrl → χ → χ) : ∀ (ops : List Op)
    {s : TvChannelList χ}, QueueInv s.m_requests → (∀ op ∈ ops, op.wellFormed) →
    ∃ s1, run load ops s = some s1 ∧ Preserved s s1
  | [], s, h, _ => ⟨s, rfl, h, id⟩
  | op :: ops, s, h, hops => by
    obtain ⟨s1, hs1, hq1, hp1⟩ := step_inv load op h (hops op (by simp))
    obtain ⟨s2, hs2, hq2, hp2⟩ := run_inv load ops hq1 (fun o ho => hops o (by simp [ho]))
    exact ⟨s2, by simp [run, hs1, hs2], hq2, fun hp => hp2 (hp1 hp)⟩

theorem trimLoop_fst (first last : Int) : ∀ (q : List Request) (toDo : Int) (rm : Bool),
    (trimLoop first last q toDo rm).1 =
      q.filter (fun r => !(decide (first ≤ r.priority) && decide (r.priority ≤ last)))
  | [], _, _ => rfl
  | r :: rs, toDo, rm => by
    simp only [trimLoop]
    split
    · rename_i hc
      rw [trimLoop_fst first last rs (toDo - 1) true, List.filter_cons]
      simp [hc]
    · rename_i hc
      rw [List.filter_cons]
      simp only [hc, trimLoop_fst first last rs toDo rm]
      simp

theorem trimRequests_requests (first last : Int) (s : TvChannelList χ) :
    (trimRequests first last s).m_requests =
      s.m_requests.filter (fun r => !(decide (first ≤ r.priority) && decide (r.priority ≤ last))) := by
  rw [← trimLoop_fst first last s.m_requests s.m_requestsToDo false]
  unfold trimRequests
  simp only
  split
  · split
    · rfl
    · rw [forceProgressUpdate_requests]
  · rfl

theorem trimRequests_frame (first last : Int) (s : TvChannelList χ) :
    (trimRequests first last s).m_currentRequest = s.m_currentRequest ∧
      (trimRequests first last s).m_reply = s.m_reply := by
  unfold trimRequests
  simp only
  split
  · split
    · exact ⟨rfl, rfl⟩
    · rw [forceProgressUpdate_eq]
      exact ⟨rfl, rfl⟩
  · exact ⟨rfl, rfl⟩

/-! ## Throttle lemmas -/

theorem SameThrottle.refl (s : TvChannelList χ) : SameThrottle s s := ⟨rfl, rfl, rfl⟩

theorem SameThrottle.trans {s s1 s2 : TvChannelList χ} (h1 : SameThrottle s s1)
    (h2 : SameThrottle s1 s2) : SameThrottle s s2 :=
  ⟨h2.1.trans h1.1, h2.2.1.trans h1.2.1, h2.2.2.trans h1.2.2⟩

theorem SameThrottle.dispatched {now : Int} {s s1 s2 : TvChannelList χ}
    (h1 : SameThrottle s s1) (h2 : Dispatched now s1 s2) : Dispatched now s s2 := by
  obtain ⟨hthr, url, hnam, ht, htimer⟩ := h2
  exact ⟨by rw [← h1.2.1]; exact hthr, url, by rw [hnam, h1.1], ht, htimer⟩

theorem sameThrottle_forceProgressUpdate (s : TvChannelList χ) :
    SameThrottle s (forceProgressUpdate s) := by
  rw [forceProgressUpdate_eq]
  exact ⟨rfl, rfl, rfl⟩

theorem nextPending_throttle {now : Int} {s s1 : TvChannelList χ}
    (h : nextPending now s = some s1) : SameThrottle s s1 ∨ Dispatched now s s1 := by
  by_cases hc : (s.m_currentRequest.isValid || s.m_requests.isEmpty || s.m_throttled) = true
  · rw [nextPending_idle now hc, Option.some.injEq] at h
    subst h
    exact Or.inl (sameThrottle_forceProgressUpdate s)
  · simp only [Bool.or_eq_true, not_or, Bool.not_eq_true, List.isEmpty_eq_true] at hc
    obtain ⟨⟨hcur, hne⟩, hthr⟩ := hc
    cases hreqs : s.m_requests with
    | nil => exact absurd hreqs hne
    | cons req rest =>
      cases hurls : req.urls with
      | nil =>
        unfold nextPending at h
        rw [if_neg (by simp [hcur, hthr, hreqs])] at h
        simp [hreqs, hurls] at h
      | cons url us =>
        rw [nextPending_dispatch now hcur hthr hreqs hurls, Option.some.injEq] at h
        subst h
        refine Or.inr ⟨hthr, url, ?_, ?_, ?_⟩ <;> rw [forceProgressUpdate_eq] <;> rfl

theorem finishReply_throttle (load : QUrl → QByteArray → QUrl → χ → χ) (now : Int)
    (s : TvChannelList χ) : SameThrottle s (finishReply load now s) := by
  unfold finishReply
  simp only
  split <;> exact ⟨rfl, rfl, rfl⟩

theorem requestFinished_throttle {load : QUrl → QByteArray → QUrl → χ → χ} {now : Int}
    {s s1 : TvChannelList χ} (h : requestFinished load now s = some s1) :
    SameThrottle s s1 ∨ Dispatched now s s1 := by
  unfold requestFinished at h
  split at h
  · rw [Option.some.injEq] at h
    subst h
    exact Or.inl (SameThrottle.refl s)
  · cases h4 : nextPending now (finishReply load now s) with
    | none => simp [h4] at h
    | some s4 =>
      have hfin := finishReply_throttle load now s
      have hs1 : SameThrottle s4 s1 := by
        simp only [h4] at h
        split at h <;> (rw [Option.some.injEq] at h; subst h; exact ⟨rfl, rfl, rfl⟩)
      rcases nextPending_throttle h4 with h5 | h5
      · exact Or.inl ((hfin.trans h5).trans hs1)
      · obtain ⟨hthr, url, hnam, ht, htimer⟩ := hfin.dispatched h5
        exact Or.inr ⟨hthr, url, by rw [hs1.1, hnam], by rw [hs1.2.1, ht],
          by rw [hs1.2.2, htimer]⟩

theorem requestData_throttle {load : QUrl → QByteArray → QUrl → χ → χ}
    {cache : QAbstractNetworkCache} {now : Int} {req : Request} {lastmod : QDateTime}
    {refreshAge : Int} {s s1 : TvChannelList χ}
    (h : requestData load cache now req lastmod refreshAge s = some s1) :
    SameThrottle s s1 ∨ Dispatched now s s1 := by
  unfold requestData at h
  split at h
  · rw [Option.some.injEq] at h
    subst h
    exact Or.inl (SameThrottle.refl s)
  · split at h
    · rw [Option.some.injEq] at h
      subst h
      exact Or.inl ⟨rfl, rfl, rfl⟩
    · split at h
      · exact absurd h (by simp)
      · split at h
        · rw [Option.some.injEq] at h
          subst h
          exact Or.inl (SameThrottle.refl s)
        · rcases nextPending_throttle h with h5 | h5
          · exact Or.inl ⟨h5.1, h5.2.1, h5.2.2⟩
          · exact Or.inr h5

theorem step_throttle {load : QUrl → QByteArray → QUrl → χ → χ} {op : Op}
    {s s1 : TvChannelList χ} (hop : op.isThrottleTimeout = false)
    (h : step load op s = some s1) :
    SameThrottle s s1 ∨ ∃ now, op.time = some now ∧ Dispatched now s s1 := by
  cases op with
  | requestData cache now req lastmod refreshAge =>
    rcases requestData_throttle h with h1 | h1
    · exact Or.inl h1
    · exact Or.inr ⟨now, rfl, h1⟩
  | refreshChannels cache now forceReload =>
    simp only [step, refreshChannels] at h
    split at h
    · rcases requestData_throttle h with h1 | h1
      · exact Or.inl h1
      · exact Or.inr ⟨now, rfl, h1⟩
    · rw [Option.some.injEq] at h
      subst h
      exact Or.inl (SameThrottle.refl s)
  | reload cache now =>
    simp only [step, reload, refreshChannels] at h
    split at h
    · rcases requestData_throttle h with h1 | h1
      · exact Or.inl h1
      · exact Or.inr ⟨now, rfl, h1⟩
    · rw [Option.some.injEq] at h
      subst h
      exact Or.inl ⟨rfl, rfl, rfl⟩
  | requestReadyRead bytes =>
    simp only [step, requestReadyRead, Option.some.injEq] at h
    subst h
    split <;> exact Or.inl ⟨rfl, rfl, rfl⟩
  | requestFinished now =>
    rcases requestFinished_throttle h with h1 | h1
    · exact Or.inl h1
    · exact Or.inr ⟨now, rfl, h1⟩
  | trimRequests first last =>
    simp only [step, trimRequests, Option.some.injEq] at h
    subst h
    refine Or.inl ?_
    split
    · split
      · exact ⟨rfl, rfl, rfl⟩
      · rw [forceProgressUpdate_eq]
        exact ⟨rfl, rfl, rfl⟩
    · exact ⟨rfl, rfl, rfl⟩
  | abort =>
    simp only [step, abort, Option.some.injEq] at h
    subst h
    exact Or.inl ⟨rfl, rfl, rfl⟩
  | throttleTimeout now => simp [Op.isThrottleTimeout] at hop
  | nextPending now =>
    rcases nextPending_throttle h with h1 | h1
    · exact Or.inl h1
    · exact Or.inr ⟨now, rfl, h1⟩

theorem step_timeout_throttle {load : QUrl → QByteArray → QUrl → χ → χ} {now : Int}
    {s s1 : TvChannelList χ} (h : step load (.throttleTimeout now) s = some s1) :
    (s1.m_nam = s.m_nam ∧ s1.m_throttled = false ∧ s1.m_throttleTimer = none) ∨
      ∃ url, s1.m_nam = (now, url) :: s.m_nam ∧ s1.m_throttled = true ∧
        s1.m_throttleTimer = some (now + 1000) := by
  simp only [step, throttleTimeout] at h
  rcases nextPending_throttle h with h1 | h1
  · exact Or.inl ⟨h1.1, h1.2.1, h1.2.2⟩
  · obtain ⟨_, url, hnam, ht, htimer⟩ := h1
    exact Or.inr ⟨url, hnam, ht, htimer⟩

theorem run_throttled {load : QUrl → QByteArray → QUrl → χ → χ} : ∀ {ops : List Op}
    {s s1 : TvChannelList χ}, s.m_throttled = true →
    (∀ o ∈ ops, o.isThrottleTimeout = false) → run load ops s = some s1 →
    s1.m_throttled = true ∧ s1.m_nam = s.m_nam
  | [], s, s1, hthr, _, h => by
    simp only [run, Option.some.injEq] at h
    subst h
    exact ⟨hthr, rfl⟩
  | op :: ops, s, s1, hthr, hops, h => by
    simp only [run] at h
    cases hstep : step load op s with
    | none => simp [hstep] at h
    | some s2 =>
      simp only [hstep] at h
      have hsame : SameThrottle s s2 := by
        rcases step_throttle (hops op (by simp)) hstep with h1 | ⟨_, _, h1, _⟩
        · exact h1
        · rw [hthr] at h1
          exact absurd h1 (by simp)
      have := run_throttled (by rw [hsame.2.1]; exact hthr)
        (fun o ho => hops o (by simp [ho])) h
      exact ⟨this.1, by rw [this.2, hsame.1]⟩

theorem startsFetch_throttled {load : QUrl → QByteArray → QUrl → χ → χ} {op : Op}
    {s s1 : TvChannelList χ} (h : step load op s = some s1)
    (hf : startsFetch load op s = true) :
    s1.m_throttled = true ∧ (s.m_throttled = false ∨ op.isThrottleTimeout = true) := by
  simp only [startsFetch, h, decide_eq_true_eq] at hf
  cases hop : op.isThrottleTimeout with
  | false =>
    rcases step_throttle hop h with h1 | ⟨_, _, hthr, _, _, ht, _⟩
    · rw [h1.1] at hf
      omega
    · exact ⟨ht, Or.inl hthr⟩
  | true =>
    cases op with
    | throttleTimeout now =>
      rcases step_timeout_throttle h with h1 | ⟨_, _, ht, _⟩
      · rw [h1.1] at hf
        omega
      · exact ⟨ht, Or.inr rfl⟩
    | _ => simp [Op.isThrottleTimeout] at hop

theorem enabledAt_time {t : Int} {s : TvChannelList χ} {op : Op}
    (h : op.enabledAt t s = true) : ∀ now, op.time = some now → t ≤ now := by
  intro now hnow
  simp only [Op.enabledAt, hnow, Bool.and_eq_true, decide_eq_true_eq] at h
  exact h.1

theorem enabledAt_timeout {t now : Int} {s : TvChannelList χ}
    (h : (Op.throttleTimeout now).enabledAt t s = true) :
    ∃ due, s.m_throttleTimer = some due ∧ due ≤ now := by
  simp only [Op.enabledAt, Bool.and_eq_true, timerDue] at h
  cases htimer : s.m_throttleTimer with
  | none => simp [htimer] at h
  | some due =>
    simp only [htimer, decide_eq_true_eq] at h
    exact ⟨due, rfl, h.2⟩

theorem throttleInv_init (t : Int) (startUrl : QUrl) (refresh : Int) (model : χ)
    (bookmarks : List TvBookmark) (index : List (QString × TvBookmark)) :
    ThrottleInv t (TvChannelList.init startUrl refresh model bookmarks index) :=
  ⟨fun h => by simp [TvChannelList.init] at h,
   fun _ => ⟨rfl, fun g url rest h => by simp [TvChannelList.init] at h⟩,
   by simp [TvChannelList.init]⟩

theorem step_throttleInv {load : QUrl → QByteArray → QUrl → χ → χ} {op : Op} {t : Int}
    {s s1 : TvChannelList χ} (hinv : ThrottleInv t s) (hen : op.enabledAt t s = true)
    (h : step load op s = some s1) : ThrottleInv (op.time.getD t) s1 := by
  have hmono := enabledAt_time hen
  have hle : t ≤ op.time.getD t := by
    cases hot : op.time with
    | none => simp
    | some now => simpa using hmono now hot
  cases hop : op.isThrottleTimeout with
  | false =>
    rcases step_throttle hop h with h1 | ⟨now, hnow, hthr, url, hnam, ht, htimer⟩
    · refine ⟨?_, ?_, ?_⟩
      · intro hs1
        rw [h1.1, h1.2.2]
        exact hinv.armed (by rw [← h1.2.1]; exact hs1)
      · intro hs1
        have := hinv.idle (by rw [← h1.2.1]; exact hs1)
        rw [h1.1, h1.2.2]
        exact ⟨this.1, fun g url rest hg => le_trans (this.2 g url rest hg) hle⟩
      · rw [h1.1]
        exact hinv.spaced
    · have hidle := hinv.idle hthr
      have htn : t ≤ now := hmono now hnow
      refine ⟨fun _ => ⟨now, url, s.m_nam, hnam, htimer⟩, ?_, ?_⟩
      · intro hs1
        rw [ht] at hs1
        exact absurd hs1 (by simp)
      · rw [hnam]
        refine List.Chain'.cons' hinv.spaced ?_
        intro y hy
        cases hs : s.m_nam with
        | nil => simp [hs] at hy
        | cons e rest =>
          simp only [hs, List.head?_cons, Option.mem_def, Option.some.injEq] at hy
          subst hy
          have := hidle.2 e.1 e.2 rest hs
          show e.1 + 1000 ≤ now
          omega
  | true =>
    cases op with
    | throttleTimeout now =>
      obtain ⟨due, hdue, hdn⟩ := enabledAt_timeout hen
      have hthr : s.m_throttled = true := by
        cases hb : s.m_throttled with
        | true => rfl
        | false =>
          have := (hinv.idle hb).1
          rw [hdue] at this
          exact absurd this (by simp)
      obtain ⟨g, url, rest, hs, htimer⟩ := hinv.armed hthr
      have hg : g + 1000 ≤ now := by
        rw [hdue, Option.some.injEq] at htimer
        omega
      rcases step_timeout_throttle h with ⟨hnam, ht, htm⟩ | ⟨url1, hnam, ht, htm⟩
      · refine ⟨?_, ?_, ?_⟩
        · intro hs1
          rw [ht] at hs1
          exact absurd hs1 (by simp)
        · intro _
          refine ⟨htm, ?_⟩
          intro g1 u1 rest1 hg1
          rw [hnam, hs] at hg1
          simp only [List.cons.injEq, Prod.mk.injEq] at hg1
          show g1 + 1000 ≤ now
          omega
        · rw [hnam]
          exact hinv.spaced
      · refine ⟨fun _ => ⟨now, url1, s.m_nam, hnam, htm⟩, ?_, ?_⟩
        · intro hs1
          rw [ht] at hs1
          exact absurd hs1 (by simp)
        · rw [hnam]
          refine List.Chain'.cons' hinv.spaced ?_
          intro y hy
          simp only [hs, List.head?_cons, Option.mem_def, Option.some.injEq] at hy
          subst hy
          exact hg
    | _ => simp [Op.isThrottleTimeout] at hop

theorem timedTrace_throttleInv {load : QUrl → QByteArray → QUrl → χ → χ} :
    ∀ {ops : List Op} {t : Int} {s : TvChannelList χ}, ThrottleInv t s →
    timedTrace load t s ops = true → ∃ s1 t1, run load ops s = some s1 ∧ ThrottleInv t1 s1
  | [], t, s, hinv, _ => ⟨s, t, rfl, hinv⟩
  | op :: ops, t, s, hinv, h => by
    simp only [timedTrace, Bool.and_eq_true] at h
    cases hstep : step load op s with
    | none => simp [hstep] at h
    | some s2 =>
      simp only [hstep] at h
      obtain ⟨s1, t1, hrun, hinv1⟩ :=
        timedTrace_throttleInv (step_throttleInv hinv h.1 hstep) h.2
      exact ⟨s1, t1, by simp [run, hstep, hrun], hinv1⟩

/-! ## In-flight lemmas -/

theorem nextPending_inflight {now : Int} {s s1 : TvChannelList χ}
    (h : nextPending now s = some s1) (hinv : InFlightInv s) : InFlightInv s1 := by
  by_cases hc : (s.m_currentRequest.isValid || s.m_requests.isEmpty || s.m_throttled) = true
  · rw [nextPending_idle now hc, Option.some.injEq] at h
    subst h
    rw [forceProgressUpdate_eq]
    exact ⟨hinv.reply, hinv.valid⟩
  · simp only [Bool.or_eq_true, not_or, Bool.not_eq_true, List.isEmpty_eq_true] at hc
    obtain ⟨⟨hcur, hne⟩, hthr⟩ := hc
    cases hreqs : s.m_requests with
    | nil => exact absurd hreqs hne
    | cons req rest =>
      cases hurls : req.urls with
      | nil =>
        unfold nextPending at h
        rw [if_neg (by simp [hcur, hthr, hreqs])] at h
        simp [hreqs, hurls] at h
      | cons url us =>
        rw [nextPending_dispatch now hcur hthr hreqs hurls, Option.some.injEq] at h
        subst h
        rw [forceProgressUpdate_eq]
        refine ⟨?_, ?_⟩
        · show true = url.isValid
          exact (hinv.valid req (by simp [hreqs]) url (by simp [hurls])).symm
        · intro r hr
          exact hinv.valid r (by rw [hreqs]; exact List.mem_cons_of_mem req hr)

theorem nextPending_busy_slot {now : Int} {s s1 : TvChannelList χ}
    (h : nextPending now s = some s1) (hcur : s.m_currentRequest.isValid = true) :
    s1.m_nam = s.m_nam := by
  rw [nextPending_idle now (by simp [hcur]), Option.some.injEq] at h
  subst h
  rw [forceProgressUpdate_eq]

theorem requestData_inflight {load : QUrl → QByteArray → QUrl → χ → χ}
    {cache : QAbstractNetworkCache} {now : Int} {req : Request} {lastmod : QDateTime}
    {refreshAge : Int} {s s1 : TvChannelList χ}
    (h : requestData load cache now req lastmod refreshAge s = some s1)
    (hinv : InFlightInv s) (hreq : ∀ u ∈ req.urls, u.isValid = true) : InFlightInv s1 := by
  unfold requestData at h
  split at h
  · rw [Option.some.injEq] at h
    subst h
    exact hinv
  · split at h
    · rw [Option.some.injEq] at h
      subst h
      exact ⟨hinv.reply, hinv.valid⟩
    · split at h
      · exact absurd h (by simp)
      · split at h
        · rw [Option.some.injEq] at h
          subst h
          exact hinv
        · refine nextPending_inflight h ⟨hinv.reply, ?_⟩
          intro r hr
          rcases mem_qlistInsert hr with hr1 | hr1
          · subst hr1
            exact hreq
          · exact hinv.valid r hr1

theorem requestData_busy_slot {load : QUrl → QByteArray → QUrl → χ → χ}
    {cache : QAbstractNetworkCache} {now : Int} {req : Request} {lastmod : QDateTime}
    {refreshAge : Int} {s s1 : TvChannelList χ}
    (h : requestData load cache now req lastmod refreshAge s = some s1)
    (hcur : s.m_currentRequest.isValid = true) : s1.m_nam = s.m_nam := by
  unfold requestData at h
  split at h
  · rw [Option.some.injEq] at h
    subst h
    rfl
  · split at h
    · rw [Option.some.injEq] at h
      subst h
      rfl
    · split at h
      · exact absurd h (by simp)
      · split at h
        · rw [Option.some.injEq] at h
          subst h
          rfl
        · have hh := nextPending_busy_slot h hcur
          exact hh

theorem finishReply_inflight (load : QUrl → QByteArray → QUrl → χ → χ) (now : Int)
    {s : TvChannelList χ} (hinv : InFlightInv s) : InFlightInv (finishReply load now s) := by
  refine ⟨?_, ?_⟩
  · unfold finishReply
    simp only
    split <;> rfl
  · rw [finishReply_requests]
    intro r hr
    exact hinv.valid r ((removeRepeated_sublist _ _ _).subset hr)

theorem step_inflight {load : QUrl → QByteArray → QUrl → χ → χ} {op : Op}
    {s s1 : TvChannelList χ} (hinv : InFlightInv s) (hop : op.validUrls)
    (h : step load op s = some s1) : InFlightInv s1 := by
  cases op with
  | requestData cache now req lastmod refreshAge => exact requestData_inflight h hinv hop
  | refreshChannels cache now forceReload =>
    simp only [step, refreshChannels] at h
    split at h
    · rename_i hv
      exact requestData_inflight h hinv (by simpa using hv)
    · rw [Option.some.injEq] at h
      subst h
      exact hinv
  | reload cache now =>
    simp only [step, reload, refreshChannels] at h
    split at h
    · rename_i hv
      exact requestData_inflight h ⟨hinv.reply, hinv.valid⟩ (by simpa using hv)
    · rw [Option.some.injEq] at h
      subst h
      exact ⟨hinv.reply, hinv.valid⟩
  | requestReadyRead bytes =>
    simp only [step, requestReadyRead, Option.some.injEq] at h
    subst h
    split
    · exact ⟨hinv.reply, hinv.valid⟩
    · exact hinv
  | requestFinished now =>
    simp only [step, requestFinished] at h
    split at h
    · rw [Option.some.injEq] at h
      subst h
      exact hinv
    · cases h4 : nextPending now (finishReply load now s) with
      | none => simp [h4] at h
      | some s4 =>
        have hinv4 := nextPending_inflight h4 (finishReply_inflight load now hinv)
        simp only [h4] at h
        split at h <;>
          (rw [Option.some.injEq] at h; subst h; exact ⟨hinv4.reply, hinv4.valid⟩)
  | trimRequests first last =>
    simp only [step, Option.some.injEq] at h
    subst h
    refine ⟨?_, ?_⟩
    · rw [(trimRequests_frame first last s).1, (trimRequests_frame first last s).2]
      exact hinv.reply
    · rw [trimRequests_requests]
      intro r hr
      exact hinv.valid r (List.mem_of_mem_filter hr)
  | abort =>
    simp only [step, abort, Option.some.injEq] at h
    subst h
    exact ⟨rfl, fun r hr => by simp at hr⟩
  | throttleTimeout now =>
    simp only [step, throttleTimeout] at h
    exact nextPending_inflight h ⟨hinv.reply, hinv.valid⟩
  | nextPending now => exact nextPending_inflight h hinv

theorem step_busy_slot {load : QUrl → QByteArray → QUrl → χ → χ} {op : Op}
    {s s1 : TvChannelList χ} (hcur : s.m_currentRequest.isValid = true)
    (hop : op.isRequestFinished = false) (h : step load op s = some s1) :
    s1.m_nam = s.m_nam := by
  cases op with
  | requestData cache now req lastmod refreshAge => exact requestData_busy_slot h hcur
  | refreshChannels cache now forceReload =>
    simp only [step, refreshChannels] at h
    split at h
    · exact requestData_busy_slot h hcur
    · rw [Option.some.injEq] at h
      subst h
      rfl
  | reload cache now =>
    simp only [step, reload, refreshChannels] at h
    split at h
    · have hh := requestData_busy_slot h hcur
      exact hh
    · rw [Option.some.injEq] at h
      subst h
      rfl
  | requestReadyRead bytes =>
    simp only [step, requestReadyRead, Option.some.injEq] at h
    subst h
    split <;> rfl
  | requestFinished now => simp [Op.isRequestFinished] at hop
  | trimRequests first last =>
    rcases step_throttle (by rfl) h with h1 | ⟨_, hnow, _⟩
    · exact h1.1
    · simp [Op.time] at hnow
  | abort =>
    simp only [step, abort, Option.some.injEq] at h
    subst h
    rfl
  | throttleTimeout now =>
    simp only [step, throttleTimeout] at h
    have hh := nextPending_busy_slot h hcur
    exact hh
  | nextPending now => exact nextPending_busy_slot h hcur

theorem run_inflight {load : QUrl → QByteArray → QUrl → χ → χ} : ∀ {ops : List Op}
    {s s1 : TvChannelList χ}, InFlightInv s → (∀ op ∈ ops, op.validUrls) →
    run load ops s = some s1 → InFlightInv s1
  | [], s, s1, hinv, _, h => by
    simp only [run, Option.some.injEq] at h
    subst h
    exact hinv
  | op :: ops, s, s1, hinv, hops, h => by
    simp only [run] at h
    cases hstep : step load op s with
    | none => simp [hstep] at h
    | some s2 =>
      simp only [hstep] at h
      exact run_inflight (step_inflight hinv (hops op (by simp)) hstep)
        (fun o ho => hops o (by simp [ho])) h

/-! ## Matcher lemmas -/

theorem mem_constFind {key : QString} {e : QString × TvBookmark} :
    ∀ {index : List (QString × TvBookmark)}, e ∈ index → e.1 = key → e ∈ constFind key index
  | [], h, _ => by simp at h
  | x :: rest, h, hk => by
    simp only [constFind]
    split
    · exact h
    · rename_i hx
      rcases List.mem_cons.1 h with h1 | h1
      · subst h1
        simp [hk] at hx
      · exact mem_constFind h1 hk

theorem constFind_subset {key : QString} {e : QString × TvBookmark} :
    ∀ {index : List (QString × TvBookmark)}, e ∈ constFind key index → e ∈ index
  | [], h => by simp [constFind] at h
  | x :: rest, h => by
    simp only [constFind] at h
    split at h
    · exact h
    · exact List.mem_cons_of_mem x (constFind_subset h)

open TvBookmark.Match in
theorem matchLoop_title (v : TvBookmark → TvBookmark.Match) :
    ∀ (it : List (QString × TvBookmark)) (result : TvBookmark.Match)
      (bookmark : Option TvBookmark),
      (∀ e ∈ it, (v e.2).isSpecific = false) →
      ((∃ e ∈ it, v e.2 = TitleMatch) ∨
        (result = TitleMatch ∧ ∃ b0, bookmark = some b0 ∧ v b0 = TitleMatch)) →
      ∃ b, matchLoop v it result bookmark = (TitleMatch, some b) ∧ v b = TitleMatch
  | [], result, bookmark, _, h => by
    rcases h with ⟨e, he, _⟩ | ⟨hr, b0, hb, hv⟩
    · simp at he
    · exact ⟨b0, by simp [matchLoop, hr, hb], hv⟩
  | e :: it, result, bookmark, hspec, h => by
    have hspec1 : ∀ x ∈ it, (v x.2).isSpecific = false :=
      fun x hx => hspec x (List.mem_cons_of_mem e hx)
    have later : v e.2 ≠ TitleMatch → (∃ x ∈ e :: it, v x.2 = TitleMatch) →
        ∃ x ∈ it, v x.2 = TitleMatch := by
      intro hne ⟨x, hx, hxv⟩
      rcases List.mem_cons.1 hx with hx1 | hx1
      · subst hx1
        exact absurd hxv hne
      · exact ⟨x, hx1, hxv⟩
    cases hv : v e.2 with
    | NoMatch =>
      have h1 : (∃ x ∈ it, v x.2 = TitleMatch) ∨
          (result = TitleMatch ∧ ∃ b0, bookmark = some b0 ∧ v b0 = TitleMatch) :=
        h.imp (later (by rw [hv]; simp)) id
      obtain ⟨b, hb, hbv⟩ := matchLoop_title v it result bookmark hspec1 h1
      exact ⟨b, by simp [matchLoop, hv, hb], hbv⟩
    | ShouldMatch =>
      by_cases hr : result = TitleMatch
      · have h1 : (∃ x ∈ it, v x.2 = TitleMatch) ∨
            (result = TitleMatch ∧ ∃ b0, bookmark = some b0 ∧ v b0 = TitleMatch) :=
          h.imp (later (by rw [hv]; simp)) id
        obtain ⟨b, hb, hbv⟩ := matchLoop_title v it result bookmark hspec1 h1
        exact ⟨b, by simp [matchLoop, hv, hr, ← hb], hbv⟩
      · have h1 : (∃ x ∈ it, v x.2 = TitleMatch) ∨
            (ShouldMatch = TitleMatch ∧ ∃ b0, some e.2 = some b0 ∧ v b0 = TitleMatch) := by
          rcases h with h | h
          · exact Or.inl (later (by rw [hv]; simp) h)
          · exact absurd h.1 hr
        obtain ⟨b, hb, hbv⟩ := matchLoop_title v it ShouldMatch (some e.2) hspec1 h1
        exact ⟨b, by simp [matchLoop, hv, hr, hb], hbv⟩
    | TitleMatch =>
      obtain ⟨b, hb, hbv⟩ := matchLoop_title v it TitleMatch (some e.2) hspec1
        (Or.inr ⟨rfl, e.2, rfl, hv⟩)
      exact ⟨b, by simp [matchLoop, hv, hb], hbv⟩
    | Specific kind =>
      have := hspec e (List.mem_cons_self e it)
      rw [hv] at this
      exact absurd this (by simp [TvBookmark.Match.isSpecific])

open TvBookmark.Match in
theorem matchLoop_source (v : TvBookmark → TvBookmark.Match) :
    ∀ (it : List (QString × TvBookmark)) (result : TvBookmark.Match)
      (bookmark : Option TvBookmark),
      matchLoop v it result bookmark = (result, bookmark) ∨
        ∃ x ∈ it, (matchLoop v it result bookmark).2 = some x.2
  | [], _, _ => Or.inl rfl
  | x :: rest, r, bm => by
    have up : ∀ (r1 : TvBookmark.Match) (bm1 : Option TvBookmark),
        (bm1 = some x.2 ∨ (r1 = r ∧ bm1 = bm)) →
        matchLoop v (x :: rest) r bm = matchLoop v rest r1 bm1 →
        (matchLoop v (x :: rest) r bm = (r, bm) ∨
          ∃ y ∈ x :: rest, (matchLoop v (x :: rest) r bm).2 = some y.2) := by
      intro r1 bm1 hcase heq
      rw [heq]
      rcases matchLoop_source v rest r1 bm1 with h1 | ⟨y, hy, hy2⟩
      · rcases hcase with hc | ⟨hc1, hc2⟩
        · exact Or.inr ⟨x, List.mem_cons_self x rest, by rw [h1]; exact hc⟩
        · exact Or.inl (by rw [h1, hc1, hc2])
      · exact Or.inr ⟨y, List.mem_cons_of_mem x hy, hy2⟩
    cases hvx : v x.2 with
    | NoMatch => exact up r bm (Or.inr ⟨rfl, rfl⟩) (by simp [matchLoop, hvx])
    | ShouldMatch =>
      by_cases hr : r = TitleMatch
      · exact up r bm (Or.inr ⟨rfl, rfl⟩) (by simp [matchLoop, hvx, hr])
      · exact up ShouldMatch (some x.2) (Or.inl rfl) (by simp [matchLoop, hvx, hr])
    | TitleMatch => exact up TitleMatch (some x.2) (Or.inl rfl) (by simp [matchLoop, hvx])
    | Specific kind =>
      exact Or.inr ⟨x, List.mem_cons_self x rest, by simp [matchLoop, hvx]⟩

/-! ## Freshness lemmas -/

theorem findFresh_lastmod (cache : QAbstractNetworkCache) (lastFetchMap : List (QUrl × Int))
    (now T refreshAge : Int) : ∀ (urls : List QUrl),
    findFresh cache lastFetchMap now (some T) refreshAge urls =
      match urls.find? (fun u => lastModifiedHit cache (some T) u ||
          recentFetchHit cache lastFetchMap now u) with
      | none => none
      | some u => (cache.data u).map (fun device => (u, device))
  | [] => rfl
  | url :: rest => by
    have ih := findFresh_lastmod cache lastFetchMap now T refreshAge rest
    simp only [findFresh, QDateTime.isValid, Option.isSome_some, if_true, List.find?_cons,
      lastModifiedHit, recentFetchHit]
    simp only [lastModifiedHit, recentFetchHit] at ih
    generalize QDateTime.addSecs (some now) (-(60 * 60)) = age at ih ⊢
    cases hdata : cache.data url with
    | none =>
      simp only [ite_self, Option.isSome_none, Bool.and_false, Bool.or_false]
      exact ih
    | some device =>
      by_cases hmeta : ((cache.metaData url).isValid &&
          (cache.metaData url).lastModified == some T) = true
      · simp [hmeta, hdata]
      · by_cases hfetch : ((lastFetchValue lastFetchMap url).isSome &&
            QDateTime.ge (lastFetchValue lastFetchMap url) age) = true
        · simp [hmeta, hfetch, hdata]
        · simp only [hmeta, hfetch, Bool.false_eq_true, if_false, Option.isSome_some,
            Bool.and_true, Bool.or_self]
          exact ih

theorem find?_congr_mem {α : Type} {p q : α → Bool} : ∀ {l : List α},
    (∀ x ∈ l, p x = q x) → l.find? p = l.find? q
  | [], _ => rfl
  | x :: rest, h => by
    have hx := h x (List.mem_cons_self x rest)
    have hrest := find?_congr_mem (fun y hy => h y (List.mem_cons_of_mem x hy))
    simp only [List.find?_cons, hx, hrest]

/-! ## Lemmas on the outcome of `requestData` and `requestFinished` -/

theorem nextPending_outcome (now : Int) {s : TvChannelList χ} (hq : UrlsNonempty s.m_requests) :
    ∃ s1, nextPending now s = some s1 ∧ s1.m_model = s.m_model ∧
      s1.m_requestsToDo = s.m_requestsToDo ∧ s1.m_requestsDone = s.m_requestsDone ∧
      s1.m_busy = (s.m_busy || decide (s1.m_requests ≠ s.m_requests) ||
        decide (s1.m_nam ≠ s.m_nam)) ∧
      ((s1.m_requests = s.m_requests ∧ s1.m_currentRequest = s.m_currentRequest ∧
          s1.m_reply = s.m_reply ∧ s1.m_nam = s.m_nam ∧ s1.m_throttled = s.m_throttled ∧
          s1.m_lastFetch = s.m_lastFetch ∧
          (s.m_currentRequest.isValid || s.m_requests.isEmpty || s.m_throttled) = true) ∨
        ∃ head us, s.m_requests = head :: s1.m_requests ∧
          head.urls = s1.m_currentRequest :: us ∧ s.m_currentRequest.isValid = false ∧
          s.m_throttled = false ∧ s1.m_reply = true ∧ s1.m_throttled = true ∧
          s1.m_nam = (now, s1.m_currentRequest) :: s.m_nam ∧
          s1.m_lastFetch = lastFetchRemove s.m_lastFetch s1.m_currentRequest) := by
  by_cases hc : (s.m_currentRequest.isValid || s.m_requests.isEmpty || s.m_throttled) = true
  · refine ⟨_, nextPending_idle now hc, ?_⟩
    rw [forceProgressUpdate_eq]
    refine ⟨rfl, rfl, rfl, ?_, Or.inl ⟨rfl, rfl, rfl, rfl, rfl, rfl, hc⟩⟩
    simp
  · simp only [Bool.or_eq_true, not_or, Bool.not_eq_true, List.isEmpty_eq_true] at hc
    obtain ⟨⟨hcur, hne⟩, hthr⟩ := hc
    cases hreqs : s.m_requests with
    | nil => exact absurd hreqs hne
    | cons req rest =>
      cases hurls : req.urls with
      | nil => exact absurd hurls (hq req (by simp [hreqs]))
      | cons url us =>
        refine ⟨_, nextPending_dispatch now hcur hthr hreqs hurls, ?_⟩
        rw [forceProgressUpdate_eq]
        refine ⟨rfl, rfl, rfl, ?_, Or.inr ⟨req, us, rfl, hurls, hcur, hthr, rfl, rfl, rfl, rfl⟩⟩
        simp [startFetch]

theorem insertIndex_none {url : QUrl} {priority : Int} : ∀ {q : List Request},
    insertIndex url priority q = none → ∃ r ∈ q, r.priority = priority ∧ url ∈ r.urls
  | [], h => by simp [insertIndex] at h
  | r :: rs, h => by
    simp only [insertIndex] at h
    split at h
    · rename_i hdup
      simp only [Bool.and_eq_true, beq_iff_eq] at hdup
      exact ⟨r, List.mem_cons_self r rs, hdup.1, by simpa using hdup.2⟩
    · split at h
      · exact absurd h (by simp)
      · cases hrec : insertIndex url priority rs with
        | none =>
          obtain ⟨x, hx, hp, hu⟩ := insertIndex_none hrec
          exact ⟨x, List.mem_cons_of_mem r hx, hp, hu⟩
        | some j => simp [hrec] at h

theorem mem_qlistInsert_self (req : Request) : ∀ (i : Nat) (l : List Request),
    req ∈ qlistInsert req i l
  | 0, l => by simp [qlistInsert]
  | _ + 1, [] => by simp [qlistInsert]
  | i + 1, r :: rs => by
    simp only [qlistInsert]
    exact List.mem_cons_of_mem r (mem_qlistInsert_self req i rs)

theorem urlsNonempty_qlistInsert {req : Request} {url : QUrl} {us : List QUrl}
    (hurls : req.urls = url :: us) {q : List Request} (hq : UrlsNonempty q) (i : Nat) :
    UrlsNonempty (qlistInsert req i q) := by
  intro r hr
  rcases mem_qlistInsert hr with h | h
  · subst h
    simp [hurls]
  · exact hq r h

theorem requestData_stale (load : QUrl → QByteArray → QUrl → χ → χ)
    (cache : QAbstractNetworkCache) (now : Int) (req : Request) (lastmod : QDateTime)
    (refreshAge : Int) (s : TvChannelList χ) {url : QUrl} {us : List QUrl}
    (hfresh : findFresh cache s.m_lastFetch now lastmod refreshAge req.urls = none)
    (hurls : req.urls = url :: us) (hq : UrlsNonempty s.m_requests) :
    ∃ s1, requestData load cache now req lastmod refreshAge s = some s1 ∧
      s1.m_model = s.m_model ∧
      (((s.m_currentRequest.isValid && req.urls.contains s.m_currentRequest) = true ∨
          insertIndex url req.priority s.m_requests = none) → s1 = s) ∧
      ((s.m_currentRequest.isValid && req.urls.contains s.m_currentRequest) = false →
        insertIndex url req.priority s.m_requests ≠ none →
          s1.m_requestsToDo = s.m_requestsToDo + 1 ∧
          (req ∈ s1.m_requests ∨ s1.m_currentRequest = url)) ∧
      ((∃ r ∈ s1.m_requests, r.priority = req.priority ∧ url ∈ r.urls) ∨
        s1.m_currentRequest = url ∨
        (s1.m_currentRequest.isValid = true ∧ s1.m_currentRequest ∈ req.urls)) := by
  unfold requestData
  by_cases hbail : (s.m_currentRequest.isValid && req.urls.contains s.m_currentRequest) = true
  · rw [if_pos hbail]
    refine ⟨s, rfl, rfl, fun _ => rfl, fun h => ?_, ?_⟩
    · rw [hbail] at h
      exact absurd h (by simp)
    · simp only [Bool.and_eq_true] at hbail
      exact Or.inr (Or.inr ⟨hbail.1, by simpa using hbail.2⟩)
  · rw [if_neg hbail, hfresh]
    simp only [hurls]
    cases hidx : insertIndex url req.priority s.m_requests with
    | none =>
      refine ⟨s, rfl, rfl, fun _ => rfl, fun _ h => absurd rfl h, ?_⟩
      obtain ⟨r, hr, hp, hu⟩ := insertIndex_none hidx
      exact Or.inl ⟨r, hr, hp, hu⟩
    | some index =>
      simp only
      obtain ⟨s1, hs1, hmodel, htodo, _, _, hcase⟩ := nextPending_outcome now
        (s := { s with
          m_requests := qlistInsert req index s.m_requests
          m_requestsToDo := s.m_requestsToDo + 1 })
        (urlsNonempty_qlistInsert hurls hq index)
      have hmem := mem_qlistInsert_self req index s.m_requests
      have hwhere : req ∈ s1.m_requests ∨ s1.m_currentRequest = url := by
        rcases hcase with ⟨hsame, _⟩ | ⟨head, us1, hhead, hheadurls, _⟩
        · exact Or.inl (by rw [hsame]; exact hmem)
        · have hmem2 : req ∈ head :: s1.m_requests := by
            rw [← hhead]; exact hmem
          rcases List.mem_cons.1 hmem2 with h | h
          · subst h
            rw [hurls] at hheadurls
            simp only [List.cons.injEq] at hheadurls
            exact Or.inr hheadurls.1.symm
          · exact Or.inl h
      refine ⟨s1, hs1, hmodel, ?_, fun _ _ => ⟨htodo, hwhere⟩, ?_⟩
      · intro h
        rcases h with h | h
        · exact absurd (by rw [hurls]; exact h) hbail
        · exact absurd h (by simp)
      · rcases hwhere with h | h
        · exact Or.inl ⟨req, h, rfl, by simp [hurls]⟩
        · exact Or.inr (Or.inl h)

theorem findFresh_forced (cache : QAbstractNetworkCache) (lastFetchMap : List (QUrl × Int))
    (now : Int) : ∀ (urls : List QUrl),
    (∀ u ∈ urls, (QDateTime.isValid (lastFetchValue lastFetchMap u) &&
      QDateTime.ge (lastFetchValue lastFetchMap u)
        (QDateTime.addSecs (some now) (-(60 * 60)))) = false) →
    findFresh cache lastFetchMap now none (-1) urls = none
  | [], _ => rfl
  | url :: rest, h => by
    have hu := h url (List.mem_cons_self url rest)
    have ih := findFresh_forced cache lastFetchMap now rest
      (fun u hu => h u (List.mem_cons_of_mem url hu))
    simp only [findFresh, QDateTime.isValid, Option.isSome_none, Bool.false_eq_true, if_false,
      bne_self_eq_false]
    simp only [QDateTime.isValid] at hu
    simp only [hu, Bool.false_eq_true, if_false]
    exact ih

theorem findFresh_stale (cache : QAbstractNetworkCache) (lastFetchMap : List (QUrl × Int))
    (now T refreshAge : Int) (urls : List QUrl)
    (hmod : ∀ u ∈ urls, (cache.metaData u).lastModified ≠ some T)
    (hrecent : ∀ u ∈ urls, recentFetchHit cache lastFetchMap now u = false) :
    findFresh cache lastFetchMap now (some T) refreshAge urls = none := by
  rw [findFresh_lastmod]
  have : urls.find? (fun u => lastModifiedHit cache (some T) u ||
      recentFetchHit cache lastFetchMap now u) = none := by
    rw [List.find?_eq_none]
    intro u hu
    have h1 := hmod u hu
    simp [lastModifiedHit, hrecent u hu, h1]
  rw [this]

theorem removeRepeated_fst (cur : QUrl) : ∀ (q : List Request) (toDo : Int),
    (removeRepeated cur q toDo).1 = q.filter (fun r => !r.urls.contains cur)
  | [], _ => rfl
  | r :: rs, toDo => by
    simp only [removeRepeated]
    split
    · rename_i hc
      have hm : cur ∈ r.urls := by simpa using hc
      rw [removeRepeated_fst cur rs (toDo - 1), List.filter_cons]
      simp [hm]
    · rename_i hc
      have hm : cur ∉ r.urls := by simpa using hc
      rw [List.filter_cons, removeRepeated_fst cur rs toDo]
      simp [hm]

theorem finishReply_fields (load : QUrl → QByteArray → QUrl → χ → χ) (now : Int)
    (s : TvChannelList χ) :
    (finishReply load now s).m_requests =
        s.m_requests.filter (fun r => !r.urls.contains s.m_currentRequest) ∧
      (finishReply load now s).m_requestsToDo =
        (removeRepeated s.m_currentRequest s.m_requests s.m_requestsToDo).2 ∧
      (finishReply load now s).m_requestsDone = s.m_requestsDone + 1 ∧
      (finishReply load now s).m_currentRequest = QUrl.null ∧
      (finishReply load now s).m_reply = false ∧
      (finishReply load now s).m_busy = s.m_busy ∧
      (finishReply load now s).m_progress = s.m_progress ∧
      (finishReply load now s).m_contents = [] ∧
      (finishReply load now s).m_model =
        (if s.m_contents.isEmpty then s.m_model
         else load s.m_startUrl s.m_contents s.m_currentRequest s.m_model) ∧
      (finishReply load now s).m_lastFetch =
        (if s.m_contents.isEmpty then s.m_lastFetch
         else lastFetchInsert s.m_lastFetch s.m_currentRequest now) := by
  rw [← removeRepeated_fst s.m_currentRequest s.m_requests s.m_requestsToDo]
  unfold finishReply
  simp only
  cases hc : s.m_contents with
  | nil => simp
  | cons b bs => simp

theorem urlsNonempty_filter {q : List Request} (hq : UrlsNonempty q) (p : Request → Bool) :
    UrlsNonempty (q.filter p) :=
  fun r hr => hq r (List.mem_of_mem_filter hr)

theorem requestFinished_eq (load : QUrl → QByteArray → QUrl → χ → χ) (now : Int)
    {s : TvChannelList χ} (hreply : s.m_reply = true) (hq : UrlsNonempty s.m_requests) :
    ∃ s4, nextPending now (finishReply load now s) = some s4 ∧
      requestFinished load now s =
        some (if !s4.m_currentRequest.isValid && s4.m_busy && s4.m_requests.isEmpty then
          { s4 with m_busy := false, m_progress := 1, m_requestsToDo := 0, m_requestsDone := 0 }
          else s4) := by
  have hq1 : UrlsNonempty (finishReply load now s).m_requests := by
    rw [(finishReply_fields load now s).1]
    exact urlsNonempty_filter hq _
  obtain ⟨s4, hs4, _⟩ := nextPending_outcome now hq1
  refine ⟨s4, hs4, ?_⟩
  unfold requestFinished
  rw [if_neg (by simp [hreply])]
  simp only [hs4]
  split <;> rfl

theorem sameScheduling_nextPending {now : Int} {a b a1 : TvChannelList χ}
    (h : SameScheduling a b) (ha : nextPending now a = some a1) :
    ∃ b1, nextPending now b = some b1 ∧ SameScheduling a1 b1 ∧
      (a1.m_model = a.m_model ∧ b1.m_model = b.m_model) ∧
      (a1.m_lastFetch.Sublist a.m_lastFetch) := by
  by_cases hc : (a.m_currentRequest.isValid || a.m_requests.isEmpty || a.m_throttled) = true
  · have hcb : (b.m_currentRequest.isValid || b.m_requests.isEmpty || b.m_throttled) = true := by
      rw [← h.current, ← h.requests, ← h.throttled]; exact hc
    rw [nextPending_idle now hc, Option.some.injEq] at ha
    subst ha
    refine ⟨_, nextPending_idle now hcb, ?_, ?_, ?_⟩
    · rw [forceProgressUpdate_eq, forceProgressUpdate_eq]
      exact ⟨h.requests, h.toDo, h.done, h.busy, by simp only [h.toDo, h.done], h.current,
        h.reply, h.throttled, h.contents, h.nam, h.timer⟩
    · exact ⟨by rw [forceProgressUpdate_eq], by rw [forceProgressUpdate_eq]⟩
    · have e : (forceProgressUpdate a).m_lastFetch = a.m_lastFetch := by
        rw [forceProgressUpdate_eq]
      rw [e]
  · simp only [Bool.or_eq_true, not_or, Bool.not_eq_true, List.isEmpty_eq_true] at hc
    obtain ⟨⟨hcur, hne⟩, hthr⟩ := hc
    cases hreqs : a.m_requests with
    | nil => exact absurd hreqs hne
    | cons req rest =>
      cases hurls : req.urls with
      | nil =>
        unfold nextPending at ha
        rw [if_neg (by simp [hcur, hthr, hreqs])] at ha
        simp [hreqs, hurls] at ha
      | cons url us =>
        rw [nextPending_dispatch now hcur hthr hreqs hurls, Option.some.injEq] at ha
        subst ha
        refine ⟨_, nextPending_dispatch now (by rw [← h.current]; exact hcur)
          (by rw [← h.throttled]; exact hthr) (by rw [← h.requests]; exact hreqs) hurls,
          ?_, ?_, ?_⟩
        · rw [forceProgressUpdate_eq, forceProgressUpdate_eq]
          exact ⟨rfl, h.toDo, h.done, rfl, by simp only [startFetch, h.toDo, h.done], rfl, rfl,
            rfl, rfl, by simp only [startFetch, h.nam], rfl⟩
        · exact ⟨by rw [forceProgressUpdate_eq]; rfl, by rw [forceProgressUpdate_eq]; rfl⟩
        · have e : (forceProgressUpdate (startFetch now rest url a)).m_lastFetch =
              lastFetchRemove a.m_lastFetch url := by
            rw [forceProgressUpdate_eq]; rfl
          rw [e]
          exact List.filter_sublist _

/-! ## Idle-reset lemmas -/

theorem nextPending_idleInv {now : Int} {s s1 : TvChannelList χ}
    (h : nextPending now s = some s1) (hinv : InFlightInv s)
    (hbusy : s.m_reply = true → s.m_busy = true)
    (hidle : s.m_requests = [] → s.m_currentRequest.isValid = false →
      s.m_busy = false ∧ s.m_requestsToDo = 0 ∧ s.m_requestsDone = 0) : IdleInv s1 := by
  have hinv1 := nextPending_inflight h hinv
  by_cases hc : (s.m_currentRequest.isValid || s.m_requests.isEmpty || s.m_throttled) = true
  · rw [nextPending_idle now hc, Option.some.injEq] at h
    subst h
    refine ⟨hinv1, ?_, ?_⟩
    · rw [forceProgressUpdate_eq]
      exact hbusy
    · rw [forceProgressUpdate_eq]
      intro hq hcur
      obtain ⟨hb, ht, hd⟩ := hidle hq hcur
      refine ⟨hb, ?_, ht, hd⟩
      show progressOf s.m_requestsDone s.m_requestsToDo = 1
      rw [ht, hd]
      simp [progressOf]
  · simp only [Bool.or_eq_true, not_or, Bool.not_eq_true, List.isEmpty_eq_true] at hc
    obtain ⟨⟨hcur, hne⟩, hthr⟩ := hc
    cases hreqs : s.m_requests with
    | nil => exact absurd hreqs hne
    | cons req rest =>
      cases hurls : req.urls with
      | nil =>
        unfold nextPending at h
        rw [if_neg (by simp [hcur, hthr, hreqs])] at h
        simp [hreqs, hurls] at h
      | cons url us =>
        rw [nextPending_dispatch now hcur hthr hreqs hurls, Option.some.injEq] at h
        subst h
        have hvalid : url.isValid = true :=
          hinv.valid req (by simp [hreqs]) url (by simp [hurls])
        refine ⟨hinv1, ?_, ?_⟩
        · rw [forceProgressUpdate_eq]
          intro _
          rfl
        · rw [forceProgressUpdate_eq]
          intro _ hv
          have hv2 : url.isValid = false := hv
          rw [hvalid] at hv2
          exact absurd hv2 (by simp)

theorem qlistInsert_ne_nil (req : Request) : ∀ (i : Nat) (l : List Request),
    qlistInsert req i l ≠ []
  | 0, l => by simp [qlistInsert]
  | _ + 1, [] => by simp [qlistInsert]
  | i + 1, r :: rs => by simp [qlistInsert]

theorem requestData_idleInv {load : QUrl → QByteArray → QUrl → χ → χ}
    {cache : QAbstractNetworkCache} {now : Int} {req : Request} {lastmod : QDateTime}
    {refreshAge : Int} {s s1 : TvChannelList χ}
    (h : requestData load cache now req lastmod refreshAge s = some s1)
    (hinv : IdleInv s) (hreq : ∀ u ∈ req.urls, u.isValid = true) : IdleInv s1 := by
  unfold requestData at h
  split at h
  · rw [Option.some.injEq] at h
    subst h
    exact hinv
  · split at h
    · rw [Option.some.injEq] at h
      subst h
      exact ⟨⟨hinv.inflight.reply, hinv.inflight.valid⟩, hinv.busy, hinv.idle⟩
    · split at h
      · exact absurd h (by simp)
      · split at h
        · rw [Option.some.injEq] at h
          subst h
          exact hinv
        · rename_i index _
          refine nextPending_idleInv h ⟨hinv.inflight.reply, ?_⟩ hinv.busy ?_
          · intro r hr
            rcases mem_qlistInsert hr with hr1 | hr1
            · subst hr1
              exact hreq
            · exact hinv.inflight.valid r hr1
          · intro hq
            exact absurd hq (qlistInsert_ne_nil req _ s.m_requests)

theorem requestFinished_idleInv {load : QUrl → QByteArray → QUrl → χ → χ} {now : Int}
    {s s1 : TvChannelList χ} (h : requestFinished load now s = some s1) (hinv : IdleInv s) :
    IdleInv s1 := by
  unfold requestFinished at h
  split at h
  · rw [Option.some.injEq] at h
    subst h
    exact hinv
  · rename_i hreply
    have hreply1 : s.m_reply = true := by simpa using hreply
    cases h4 : nextPending now (finishReply load now s) with
    | none => simp [h4] at h
    | some s4 =>
      simp only [h4] at h
      have hf := finishReply_fields load now s
      have hinvF := finishReply_inflight load now hinv.inflight
      have hinv4 := nextPending_inflight h4 hinvF
      have hbusyF : (finishReply load now s).m_busy = true := by
        rw [hf.2.2.2.2.2.1]
        exact hinv.busy hreply1
      by_cases hc : ((finishReply load now s).m_currentRequest.isValid ||
          (finishReply load now s).m_requests.isEmpty ||
          (finishReply load now s).m_throttled) = true
      · rw [nextPending_idle now hc, Option.some.injEq] at h4
        subst h4
        have h4r : (forceProgressUpdate (finishReply load now s)).m_reply = false := by
          rw [forceProgressUpdate_eq]; exact hf.2.2.2.2.1
        have h4c : (forceProgressUpdate (finishReply load now s)).m_currentRequest.isValid =
            false := by
          rw [forceProgressUpdate_eq]
          show (finishReply load now s).m_currentRequest.isValid = false
          rw [hf.2.2.2.1]; rfl
        have h4b : (forceProgressUpdate (finishReply load now s)).m_busy = true := by
          rw [forceProgressUpdate_eq]; exact hbusyF
        split at h
        · rw [Option.some.injEq] at h
          subst h
          refine ⟨⟨?_, hinv4.valid⟩, ?_, fun _ _ => ⟨rfl, rfl, rfl, rfl⟩⟩
          · show (forceProgressUpdate (finishReply load now s)).m_reply =
              (forceProgressUpdate (finishReply load now s)).m_currentRequest.isValid
            rw [h4r, h4c]
          · intro hr
            have hr1 : (forceProgressUpdate (finishReply load now s)).m_reply = true := hr
            rw [h4r] at hr1
            exact absurd hr1 (by simp)
        · rename_i hcond
          rw [Option.some.injEq] at h
          subst h
          refine ⟨hinv4, ?_, ?_⟩
          · intro hr
            rw [h4r] at hr
            exact absurd hr (by simp)
          · intro hq _
            exfalso
            apply hcond
            simp [h4c, h4b, hq]
      · simp only [Bool.or_eq_true, not_or, Bool.not_eq_true, List.isEmpty_eq_true] at hc
        obtain ⟨⟨hcur, hne⟩, hthr⟩ := hc
        cases hreqs : (finishReply load now s).m_requests with
        | nil => exact absurd hreqs hne
        | cons req rest =>
          cases hurls : req.urls with
          | nil =>
            unfold nextPending at h4
            rw [if_neg (by simp [hcur, hthr, hreqs])] at h4
            simp [hreqs, hurls] at h4
          | cons url us =>
            rw [nextPending_dispatch now hcur hthr hreqs hurls, Option.some.injEq] at h4
            subst h4
            have hvalid : url.isValid = true :=
              hinvF.valid req (by simp [hreqs]) url (by simp [hurls])
            have h4c : (forceProgressUpdate
                (startFetch now rest url (finishReply load now s))).m_currentRequest.isValid =
                true := by
              rw [forceProgressUpdate_eq]; exact hvalid
            have h4b : (forceProgressUpdate
                (startFetch now rest url (finishReply load now s))).m_busy = true := by
              rw [forceProgressUpdate_eq]; rfl
            rw [if_neg (by simp [h4c]), Option.some.injEq] at h
            subst h
            refine ⟨hinv4, fun _ => h4b, ?_⟩
            intro _ hv
            rw [h4c] at hv
            exact absurd hv (by simp)

theorem trimLoop_removed (first last : Int) (q : List Request) (toDo : Int)
    (h : (trimLoop first last q toDo false).1.length < q.length) :
    (trimLoop first last q toDo false).2.2 = true := by
  cases hflag : (trimLoop first last q toDo false).2.2 with
  | true => rfl
  | false =>
    have := (trimLoop_unchanged first last q toDo hflag).1
    rw [this] at h
    exact absurd h (lt_irrefl _)

theorem trimRequests_idleInv (first last : Int) {s : TvChannelList χ} (hinv : IdleInv s) :
    IdleInv (trimRequests first last s) := by
  have hfr := trimRequests_frame first last s
  have hin : InFlightInv (trimRequests first last s) := by
    refine ⟨by rw [hfr.1, hfr.2]; exact hinv.inflight.reply, ?_⟩
    rw [trimRequests_requests]
    intro r hr
    exact hinv.inflight.valid r (List.mem_of_mem_filter hr)
  refine ⟨hin, ?_, ?_⟩
  · intro hr
    rw [hfr.2] at hr
    have hb := hinv.busy hr
    have hv : s.m_currentRequest.isValid = true := by
      rw [← hinv.inflight.reply]; exact hr
    unfold trimRequests
    simp only
    split
    · split
      · rename_i hcond
        simp [hv] at hcond
      · rw [forceProgressUpdate_eq]
        exact hb
    · exact hb
  · unfold trimRequests
    simp only
    split
    · split
      · intro _ _
        exact ⟨rfl, rfl, rfl, rfl⟩
      · rename_i hcond
        rw [forceProgressUpdate_eq]
        intro hq hv
        exfalso
        apply hcond
        have hq1 : (trimLoop first last s.m_requests s.m_requestsToDo false).1 = [] := hq
        have hv1 : s.m_currentRequest.isValid = false := hv
        simp [hq1, hv1]
    · rename_i hflag
      have hun := trimLoop_unchanged first last s.m_requests s.m_requestsToDo
        (by simpa using hflag)
      intro hq hv
      have hq1 : (trimLoop first last s.m_requests s.m_requestsToDo false).1 = [] := hq
      rw [hun.1] at hq1
      have := hinv.idle hq1 hv
      have htd : (trimLoop first last s.m_requests s.m_requestsToDo false).2.1 = 0 := by
        rw [hun.2]; exact this.2.2.1
      exact ⟨this.1, this.2.1, htd, this.2.2.2⟩

theorem step_idleInv {load : QUrl → QByteArray → QUrl → χ → χ} {op : Op}
    {s s1 : TvChannelList χ} (hinv : IdleInv s) (hop : op.validUrls)
    (h : step load op s = some s1) : IdleInv s1 := by
  cases op with
  | requestData cache now req lastmod refreshAge => exact requestData_idleInv h hinv hop
  | refreshChannels cache now forceReload =>
    simp only [step, refreshChannels] at h
    split at h
    · rename_i hv
      exact requestData_idleInv h hinv (by simpa using hv)
    · rw [Option.some.injEq] at h
      subst h
      exact hinv
  | reload cache now =>
    simp only [step, reload, refreshChannels] at h
    split at h
    · rename_i hv
      exact requestData_idleInv h
        ⟨⟨hinv.inflight.reply, hinv.inflight.valid⟩, hinv.busy, hinv.idle⟩ (by simpa using hv)
    · rw [Option.some.injEq] at h
      subst h
      exact ⟨⟨hinv.inflight.reply, hinv.inflight.valid⟩, hinv.busy, hinv.idle⟩
  | requestReadyRead bytes =>
    simp only [step, requestReadyRead, Option.some.injEq] at h
    subst h
    split
    · exact ⟨⟨hinv.inflight.reply, hinv.inflight.valid⟩, hinv.busy, hinv.idle⟩
    · exact hinv
  | requestFinished now => exact requestFinished_idleInv h hinv
  | trimRequests first last =>
    simp only [step, Option.some.injEq] at h
    subst h
    exact trimRequests_idleInv first last hinv
  | abort =>
    simp only [step, abort, Option.some.injEq] at h
    subst h
    exact ⟨⟨rfl, fun r hr => by simp at hr⟩, fun hr => by simp at hr,
      fun _ _ => ⟨rfl, rfl, rfl, rfl⟩⟩
  | throttleTimeout now =>
    simp only [step, throttleTimeout] at h
    exact nextPending_idleInv h ⟨hinv.inflight.reply, hinv.inflight.valid⟩ hinv.busy
      (fun hq hv => ⟨(hinv.idle hq hv).1, (hinv.idle hq hv).2.2⟩)
  | nextPending now =>
    exact nextPending_idleInv h hinv.inflight hinv.busy
      (fun hq hv => ⟨(hinv.idle hq hv).1, (hinv.idle hq hv).2.2⟩)

theorem run_idleInv {load : QUrl → QByteArray → QUrl → χ → χ} : ∀ {ops : List Op}
    {s s1 : TvChannelList χ}, IdleInv s → (∀ op ∈ ops, op.validUrls) →
    run load ops s = some s1 → IdleInv s1
  | [], s, s1, hinv, _, h => by
    simp only [run, Option.some.injEq] at h
    subst h
    exact hinv
  | op :: ops, s, s1, hinv, hops, h => by
    simp only [run] at h
    cases hstep : step load op s with
    | none => simp [hstep] at h
    | some s2 =>
      simp only [hstep] at h
      exact run_idleInv (step_idleInv hinv (hops op (by simp)) hstep)
        (fun o ho => hops o (by simp [ho])) h

theorem idleInv_init (startUrl : QUrl) (refresh : Int) (model : χ)
    (bookmarks : List TvBookmark) (index : List (QString × TvBookmark)) :
    IdleInv (TvChannelList.init startUrl refresh model bookmarks index) :=
  ⟨⟨rfl, fun r hr => by simp [TvChannelList.init] at hr⟩,
    fun hr => by simp [TvChannelList.init] at hr, fun _ _ => ⟨rfl, rfl, rfl, rfl⟩⟩

/-! ## Insert-position lemmas -/

theorem qlistInsert_eq {url : QUrl} {req : Request} : ∀ {q : List Request} {i : Nat},
    insertIndex url req.priority q = some i →
    qlistInsert req i q =
        q.takeWhile (fun r => decide (r.priority ≤ req.priority)) ++
          req :: q.dropWhile (fun r => decide (r.priority ≤ req.priority)) ∧
      i = (q.takeWhile (fun r => decide (r.priority ≤ req.priority))).length
  | [], i, h => by
    simp only [insertIndex, Option.some.injEq] at h
    subst h
    simp [qlistInsert]
  | r :: rs, i, h => by
    simp only [insertIndex] at h
    split at h
    · exact absurd h (by simp)
    · split at h
      · rename_i hlt
        simp only [Option.some.injEq] at h
        subst h
        have hnle : ¬ r.priority ≤ req.priority := by omega
        simp [qlistInsert, List.takeWhile_cons, List.dropWhile_cons, hnle]
      · rename_i hge
        cases hj : insertIndex url req.priority rs with
        | none => simp [hj] at h
        | some j =>
          simp only [hj, Option.map_some', Option.some.injEq] at h
          subst h
          have hle : r.priority ≤ req.priority := by omega
          obtain ⟨h1, h2⟩ := qlistInsert_eq hj
          simp [qlistInsert, List.takeWhile_cons, List.dropWhile_cons, hle, h1, ← h2]

theorem insertIndex_isSome {url : QUrl} {priority : Int} : ∀ {q : List Request},
    (∀ r ∈ q, r.priority = priority → url ∉ r.urls) → ∃ i, insertIndex url priority q = some i
  | [], _ => ⟨0, rfl⟩
  | r :: rs, h => by
    obtain ⟨j, hj⟩ := insertIndex_isSome (q := rs)
      (fun x hx => h x (List.mem_cons_of_mem r hx))
    simp only [insertIndex]
    split
    · rename_i hdup
      simp only [Bool.and_eq_true, beq_iff_eq] at hdup
      exact absurd (by simpa using hdup.2) (h r (List.mem_cons_self r rs) hdup.1)
    · split
      · exact ⟨0, rfl⟩
      · exact ⟨j + 1, by simp [hj]⟩

theorem nextPending_toDo {now : Int} {s s1 : TvChannelList χ}
    (h : nextPending now s = some s1) : s1.m_requestsToDo = s.m_requestsToDo := by
  by_cases hc : (s.m_currentRequest.isValid || s.m_requests.isEmpty || s.m_throttled) = true
  · rw [nextPending_idle now hc, Option.some.injEq] at h
    subst h
    rw [forceProgressUpdate_eq]
  · simp only [Bool.or_eq_true, not_or, Bool.not_eq_true, List.isEmpty_eq_true] at hc
    obtain ⟨⟨hcur, hne⟩, hthr⟩ := hc
    cases hreqs : s.m_requests with
    | nil => exact absurd hreqs hne
    | cons req rest =>
      cases hurls : req.urls with
      | nil =>
        unfold nextPending at h
        rw [if_neg (by simp [hcur, hthr, hreqs])] at h
        simp [hreqs, hurls] at h
      | cons url us =>
        rw [nextPending_dispatch now hcur hthr hreqs hurls, Option.some.injEq] at h
        subst h
        rw [forceProgressUpdate_eq]
        rfl

theorem dropWhile_sorted_gt {p : Int} : ∀ {q : List Request}, SortedQueue q →
    ∀ r ∈ q.dropWhile (fun r => decide (r.priority ≤ p)), p < r.priority
  | [], _, r, hr => by simp at hr
  | x :: xs, hs, r, hr => by
    have hsx := List.pairwise_cons.1 hs
    by_cases hle : x.priority ≤ p
    · rw [List.dropWhile_cons, if_pos (by simpa using hle)] at hr
      exact dropWhile_sorted_gt hsx.2 r hr
    · rw [List.dropWhile_cons, if_neg (by simpa using hle)] at hr
      rcases List.mem_cons.1 hr with h | h
      · subst h; omega
      · have := hsx.1 r h
        omega

/-! ## Tie lemmas of the matcher -/

open TvBookmark.Match in
theorem matchLoop_allNoMatch (v : TvBookmark → TvBookmark.Match) :
    ∀ (it : List (QString × TvBookmark)) (result : TvBookmark.Match)
      (bookmark : Option TvBookmark),
      (∀ e ∈ it, v e.2 = NoMatch) → matchLoop v it result bookmark = (result, bookmark)
  | [], _, _, _ => rfl
  | e :: it, result, bookmark, h => by
    have he := h e (List.mem_cons_self e it)
    have ih := matchLoop_allNoMatch v it result bookmark
      (fun x hx => h x (List.mem_cons_of_mem e hx))
    simp [matchLoop, he, ih]

open TvBookmark.Match in
theorem matchLoop_title_kept (v : TvBookmark → TvBookmark.Match) :
    ∀ (it : List (QString × TvBookmark)) (bookmark : Option TvBookmark),
      (∀ e ∈ it, v e.2 = NoMatch ∨ v e.2 = ShouldMatch) →
      matchLoop v it TitleMatch bookmark = (TitleMatch, bookmark)
  | [], _, _ => rfl
  | e :: it, bookmark, h => by
    have ih := matchLoop_title_kept v it bookmark
      (fun x hx => h x (List.mem_cons_of_mem e hx))
    rcases h e (List.mem_cons_self e it) with he | he
    · simp [matchLoop, he, ih]
    · simp [matchLoop, he, ih]

open TvBookmark.Match in
theorem matchLoop_lastTitle (v : TvBookmark → TvBookmark.Match) (e : QString × TvBookmark)
    (post : List (QString × TvBookmark)) (he : v e.2 = TitleMatch)
    (hpost : ∀ x ∈ post, v x.2 = NoMatch ∨ v x.2 = ShouldMatch) :
    ∀ (pre : List (QString × TvBookmark)) (result : TvBookmark.Match)
      (bookmark : Option TvBookmark),
      (∀ x ∈ pre, (v x.2).isSpecific = false) →
      matchLoop v (pre ++ e :: post) result bookmark = (TitleMatch, some e.2)
  | [], result, bookmark, _ => by
    simp [matchLoop, he, matchLoop_title_kept v post (some e.2) hpost]
  | x :: pre, result, bookmark, h => by
    have hpre : ∀ y ∈ pre, (v y.2).isSpecific = false :=
      fun y hy => h y (List.mem_cons_of_mem x hy)
    have hx := h x (List.mem_cons_self x pre)
    cases hv : v x.2 with
    | NoMatch => simp [matchLoop, hv, matchLoop_lastTitle v e post he hpost pre _ _ hpre]
    | ShouldMatch =>
      by_cases hr : result = TitleMatch
      · simp [matchLoop, hv, hr, matchLoop_lastTitle v e post he hpost pre _ _ hpre]
      · simp [matchLoop, hv, hr, matchLoop_lastTitle v e post he hpost pre _ _ hpre]
    | TitleMatch => simp [matchLoop, hv, matchLoop_lastTitle v e post he hpost pre _ _ hpre]
    | Specific kind =>
      rw [hv] at hx
      exact absurd hx (by simp [TvBookmark.Match.isSpecific])

open TvBookmark.Match in
theorem matchLoop_lastShould (v : TvBookmark → TvBookmark.Match) (e : QString × TvBookmark)
    (post : List (QString × TvBookmark)) (he : v e.2 = ShouldMatch)
    (hpost : ∀ x ∈ post, v x.2 = NoMatch) :
    ∀ (pre : List (QString × TvBookmark)) (result : TvBookmark.Match)
      (bookmark : Option TvBookmark), result ≠ TitleMatch →
      (∀ x ∈ pre, v x.2 = NoMatch ∨ v x.2 = ShouldMatch) →
      matchLoop v (pre ++ e :: post) result bookmark = (ShouldMatch, some e.2)
  | [], result, bookmark, hr, _ => by
    simp [matchLoop, he, hr, matchLoop_allNoMatch v post _ _ hpost]
  | x :: pre, result, bookmark, hr, h => by
    have hpre : ∀ y ∈ pre, v y.2 = NoMatch ∨ v y.2 = ShouldMatch :=
      fun y hy => h y (List.mem_cons_of_mem x hy)
    rcases h x (List.mem_cons_self x pre) with hv | hv
    · simp [matchLoop, hv, matchLoop_lastShould v e post he hpost pre result bookmark hr hpre]
    · simp [matchLoop, hv, hr,
        matchLoop_lastShould v e post he hpost pre ShouldMatch (some x.2) (by simp) hpre]

theorem exists_last_with {α : Type} (p : α → Prop) : ∀ (l : List α), (∃ x ∈ l, p x) →
    ∃ pre x post, l = pre ++ x :: post ∧ p x ∧ ∀ y ∈ post, ¬ p y
  | [], h => by
    obtain ⟨x, hx, _⟩ := h
    simp at hx
  | a :: l, h => by
    by_cases hl : ∃ x ∈ l, p x
    · obtain ⟨pre, x, post, hsplit, hx, hpost⟩ := exists_last_with p l hl
      exact ⟨a :: pre, x, post, by rw [hsplit]; rfl, hx, hpost⟩
    · obtain ⟨x, hx, hpx⟩ := h
      rcases List.mem_cons.1 hx with h1 | h1
      · subst h1
        exact ⟨[], x, l, rfl, hpx, fun y hy hpy => hl ⟨y, hy, hpy⟩⟩
      · exact absurd ⟨x, h1, hpx⟩ hl

theorem constFind_append_hit {key : QString} {x : QString × TvBookmark}
    (post : List (QString × TvBookmark)) (hx : x.1 = key) :
    ∀ (pre : List (QString × TvBookmark)),
      constFind key (pre ++ x :: post) = constFind key pre ++ x :: post
  | [] => by simp [constFind, hx]
  | a :: pre => by
    simp only [List.cons_append, constFind]
    split
    · rfl
    · exact constFind_append_hit post hx pre

/-! ## Registry lemmas -/

theorem channelSet_cons (id : QString) (channel : TvChannel) (e : QString × TvChannel)
    (rest : List (QString × TvChannel)) :
    channelSet id channel (e :: rest) =
      (if e.1 == id then (e.1, channel) else e) :: channelSet id channel rest := rfl

theorem channelValue_cons (e : QString × TvChannel) (rest : List (QString × TvChannel))
    (k : QString) :
    channelValue (e :: rest) k = if e.1 = k then some e.2 else channelValue rest k := by
  unfold channelValue
  rw [List.find?_cons]
  by_cases he : e.1 = k
  · have hb : (e.1 == k) = true := by simp [he]
    rw [hb, if_pos he]
    rfl
  · have hb : (e.1 == k) = false := by simp [he]
    rw [hb, if_neg he]

theorem channelValue_nil (k : QString) : channelValue [] k = none := rfl

theorem channelSet_keys (id : QString) (channel : TvChannel) :
    ∀ (channels : List (QString × TvChannel)),
      (channelSet id channel channels).map Prod.fst = channels.map Prod.fst
  | [] => rfl
  | e :: rest => by
    rw [channelSet_cons, List.map_cons, List.map_cons, channelSet_keys id channel rest]
    by_cases he : e.1 = id
    · simp [he]
    · simp [he]

theorem channelValue_channelSet (id : QString) (channel : TvChannel) (k : QString) :
    ∀ (channels : List (QString × TvChannel)),
      channelValue (channelSet id channel channels) k =
        if k = id then (channelValue channels id).map (fun _ => channel)
        else channelValue channels k
  | [] => by
    show channelValue [] k = _
    simp [channelValue_nil]
  | e :: rest => by
    have ih := channelValue_channelSet id channel k rest
    rw [channelSet_cons, channelValue_cons, ih]
    by_cases hk : k = id
    · subst hk
      rw [if_pos rfl, if_pos rfl, channelValue_cons]
      by_cases he : e.1 = k
      · simp [he]
      · simp [he]
    · rw [if_neg hk, if_neg hk, channelValue_cons]
      by_cases he : e.1 = id
      · have hek : ¬ e.1 = k := fun h => hk (h.symm.trans he)
        simp [he, hek, Ne.symm hk]
      · simp [he]

theorem channelValue_channelInsert (id : QString) (channel : TvChannel) (k : QString) :
    ∀ (channels : List (QString × TvChannel)),
      channelValue (channelInsert id channel channels) k =
        if k = id then some channel else channelValue channels k
  | [] => by
    show channelValue [(id, channel)] k = _
    rw [channelValue_cons, channelValue_nil]
    by_cases hk : k = id
    · simp [hk]
    · simp [hk, Ne.symm hk]
  | e :: rest => by
    have ih := channelValue_channelInsert id channel k rest
    simp only [channelInsert]
    by_cases he : e.1 = id
    · rw [if_pos (by simp [he]), channelValue_cons, channelValue_cons]
      by_cases hk : k = id
      · simp [hk]
      · simp [hk, Ne.symm hk, he]
    · rw [if_neg (by simp [he])]
      split
      · rw [channelValue_cons]
        by_cases hk : k = id
        · simp [hk]
        · simp [hk, Ne.symm hk]
      · rw [channelValue_cons, ih, channelValue_cons]
        by_cases hk : k = id
        · subst hk
          simp [he]
        · simp [hk]

theorem channelValue_isSome_iff (k : QString) : ∀ (channels : List (QString × TvChannel)),
    (channelValue channels k).isSome = true ↔ k ∈ channels.map Prod.fst
  | [] => by simp [channelValue_nil]
  | e :: rest => by
    have ih := channelValue_isSome_iff k rest
    rw [channelValue_cons, List.map_cons, List.mem_cons]
    by_cases he : e.1 = k
    · simp [he]
    · have hke : ¬ k = e.1 := fun h => he h.symm
      simp only [he, if_false, hke, false_or]
      exact ih

theorem channelInsert_keys_perm (id : QString) (channel : TvChannel) :
    ∀ (channels : List (QString × TvChannel)), id ∉ channels.map Prod.fst →
      ((channelInsert id channel channels).map Prod.fst).Perm (id :: channels.map Prod.fst)
  | [], _ => by simp [channelInsert]
  | e :: rest, h => by
    simp only [List.map_cons, List.mem_cons, not_or] at h
    have he : ¬ e.1 = id := fun hh => h.1 hh.symm
    simp only [channelInsert]
    rw [if_neg (by simp [he])]
    split
    · exact List.Perm.refl _
    · simp only [List.map_cons]
      exact ((channelInsert_keys_perm id channel rest h.2).cons e.1).trans
        (List.Perm.swap id e.1 _)

theorem mem_iff_channelValue : ∀ {channels : List (QString × TvChannel)},
    (channels.map Prod.fst).Nodup → ∀ (k : QString) (channel : TvChannel),
    ((k, channel) ∈ channels ↔ channelValue channels k = some channel)
  | [], _, k, channel => by simp [channelValue_nil]
  | e :: rest, hnodup, k, channel => by
    simp only [List.map_cons, List.nodup_cons] at hnodup
    have ih := mem_iff_channelValue hnodup.2 k channel
    rw [channelValue_cons, List.mem_cons]
    by_cases he : e.1 = k
    · subst he
      have hnot : (e.1, channel) ∉ rest := fun hm =>
        hnodup.1 (List.mem_map.2 ⟨(e.1, channel), hm, rfl⟩)
      simp only [if_true, Option.some.injEq, hnot, or_false]
      constructor
      · intro h
        rw [← h]
      · intro h
        rw [← h]
    · have hne : ¬ (k, channel) = e := fun h => he (by rw [← h])
      simp only [he, if_false, hne, false_or]
      exact ih

/-! ## Frame of the OzTivo channel numbers -/

theorem loadOzTivoChannel_frame {α : Type} (f : TvChannel → α)
    (hf : ∀ (ch : TvChannel) (nums : List QString), f { ch with channelNumbers := nums } = f ch) :
    ∀ (numbers : List (QString × QString)) (channel : TvChannel),
      f (loadOzTivoChannel numbers channel).1 = f channel
  | [], _ => rfl
  | (system, num) :: rest, channel => by
    unfold loadOzTivoChannel
    split
    · exact loadOzTivoChannel_frame f hf rest channel
    · exact (loadOzTivoChannel_frame f hf rest _).trans (hf channel _)

theorem loadOzTivoEntries_frame {α : Type} (f : TvChannel → α)
    (hf : ∀ (ch : TvChannel) (nums : List QString), f { ch with channelNumbers := nums } = f ch)
    (k : QString) :
    ∀ (entries : List (QString × List (QString × QString))) (m : ChannelModel),
      (channelValue (loadOzTivoEntries entries m).m_channels k).map f =
        (channelValue m.m_channels k).map f
  | [], _ => rfl
  | (id, numbers) :: rest, m => by
    unfold loadOzTivoEntries
    cases h : channelValue m.m_channels id with
    | none => exact loadOzTivoEntries_frame f hf k rest m
    | some channel =>
      refine (loadOzTivoEntries_frame f hf k rest _).trans ?_
      show (channelValue (channelSet id (loadOzTivoChannel numbers channel).1 m.m_channels) k).map f
        = _
      rw [channelValue_channelSet]
      by_cases hk : k = id
      · subst hk
        rw [if_pos rfl, h]
        exact congrArg some (loadOzTivoChannel_frame f hf numbers channel)
      · rw [if_neg hk]

theorem loadOzTivoEntries_fields :
    ∀ (entries : List (QString × List (QString × QString))) (m : ChannelModel),
      (loadOzTivoEntries entries m).m_channels.map Prod.fst = m.m_channels.map Prod.fst ∧
      (loadOzTivoEntries entries m).m_activeChannels = m.m_activeChannels ∧
      (loadOzTivoEntries entries m).m_hasDataFor = m.m_hasDataFor
  | [], _ => ⟨rfl, rfl, rfl⟩
  | (id, numbers) :: rest, m => by
    unfold loadOzTivoEntries
    cases h : channelValue m.m_channels id with
    | none => exact loadOzTivoEntries_fields rest m
    | some channel =>
      have ih := loadOzTivoEntries_fields rest
        { m with
          m_channels := channelSet id (loadOzTivoChannel numbers channel).1 m.m_channels
          m_haveChannelNumbers :=
            m.m_haveChannelNumbers || (loadOzTivoChannel numbers channel).2 }
      exact ⟨ih.1.trans (channelSet_keys id _ m.m_channels), ih.2.1, ih.2.2⟩

theorem loadOzTivoChannelData_frame {α : Type} (env : LoadEnv) (f : TvChannel → α)
    (hf : ∀ (ch : TvChannel) (nums : List QString), f { ch with channelNumbers := nums } = f ch)
    (k : QString) (m : ChannelModel) :
    (channelValue (loadOzTivoChannelData env m).m_channels k).map f =
      (channelValue m.m_channels k).map f := by
  unfold loadOzTivoChannelData
  cases env.ozTivoData with
  | none => rfl
  | some entries => exact loadOzTivoEntries_frame f hf k entries m

theorem loadOzTivoChannelData_fields (env : LoadEnv) (m : ChannelModel) :
    (loadOzTivoChannelData env m).m_channels.map Prod.fst = m.m_channels.map Prod.fst ∧
    (loadOzTivoChannelData env m).m_activeChannels = m.m_activeChannels ∧
    (loadOzTivoChannelData env m).m_hasDataFor = m.m_hasDataFor := by
  unfold loadOzTivoChannelData
  cases env.ozTivoData with
  | none => exact ⟨rfl, rfl, rfl⟩
  | some entries => exact loadOzTivoEntries_fields entries m

/-- The registry after `rebuildActiveChannels` differs from the one before only in channel
numbers. -/
theorem rebuildActiveChannels_frame {α : Type} (env : LoadEnv) (startUrl : QUrl)
    (f : TvChannel → α)
    (hf : ∀ (ch : TvChannel) (nums : List QString), f { ch with channelNumbers := nums } = f ch)
    (k : QString) (m : ChannelModel) :
    (channelValue (rebuildActiveChannels env startUrl m).m_channels k).map f =
      (channelValue m.m_channels k).map f := by
  unfold rebuildActiveChannels
  by_cases ho : env.hostIsOzTivo startUrl = true
  · simp only [ho, if_true]
    exact loadOzTivoChannelData_frame env f hf k _
  · simp only [ho, if_false, Bool.false_eq_true]

theorem load_frame {α : Type} (env : LoadEnv) (startUrl : QUrl) (items : List TvItem)
    (url : QUrl) (f : TvChannel → α)
    (hf : ∀ (ch : TvChannel) (nums : List QString), f { ch with channelNumbers := nums } = f ch)
    (k : QString) (m : ChannelModel) :
    (channelValue (TvChannelList.load env startUrl items url m).1.m_channels k).map f =
      (channelValue
        (loadLoop env items { model := m, newChannels := false, newProgrammes := [] }
          ).model.m_channels k).map f := by
  unfold TvChannelList.load
  simp only
  split
  · exact rebuildActiveChannels_frame env startUrl f hf k _
  · rfl

/-! ## Programme elements -/

theorem loadProgramme_programmes (env : LoadEnv) (c : QString) (body : XmlBody)
    (st : LoadState) :
    (channelValue (loadProgramme env c body st).model.m_channels c).map TvChannel.programmes =
      some (((channelValue st.model.m_channels c).map TvChannel.programmes).getD [] ++
        [env.programmeLoad c body]) := by
  unfold loadProgramme
  cases h : channelValue st.model.m_channels c with
  | none =>
    simp only [channelValue_channelSet, channelValue_channelInsert, if_true]
    split <;> rfl
  | some ch =>
    simp only [channelValue_channelSet, if_true, h]
    rfl

theorem loadProgramme_newProgrammes (env : LoadEnv) (c : QString) (body : XmlBody)
    (st : LoadState) :
    (loadProgramme env c body st).newProgrammes = qsetInsert c st.newProgrammes := by
  unfold loadProgramme
  cases h : channelValue st.model.m_channels c <;> rfl

theorem loadLoop_other (env : LoadEnv) (rest : List TvItem) (st : LoadState) :
    ∀ (n : Nat), loadLoop env (List.replicate n TvItem.other ++ rest) st = loadLoop env rest st
  | 0 => rfl
  | n + 1 => by
    show loadLoop env (TvItem.other :: (List.replicate n TvItem.other ++ rest)) st = _
    rw [loadLoop]
    exact loadLoop_other env rest st n

theorem noteDataFor_fields (channel : TvChannel) (st : LoadState) :
    (noteDataFor channel st).model.m_channels = st.model.m_channels ∧
    (noteDataFor channel st).newProgrammes = st.newProgrammes ∧
    (noteDataFor channel st).newChannels = st.newChannels ∧
    (noteDataFor channel st).model.m_hiddenChannelIds = st.model.m_hiddenChannelIds := by
  unfold noteDataFor
  split <;> exact ⟨rfl, rfl, rfl, rfl⟩

theorem count_qsetInsert_ne (k c : QString) (set : List QString) (h : k ≠ c) :
    (qsetInsert k set).count c = set.count c := by
  unfold qsetInsert
  split
  · rfl
  · have h0 : List.count c [k] = 0 := List.count_eq_zero.2 (by simpa using fun e => h e.symm)
    rw [List.count_append, h0, Nat.add_zero]

theorem count_qsetInsert_self (c : QString) (set : List QString) (h : set.count c ≤ 1) :
    (qsetInsert c set).count c = 1 := by
  unfold qsetInsert
  split
  · rename_i hc
    have hm : c ∈ set := by simpa using hc
    have : 0 < set.count c := List.count_pos_iff.2 hm
    omega
  · rename_i hc
    have hm : c ∉ set := by simpa using hc
    have : set.count c = 0 := List.count_eq_zero.2 hm
    simp [List.count_append, this]

theorem loadChannel_avoids (env : LoadEnv) (k c : QString) (body : XmlBody) (st : LoadState)
    (h : k ≠ c) :
    channelValue (loadChannel env k body st).model.m_channels c =
        channelValue st.model.m_channels c ∧
      (loadChannel env k body st).newProgrammes.count c = st.newProgrammes.count c := by
  have hck : ¬ c = k := fun e => h e.symm
  unfold loadChannel
  cases hv : channelValue st.model.m_channels k with
  | none =>
    simp only [(noteDataFor_fields _ _).1, (noteDataFor_fields _ _).2.1,
      channelValue_channelInsert, if_neg hck, and_self]
  | some channel =>
    simp only
    split
    · simp only [(noteDataFor_fields _ _).1, (noteDataFor_fields _ _).2.1,
        channelValue_channelSet, if_neg hck, true_and]
      split
      · exact count_qsetInsert_ne k c _ h
      · rfl
    · simp only [(noteDataFor_fields _ _).1, (noteDataFor_fields _ _).2.1,
        channelValue_channelSet, if_neg hck, and_self]

theorem loadProgramme_avoids (env : LoadEnv) (k c : QString) (body : XmlBody) (st : LoadState)
    (h : k ≠ c) :
    channelValue (loadProgramme env k body st).model.m_channels c =
        channelValue st.model.m_channels c ∧
      (loadProgramme env k body st).newProgrammes.count c = st.newProgrammes.count c := by
  have hck : ¬ c = k := fun e => h e.symm
  refine ⟨?_, ?_⟩
  · unfold loadProgramme
    cases hv : channelValue st.model.m_channels k with
    | none => simp only [channelValue_channelSet, channelValue_channelInsert, if_neg hck]
    | some channel => simp only [channelValue_channelSet, if_neg hck]
  · rw [loadProgramme_newProgrammes]
    exact count_qsetInsert_ne k c _ h

theorem loadLoop_avoids (env : LoadEnv) (c : QString) (rest : List TvItem) :
    ∀ (pre : List TvItem), (∀ i ∈ pre, TvItem.avoids c i = true) → ∀ (st : LoadState),
      ∃ st1 : LoadState, loadLoop env (pre ++ rest) st = loadLoop env rest st1 ∧
        channelValue st1.model.m_channels c = channelValue st.model.m_channels c ∧
        st1.newProgrammes.count c = st.newProgrammes.count c
  | [], _, st => ⟨st, rfl, rfl, rfl⟩
  | TvItem.endTv :: pre, h, _ => by
    have := h TvItem.endTv (List.mem_cons_self _ _)
    simp [TvItem.avoids] at this
  | TvItem.other :: pre, h, st => by
    obtain ⟨st1, h1, h2, h3⟩ := loadLoop_avoids env c rest pre
      (fun i hi => h i (List.mem_cons_of_mem _ hi)) st
    exact ⟨st1, by rw [List.cons_append, loadLoop]; exact h1, h2, h3⟩
  | TvItem.channel k body :: pre, h, st => by
    have hk : k ≠ c := by
      have := h (TvItem.channel k body) (List.mem_cons_self _ _)
      simpa [TvItem.avoids] using this
    obtain ⟨st1, h1, h2, h3⟩ := loadLoop_avoids env c rest pre
      (fun i hi => h i (List.mem_cons_of_mem _ hi)) (loadChannel env k body st)
    have hf := loadChannel_avoids env k c body st hk
    exact ⟨st1, by rw [List.cons_append, loadLoop]; exact h1, h2.trans hf.1, h3.trans hf.2⟩
  | TvItem.programme k body :: pre, h, st => by
    have hk : k ≠ c := by
      have := h (TvItem.programme k body) (List.mem_cons_self _ _)
      simpa [TvItem.avoids] using this
    obtain ⟨st1, h1, h2, h3⟩ := loadLoop_avoids env c rest pre
      (fun i hi => h i (List.mem_cons_of_mem _ hi)) (loadProgramme env k body st)
    have hf := loadProgramme_avoids env k c body st hk
    exact ⟨st1, by rw [List.cons_append, loadLoop]; exact h1, h2.trans hf.1, h3.trans hf.2⟩

theorem loadLoop_tail (env : LoadEnv) (st : LoadState) :
    ∀ (tail : List TvItem), tail = [] ∨ tail.head? = some TvItem.endTv →
      loadLoop env tail st = st
  | [], _ => rfl
  | TvItem.endTv :: _, _ => rfl
  | TvItem.other :: _, h => by simp at h
  | TvItem.channel _ _ :: _, h => by simp at h
  | TvItem.programme _ _ :: _, h => by simp at h

/-- The loop of `load` on a stream with exactly two `programme` elements for the channel `c`,
both with the same content: the channel gets the programme twice after what it had, and is
once in `newProgrammes`. -/
theorem loadLoop_programme_twice (env : LoadEnv) (c : QString) (body : XmlBody)
    (pre mid post tail : List TvItem)
    (hpre : ∀ i ∈ pre, TvItem.avoids c i = true) (hmid : ∀ i ∈ mid, TvItem.avoids c i = true)
    (hpost : ∀ i ∈ post, TvItem.avoids c i = true)
    (htail : tail = [] ∨ tail.head? = some TvItem.endTv) (st : LoadState)
    (hnew : st.newProgrammes.count c = 0) :
    (channelValue
        (loadLoop env
          (pre ++ TvItem.programme c body :: (mid ++ TvItem.programme c body :: (post ++ tail)))
          st).model.m_channels c).map TvChannel.programmes =
      some (((channelValue st.model.m_channels c).map TvChannel.programmes).getD [] ++
        [env.programmeLoad c body, env.programmeLoad c body]) ∧
    (loadLoop env
      (pre ++ TvItem.programme c body :: (mid ++ TvItem.programme c body :: (post ++ tail)))
      st).newProgrammes.count c = 1 := by
  obtain ⟨s1, e1, v1, n1⟩ := loadLoop_avoids env c
    (TvItem.programme c body :: (mid ++ TvItem.programme c body :: (post ++ tail))) pre hpre st
  obtain ⟨s2, e2, v2, n2⟩ := loadLoop_avoids env c
    (TvItem.programme c body :: (post ++ tail)) mid hmid (loadProgramme env c body s1)
  obtain ⟨s3, e3, v3, n3⟩ := loadLoop_avoids env c tail post hpost
    (loadProgramme env c body s2)
  rw [e1, loadLoop, e2, loadLoop, e3, loadLoop_tail env s3 tail htail, v3, n3]
  have p1 := loadProgramme_programmes env c body s1
  have p2 := loadProgramme_programmes env c body s2
  rw [v1] at p1
  rw [v2, p1] at p2
  refine ⟨?_, ?_⟩
  · rw [p2]
    simp
  · rw [loadProgramme_newProgrammes]
    apply count_qsetInsert_self
    rw [n2, loadProgramme_newProgrammes, count_qsetInsert_self c _ (by omega)]

/-! ## Invariants of the loop of `load` -/

theorem channelInsert_keys_nodup (id : QString) (channel : TvChannel)
    (channels : List (QString × TvChannel)) (hnodup : (channels.map Prod.fst).Nodup)
    (hnone : channelValue channels id = none) :
    ((channelInsert id channel channels).map Prod.fst).Nodup := by
  have hnot : id ∉ channels.map Prod.fst := by
    intro hm
    have := (channelValue_isSome_iff id channels).2 hm
    rw [hnone] at this
    exact absurd this (by simp)
  exact (channelInsert_keys_perm id channel channels hnot).nodup_iff.2
    (List.nodup_cons.2 ⟨hnot, hnodup⟩)

theorem noteDataFor_flag (channel : TvChannel) (st : LoadState) :
    (noteDataFor channel st).model.m_hasDataFor =
      (st.model.m_hasDataFor || channel.hasDataFor) := by
  unfold noteDataFor
  cases h : channel.hasDataFor <;> simp

theorem loadChannel_keys_nodup (env : LoadEnv) (id : QString) (body : XmlBody) (st : LoadState)
    (h : (st.model.m_channels.map Prod.fst).Nodup) :
    ((loadChannel env id body st).model.m_channels.map Prod.fst).Nodup := by
  unfold loadChannel
  cases hv : channelValue st.model.m_channels id with
  | none =>
    simp only [(noteDataFor_fields _ _).1]
    exact channelInsert_keys_nodup id _ _ h hv
  | some channel =>
    simp only
    split <;> simp only [(noteDataFor_fields _ _).1, channelSet_keys] <;> exact h

theorem loadProgramme_keys_nodup (env : LoadEnv) (id : QString) (body : XmlBody)
    (st : LoadState) (h : (st.model.m_channels.map Prod.fst).Nodup) :
    ((loadProgramme env id body st).model.m_channels.map Prod.fst).Nodup := by
  unfold loadProgramme
  cases hv : channelValue st.model.m_channels id with
  | none =>
    simp only [channelSet_keys]
    exact channelInsert_keys_nodup id _ _ h hv
  | some channel =>
    simp only [channelSet_keys]
    exact h

theorem loadLoop_keys_nodup (env : LoadEnv) :
    ∀ (items : List TvItem) (st : LoadState), (st.model.m_channels.map Prod.fst).Nodup →
      ((loadLoop env items st).model.m_channels.map Prod.fst).Nodup
  | [], _, h => h
  | TvItem.endTv :: _, _, h => h
  | TvItem.other :: rest, st, h => by
    rw [loadLoop]
    exact loadLoop_keys_nodup env rest st h
  | TvItem.channel id body :: rest, st, h => by
    rw [loadLoop]
    exact loadLoop_keys_nodup env rest _ (loadChannel_keys_nodup env id body st h)
  | TvItem.programme id body :: rest, st, h => by
    rw [loadLoop]
    exact loadLoop_keys_nodup env rest _ (loadProgramme_keys_nodup env id body st h)

theorem loadChannel_flag (env : LoadEnv) (id : QString) (body : XmlBody) (st : LoadState) :
    ∃ channel : TvChannel,
      channelValue (loadChannel env id body st).model.m_channels id = some channel ∧
      (loadChannel env id body st).model.m_hasDataFor =
        (st.model.m_hasDataFor || channel.hasDataFor) := by
  unfold loadChannel
  cases hv : channelValue st.model.m_channels id with
  | none =>
    refine ⟨_, ?_, noteDataFor_flag _ _⟩
    simp only [(noteDataFor_fields _ _).1, channelValue_channelInsert, if_true]
  | some channel =>
    simp only
    split
    · refine ⟨_, ?_, noteDataFor_flag _ _⟩
      simp only [(noteDataFor_fields _ _).1, channelValue_channelSet, if_true, hv]
      rfl
    · refine ⟨_, ?_, noteDataFor_flag _ _⟩
      simp only [(noteDataFor_fields _ _).1, channelValue_channelSet, if_true, hv]
      rfl

theorem loadChannel_flagInv (env : LoadEnv) (id : QString) (body : XmlBody) (st : LoadState)
    (h : FlagInv st.model) : FlagInv (loadChannel env id body st).model := by
  intro k ch hk hd
  obtain ⟨channel, hc, hf⟩ := loadChannel_flag env id body st
  rw [hf]
  by_cases hkid : k = id
  · subst hkid
    rw [hc] at hk
    rw [Option.some.inj hk, hd, Bool.or_true]
  · rw [(loadChannel_avoids env id k body st (Ne.symm hkid)).1] at hk
    rw [h k ch hk hd, Bool.true_or]

theorem loadProgramme_flag (env : LoadEnv) (id : QString) (body : XmlBody) (st : LoadState) :
    (loadProgramme env id body st).model.m_hasDataFor = st.model.m_hasDataFor := by
  unfold loadProgramme
  cases hv : channelValue st.model.m_channels id <;> rfl

theorem loadProgramme_hasDataFor (env : LoadEnv) (c : QString) (body : XmlBody)
    (st : LoadState) :
    (channelValue (loadProgramme env c body st).model.m_channels c).map TvChannel.hasDataFor =
      some (((channelValue st.model.m_channels c).map TvChannel.hasDataFor).getD false) := by
  unfold loadProgramme
  cases h : channelValue st.model.m_channels c with
  | none =>
    simp only [channelValue_channelSet, channelValue_channelInsert, if_true]
    split <;> rfl
  | some ch =>
    simp only [channelValue_channelSet, if_true, h]
    rfl

theorem loadProgramme_flagInv (env : LoadEnv) (id : QString) (body : XmlBody) (st : LoadState)
    (h : FlagInv st.model) : FlagInv (loadProgramme env id body st).model := by
  intro k ch hk hd
  rw [loadProgramme_flag]
  by_cases hkid : k = id
  · subst hkid
    have hp := loadProgramme_hasDataFor env k body st
    rw [hk] at hp
    cases hv : channelValue st.model.m_channels k with
    | none =>
      rw [hv] at hp
      have e : ch.hasDataFor = false := Option.some.inj hp
      rw [hd] at e
      exact absurd e (by decide)
    | some channel =>
      rw [hv] at hp
      have e : ch.hasDataFor = channel.hasDataFor := Option.some.inj hp
      exact h k channel hv (e ▸ hd)
  · rw [(loadProgramme_avoids env id k body st (Ne.symm hkid)).1] at hk
    exact h k ch hk hd

theorem loadLoop_flagInv (env : LoadEnv) :
    ∀ (items : List TvItem) (st : LoadState), FlagInv st.model →
      FlagInv (loadLoop env items st).model
  | [], _, h => h
  | TvItem.endTv :: _, _, h => h
  | TvItem.other :: rest, st, h => by
    rw [loadLoop]
    exact loadLoop_flagInv env rest st h
  | TvItem.channel id body :: rest, st, h => by
    rw [loadLoop]
    exact loadLoop_flagInv env rest _ (loadChannel_flagInv env id body st h)
  | TvItem.programme id body :: rest, st, h => by
    rw [loadLoop]
    exact loadLoop_flagInv env rest _ (loadProgramme_flagInv env id body st h)

/-! ## The active-channel list -/

theorem rebuildActiveChannels_fields (env : LoadEnv) (startUrl : QUrl) (m : ChannelModel) :
    (rebuildActiveChannels env startUrl m).m_activeChannels =
      qSort (sortActiveChannels env (rebuildActiveChannels env startUrl m).m_channels)
        (if m.m_hasDataFor then (m.m_channels.filter (fun e => e.2.hasDataFor)).map Prod.fst
          else m.m_channels.map Prod.fst) ∧
    (rebuildActiveChannels env startUrl m).m_hasDataFor = m.m_hasDataFor ∧
    (rebuildActiveChannels env startUrl m).m_channels.map Prod.fst =
      m.m_channels.map Prod.fst := by
  unfold rebuildActiveChannels
  by_cases ho : env.hostIsOzTivo startUrl = true
  · simp only [ho, if_true]
    have hf := loadOzTivoChannelData_fields env
      { m with
        m_activeChannels :=
          if m.m_hasDataFor then (m.m_channels.filter (fun e => e.2.hasDataFor)).map Prod.fst
          else m.m_channels.map Prod.fst }
    exact ⟨by rw [hf.2.1], hf.2.2, hf.1⟩
  · simp only [ho, if_false, Bool.false_eq_true, and_self]

theorem qSort_perm (lessThan : QString → QString → Bool) (l : List QString) :
    (qSort lessThan l).Perm l :=
  List.perm_insertionSort _ l

theorem qSort_sorted (lessThan : QString → QString → Bool)
    (hasym : ∀ a b, lessThan a b = true → lessThan b a = false)
    (htrans : ∀ a b c, lessThan a c = true → lessThan a b = true ∨ lessThan b c = true)
    (l : List QString) :
    (qSort lessThan l).Pairwise (fun a b => lessThan b a = false) := by
  haveI : IsTotal QString (fun a b => lessThan b a = false) :=
    ⟨fun a b => by
      cases h : lessThan b a
      · exact Or.inl rfl
      · exact Or.inr (hasym b a h)⟩
  haveI : IsTrans QString (fun a b => lessThan b a = false) :=
    ⟨fun a b c hab hbc => by
      cases h : lessThan c a
      · rfl
      · rcases htrans c b a h with h1 | h1
        · rw [hbc] at h1
          exact absurd h1 (by decide)
        · rw [hab] at h1
          exact absurd h1 (by decide)⟩
  exact List.sorted_insertionSort (fun a b => lessThan b a = false) l

theorem sortActiveChannels_asymm (env : LoadEnv)
    (hasym : ∀ a b, env.compare a b < 0 → ¬ env.compare b a < 0)
    (channels : List (QString × TvChannel)) (a b : QString)
    (h : sortActiveChannels env channels a b = true) :
    sortActiveChannels env channels b a = false := by
  unfold sortActiveChannels at h ⊢
  exact decide_eq_false (hasym _ _ (of_decide_eq_true h))

theorem sortActiveChannels_trans (env : LoadEnv)
    (htrans : ∀ a b c, env.compare a c < 0 → env.compare a b < 0 ∨ env.compare b c < 0)
    (channels : List (QString × TvChannel)) (a b c : QString)
    (h : sortActiveChannels env channels a c = true) :
    sortActiveChannels env channels a b = true ∨ sortActiveChannels env channels b c = true := by
  unfold sortActiveChannels at h ⊢
  rcases htrans _ ((channelValue channels b).getD TvChannel.new) _ (of_decide_eq_true h)
    with h1 | h1
  · exact Or.inl (decide_eq_true h1)
  · exact Or.inr (decide_eq_true h1)

theorem mem_dataFor_keys (channels : List (QString × TvChannel))
    (hkeys : (channels.map Prod.fst).Nodup) (k : QString) :
    k ∈ (channels.filter (fun e => e.2.hasDataFor)).map Prod.fst ↔
      (channelValue channels k).map TvChannel.hasDataFor = some true := by
  constructor
  · intro h
    obtain ⟨e, he, hk⟩ := List.mem_map.1 h
    obtain ⟨hin, hd⟩ := List.mem_filter.1 he
    have hv := (mem_iff_channelValue hkeys k e.2).1 (by rw [← hk]; exact hin)
    rw [hv]
    exact congrArg some hd
  · intro h
    cases hv : channelValue channels k with
    | none =>
      rw [hv] at h
      exact absurd h (by simp)
    | some ch =>
      rw [hv] at h
      have hd : ch.hasDataFor = true := Option.some.inj h
      exact List.mem_map.2 ⟨(k, ch),
        List.mem_filter.2 ⟨(mem_iff_channelValue hkeys k ch).2 hv, hd⟩, rfl⟩

/-- What `rebuildActiveChannels` establishes, in terms of the registry it leaves. -/
theorem rebuildActiveChannels_spec (env : LoadEnv) (startUrl : QUrl) (m : ChannelModel)
    (hasym : ∀ a b, env.compare a b < 0 → ¬ env.compare b a < 0)
    (htrans : ∀ a b c, env.compare a c < 0 → env.compare a b < 0 ∨ env.compare b c < 0)
    (hkeys : (m.m_channels.map Prod.fst).Nodup) :
    (rebuildActiveChannels env startUrl m).m_activeChannels.Nodup ∧
    (rebuildActiveChannels env startUrl m).m_activeChannels.Pairwise
      (fun k1 k2 =>
        sortActiveChannels env (rebuildActiveChannels env startUrl m).m_channels k2 k1
          = false) ∧
    ((rebuildActiveChannels env startUrl m).m_hasDataFor = true →
      ∀ k, k ∈ (rebuildActiveChannels env startUrl m).m_activeChannels ↔
        ∃ ch, channelValue (rebuildActiveChannels env startUrl m).m_channels k = some ch ∧
          ch.hasDataFor = true) ∧
    ((rebuildActiveChannels env startUrl m).m_hasDataFor = false →
      ∀ k, k ∈ (rebuildActiveChannels env startUrl m).m_activeChannels ↔
        (channelValue (rebuildActiveChannels env startUrl m).m_channels k).isSome = true) := by
  obtain ⟨hact, hflag, hk⟩ := rebuildActiveChannels_fields env startUrl m
  have hperm := qSort_perm
    (sortActiveChannels env (rebuildActiveChannels env startUrl m).m_channels)
    (if m.m_hasDataFor then (m.m_channels.filter (fun e => e.2.hasDataFor)).map Prod.fst
      else m.m_channels.map Prod.fst)
  rw [← hact] at hperm
  refine ⟨?_, ?_, ?_, ?_⟩
  · apply hperm.nodup_iff.2
    split
    · exact List.Nodup.sublist (List.Sublist.map _ (List.filter_sublist _)) hkeys
    · exact hkeys
  · rw [hact]
    exact qSort_sorted _ (sortActiveChannels_asymm env hasym _)
      (sortActiveChannels_trans env htrans _) _
  · intro hf k
    rw [hflag] at hf
    rw [hperm.mem_iff, if_pos hf, mem_dataFor_keys m.m_channels hkeys k,
      ← rebuildActiveChannels_frame env startUrl TvChannel.hasDataFor (fun _ _ => rfl) k m,
      Option.map_eq_some']
  · intro hf k
    rw [hflag] at hf
    rw [hperm.mem_iff, if_neg (by rw [hf]; decide), channelValue_isSome_iff, hk]

/-! ## Channel numbers of one OzTivo entry -/

theorem loadOzTivoChannel_numbered : ∀ (numbers : List (QString × QString))
    (channel : TvChannel), channel.channelNumbers ≠ [] →
    (loadOzTivoChannel numbers channel).1.channelNumbers =
      channel.channelNumbers ++ (numbers.filter (fun e => !(e.1 == "foxtel"))).map Prod.snd
  | [], channel, _ => by simp [loadOzTivoChannel]
  | (system, num) :: rest, channel, h => by
    unfold loadOzTivoChannel
    by_cases hs : system = "foxtel"
    · have hne : channel.channelNumbers.isEmpty = false := by
        cases hc : channel.channelNumbers with
        | nil => exact absurd hc h
        | cons a l => rfl
      rw [if_pos (by simp [hs, hne]), loadOzTivoChannel_numbered rest channel h,
        List.filter_cons]
      simp [hs]
    · rw [if_neg (by simp [hs])]
      show (loadOzTivoChannel rest
        { channel with channelNumbers := channel.channelNumbers ++ [num] }).1.channelNumbers = _
      rw [loadOzTivoChannel_numbered rest _ (by simp), List.filter_cons]
      simp [hs]

theorem loadOzTivoChannel_first (system num : QString) (rest : List (QString × QString))
    (channel : TvChannel) (hs : system ≠ "foxtel") :
    (loadOzTivoChannel ((system, num) :: rest) channel).1.channelNumbers =
      channel.channelNumbers ++
        (((system, num) :: rest).filter (fun e => !(e.1 == "foxtel"))).map Prod.snd := by
  unfold loadOzTivoChannel
  rw [if_neg (by simp [hs])]
  show (loadOzTivoChannel rest
    { channel with channelNumbers := channel.channelNumbers ++ [num] }).1.channelNumbers = _
  rw [loadOzTivoChannel_numbered rest _ (by simp), List.filter_cons]
  simp [hs]

/-! ## Counter and throttle invariant -/

theorem nextPending_cases {now : Int} {s s1 : TvChannelList χ}
    (h : nextPending now s = some s1) :
    ((s.m_currentRequest.isValid || s.m_requests.isEmpty || s.m_throttled) = true ∧
        s1 = forceProgressUpdate s) ∨
      ∃ req rest url us, s.m_requests = req :: rest ∧ req.urls = url :: us ∧
        s.m_currentRequest.isValid = false ∧ s.m_throttled = false ∧
        s1 = forceProgressUpdate (startFetch now rest url s) := by
  by_cases hc : (s.m_currentRequest.isValid || s.m_requests.isEmpty || s.m_throttled) = true
  · rw [nextPending_idle now hc, Option.some.injEq] at h
    exact Or.inl ⟨hc, h.symm⟩
  · simp only [Bool.or_eq_true, not_or, Bool.not_eq_true, List.isEmpty_eq_true] at hc
    obtain ⟨⟨hcur, hne⟩, hthr⟩ := hc
    cases hreqs : s.m_requests with
    | nil => exact absurd hreqs hne
    | cons req rest =>
      cases hurls : req.urls with
      | nil =>
        unfold nextPending at h
        rw [if_neg (by simp [hcur, hthr, hreqs])] at h
        simp [hreqs, hurls] at h
      | cons url us =>
        rw [nextPending_dispatch now hcur hthr hreqs hurls, Option.some.injEq] at h
        exact Or.inr ⟨req, rest, url, us, rfl, hurls, hcur, hthr, h.symm⟩

theorem qlistInsert_length (req : Request) : ∀ (i : Nat) (l : List Request),
    (qlistInsert req i l).length = l.length + 1
  | 0, l => by simp [qlistInsert]
  | _ + 1, [] => by simp [qlistInsert]
  | i + 1, r :: rs => by simp [qlistInsert, qlistInsert_length req i rs]

theorem removeRepeated_count (cur : QUrl) : ∀ (q : List Request) (toDo : Int),
    (removeRepeated cur q toDo).2 + (q.length : Int) =
      toDo + ((removeRepeated cur q toDo).1.length : Int)
  | [], _ => by simp [removeRepeated]
  | r :: rs, toDo => by
    simp only [removeRepeated]
    split
    · have ih := removeRepeated_count cur rs (toDo - 1)
      rw [List.length_cons]
      push_cast
      omega
    · have ih := removeRepeated_count cur rs toDo
      simp only [List.length_cons]
      push_cast
      omega

theorem trimLoop_count (first last : Int) : ∀ (q : List Request) (toDo : Int) (rm : Bool),
    (trimLoop first last q toDo rm).2.1 + (q.length : Int) =
      toDo + ((trimLoop first last q toDo rm).1.length : Int)
  | [], _, _ => by simp [trimLoop]
  | r :: rs, toDo, rm => by
    simp only [trimLoop]
    split
    · have ih := trimLoop_count first last rs (toDo - 1) true
      rw [List.length_cons]
      push_cast
      omega
    · have ih := trimLoop_count first last rs toDo rm
      simp only [List.length_cons]
      push_cast
      omega

theorem nextPending_flowInv {now : Int} {s s1 : TvChannelList χ}
    (h : nextPending now s = some s1) (hin : InFlightInv s)
    (hcount : s.m_requestsToDo =
      s.m_requestsDone + (s.m_requests.length : Int) +
        (if s.m_currentRequest.isValid then 1 else 0))
    (hbusy : s.m_currentRequest.isValid = true → s.m_busy = true)
    (harmed : s.m_throttled = true → s.m_throttleTimer.isSome = true) : FlowInv s1 := by
  have hin1 := nextPending_inflight h hin
  rcases nextPending_cases h with ⟨hc, hs1⟩ | ⟨req, rest, url, us, hreqs, hurls, hcur, hthr, hs1⟩
  · subst hs1
    rw [forceProgressUpdate_eq] at hin1 ⊢
    refine ⟨hin1, hcount, ?_, hbusy, harmed⟩
    intro hne hv
    have hne1 : s.m_requests ≠ [] := hne
    have hv1 : s.m_currentRequest.isValid = false := hv
    have he : s.m_requests.isEmpty = false := by
      cases hq : s.m_requests with
      | nil => exact absurd hq hne1
      | cons a l => rfl
    rw [hv1, he] at hc
    simpa using hc
  · subst hs1
    have hvalid : url.isValid = true :=
      hin.valid req (by rw [hreqs]; exact List.mem_cons_self _ _) url
        (by rw [hurls]; exact List.mem_cons_self _ _)
    rw [forceProgressUpdate_eq] at hin1 ⊢
    refine ⟨hin1, ?_, ?_, fun _ => rfl, fun _ => rfl⟩
    · show s.m_requestsToDo = s.m_requestsDone + (rest.length : Int) +
        (if url.isValid then 1 else 0)
      rw [hreqs, hcur] at hcount
      rw [hvalid]
      rw [List.length_cons] at hcount
      push_cast at hcount
      simp only [Bool.false_eq_true, if_false, if_true] at hcount ⊢
      omega
    · intro _ hv
      have hv1 : url.isValid = false := hv
      rw [hvalid] at hv1
      exact absurd hv1 (by decide)
theorem requestData_flowInv {load : QUrl → QByteArray → QUrl → χ → χ}
    {cache : QAbstractNetworkCache} {now : Int} {req : Request} {lastmod : QDateTime}
    {refreshAge : Int} {s s1 : TvChannelList χ}
    (h : requestData load cache now req lastmod refreshAge s = some s1)
    (hinv : FlowInv s) (hreq : ∀ u ∈ req.urls, u.isValid = true) : FlowInv s1 := by
  unfold requestData at h
  split at h
  · rw [Option.some.injEq] at h
    subst h
    exact hinv
  · split at h
    · rw [Option.some.injEq] at h
      subst h
      exact ⟨⟨hinv.inflight.reply, hinv.inflight.valid⟩, hinv.count, hinv.stall, hinv.busy,
        hinv.armed⟩
    · split at h
      · exact absurd h (by simp)
      · split at h
        · rw [Option.some.injEq] at h
          subst h
          exact hinv
        · rename_i index _
          refine nextPending_flowInv h ⟨hinv.inflight.reply, ?_⟩ ?_ hinv.busy hinv.armed
          · intro r hr
            rcases mem_qlistInsert hr with hr1 | hr1
            · subst hr1
              exact hreq
            · exact hinv.inflight.valid r hr1
          · show s.m_requestsToDo + 1 =
              s.m_requestsDone + ((qlistInsert req index s.m_requests).length : Int) +
                (if s.m_currentRequest.isValid then 1 else 0)
            rw [qlistInsert_length]
            have := hinv.count
            push_cast
            omega

theorem finishReply_current (load : QUrl → QByteArray → QUrl → χ → χ) (now : Int)
    (s : TvChannelList χ) : (finishReply load now s).m_currentRequest.isValid = false := by
  rw [(finishReply_fields load now s).2.2.2.1]
  rfl

theorem requestFinished_flowInv {load : QUrl → QByteArray → QUrl → χ → χ} {now : Int}
    {s s1 : TvChannelList χ} (h : requestFinished load now s = some s1) (hinv : FlowInv s) :
    FlowInv s1 := by
  unfold requestFinished at h
  split at h
  · rw [Option.some.injEq] at h
    subst h
    exact hinv
  · rename_i hreply
    have hreply1 : s.m_reply = true := by simpa using hreply
    have hvalid : s.m_currentRequest.isValid = true := by
      rw [← hinv.inflight.reply]
      exact hreply1
    cases h4 : nextPending now (finishReply load now s) with
    | none => simp [h4] at h
    | some s4 =>
      simp only [h4] at h
      have hf := finishReply_fields load now s
      have hcur := finishReply_current load now s
      have hthr := finishReply_throttle load now s
      have hcountF : (finishReply load now s).m_requestsToDo =
          (finishReply load now s).m_requestsDone +
            ((finishReply load now s).m_requests.length : Int) +
            (if (finishReply load now s).m_currentRequest.isValid then 1 else 0) := by
        rw [hcur, hf.2.1, hf.2.2.1, finishReply_requests]
        have hc := hinv.count
        rw [hvalid] at hc
        have hr := removeRepeated_count s.m_currentRequest s.m_requests s.m_requestsToDo
        simp only [Bool.false_eq_true, if_false, if_true] at hc ⊢
        omega
      have hinv4 : FlowInv s4 :=
        nextPending_flowInv h4 (finishReply_inflight load now hinv.inflight) hcountF
          (fun hv => by rw [hcur] at hv; exact absurd hv (by decide))
          (fun ht => by
            rw [hthr.2.2]
            exact hinv.armed (by rw [← hthr.2.1]; exact ht))
      split at h
      · rename_i hcond
        rw [Option.some.injEq] at h
        subst h
        simp only [Bool.and_eq_true, Bool.not_eq_true', List.isEmpty_eq_true] at hcond
        obtain ⟨⟨hc1, _⟩, hq1⟩ := hcond
        refine ⟨⟨hinv4.inflight.reply, hinv4.inflight.valid⟩, ?_, ?_, ?_, hinv4.armed⟩
        · show (0 : Int) = 0 + (s4.m_requests.length : Int) +
            (if s4.m_currentRequest.isValid then 1 else 0)
          rw [hq1, hc1]
          simp
        · intro hne
          exact absurd hq1 hne
        · intro hv
          have hv1 : s4.m_currentRequest.isValid = true := hv
          rw [hc1] at hv1
          exact absurd hv1 (by decide)
      · rw [Option.some.injEq] at h
        subst h
        exact hinv4

theorem trimRequests_flowInv (first last : Int) {s : TvChannelList χ} (hinv : FlowInv s) :
    FlowInv (trimRequests first last s) := by
  have hcnt := trimLoop_count first last s.m_requests s.m_requestsToDo false
  have hsub := trimLoop_sublist first last s.m_requests s.m_requestsToDo false
  have hvalid : ∀ r ∈ (trimLoop first last s.m_requests s.m_requestsToDo false).1,
      ∀ u ∈ r.urls, u.isValid = true := fun r hr => hinv.inflight.valid r (hsub.subset hr)
  have hstall : (trimLoop first last s.m_requests s.m_requestsToDo false).1 ≠ [] →
      s.m_currentRequest.isValid = false → s.m_throttled = true := by
    intro hne hv
    refine hinv.stall ?_ hv
    intro hq
    apply hne
    apply List.eq_nil_iff_forall_not_mem.2
    intro r hr
    have hm := hsub.subset hr
    rw [hq] at hm
    exact absurd hm (List.not_mem_nil r)
  have hcount : (trimLoop first last s.m_requests s.m_requestsToDo false).2.1 =
      s.m_requestsDone +
        ((trimLoop first last s.m_requests s.m_requestsToDo false).1.length : Int) +
        (if s.m_currentRequest.isValid then 1 else 0) := by
    have := hinv.count
    omega
  unfold trimRequests
  simp only
  split
  · split
    · rename_i hcond
      simp only [Bool.and_eq_true, Bool.not_eq_true', List.isEmpty_eq_true] at hcond
      obtain ⟨hq1, hc1⟩ := hcond
      refine ⟨⟨hinv.inflight.reply, hvalid⟩, ?_, ?_, ?_, hinv.armed⟩
      · show (0 : Int) = 0 +
          ((trimLoop first last s.m_requests s.m_requestsToDo false).1.length : Int) +
          (if s.m_currentRequest.isValid then 1 else 0)
        rw [hq1, hc1]
        simp
      · intro hne
        exact absurd hq1 hne
      · intro hv
        have hv1 : s.m_currentRequest.isValid = true := hv
        rw [hc1] at hv1
        exact absurd hv1 (by decide)
    · rw [forceProgressUpdate_eq]
      exact ⟨⟨hinv.inflight.reply, hvalid⟩, hcount, hstall, hinv.busy, hinv.armed⟩
  · exact ⟨⟨hinv.inflight.reply, hvalid⟩, hcount, hstall, hinv.busy, hinv.armed⟩

theorem step_flowInv {load : QUrl → QByteArray → QUrl → χ → χ} {op : Op}
    {s s1 : TvChannelList χ} (hinv : FlowInv s) (hop : op.validUrls)
    (h : step load op s = some s1) : FlowInv s1 := by
  cases op with
  | requestData cache now req lastmod refreshAge => exact requestData_flowInv h hinv hop
  | refreshChannels cache now forceReload =>
    simp only [step, refreshChannels] at h
    split at h
    · rename_i hv
      exact requestData_flowInv h hinv (by simpa using hv)
    · rw [Option.some.injEq] at h
      subst h
      exact hinv
  | reload cache now =>
    simp only [step, reload, refreshChannels] at h
    split at h
    · rename_i hv
      exact requestData_flowInv h
        ⟨⟨hinv.inflight.reply, hinv.inflight.valid⟩, hinv.count, hinv.stall, hinv.busy,
          hinv.armed⟩ (by simpa using hv)
    · rw [Option.some.injEq] at h
      subst h
      exact ⟨⟨hinv.inflight.reply, hinv.inflight.valid⟩, hinv.count, hinv.stall, hinv.busy,
        hinv.armed⟩
  | requestReadyRead bytes =>
    simp only [step, requestReadyRead, Option.some.injEq] at h
    subst h
    split
    · exact ⟨⟨hinv.inflight.reply, hinv.inflight.valid⟩, hinv.count, hinv.stall, hinv.busy,
        hinv.armed⟩
    · exact hinv
  | requestFinished now => exact requestFinished_flowInv h hinv
  | trimRequests first last =>
    simp only [step, Option.some.injEq] at h
    subst h
    exact trimRequests_flowInv first last hinv
  | abort =>
    simp only [step, abort, Option.some.injEq] at h
    subst h
    exact ⟨⟨rfl, fun r hr => by simp at hr⟩, rfl, fun hne => absurd rfl hne,
      fun hv => absurd (show false = true from hv) (by decide), hinv.armed⟩
  | throttleTimeout now =>
    simp only [step, throttleTimeout] at h
    exact nextPending_flowInv h ⟨hinv.inflight.reply, hinv.inflight.valid⟩ hinv.count hinv.busy
      (fun ht => absurd (show false = true from ht) (by decide))
  | nextPending now =>
    exact nextPending_flowInv h hinv.inflight hinv.count hinv.busy hinv.armed

theorem run_flowInv {load : QUrl → QByteArray → QUrl → χ → χ} : ∀ {ops : List Op}
    {s s1 : TvChannelList χ}, FlowInv s → (∀ op ∈ ops, op.validUrls) →
    run load ops s = some s1 → FlowInv s1
  | [], s, s1, hinv, _, h => by
    simp only [run, Option.some.injEq] at h
    subst h
    exact hinv
  | op :: ops, s, s1, hinv, hops, h => by
    simp only [run] at h
    cases hstep : step load op s with
    | none => simp [hstep] at h
    | some s2 =>
      simp only [hstep] at h
      exact run_flowInv (step_flowInv hinv (hops op (by simp)) hstep)
        (fun o ho => hops o (by simp [ho])) h

theorem flowInv_init (startUrl : QUrl) (refresh : Int) (model : χ)
    (bookmarks : List TvBookmark) (index : List (QString × TvBookmark)) :
    FlowInv (TvChannelList.init startUrl refresh model bookmarks index) :=
  ⟨⟨rfl, fun r hr => by simp [TvChannelList.init] at hr⟩, rfl,
    fun hne => absurd rfl hne, fun hv => absurd (show false = true from hv) (by decide),
    fun ht => absurd (show false = true from ht) (by decide)⟩

/-! ## Bookmark index lemmas -/

theorem indexInsert_perm (key : QString) (bookmark : TvBookmark) :
    ∀ (index : List (QString × TvBookmark)),
      (indexInsert key bookmark index).Perm ((key, bookmark) :: index)
  | [] => List.Perm.refl _
  | e :: rest => by
    unfold indexInsert
    split
    · exact ((indexInsert_perm key bookmark rest).cons e).trans (List.Perm.swap _ _ _)
    · exact List.Perm.refl _

theorem indexLoop_some (deleted : List Nat) : ∀ (bookmarks : List TvBookmark)
    (index idx : List (QString × TvBookmark)), indexLoop deleted bookmarks index = some idx →
    idx.Perm (index ++ bookmarks.map (fun b => (toLower b.title, b))) ∧
      ∀ b ∈ bookmarks, b.ptr ∉ deleted
  | [], index, idx, h => by
    simp only [indexLoop, Option.some.injEq] at h
    subst h
    simp
  | b :: bs, index, idx, h => by
    unfold indexLoop at h
    split at h
    · exact absurd h (by simp)
    · rename_i hb
      obtain ⟨hp, hl⟩ := indexLoop_some deleted bs _ idx h
      refine ⟨?_, ?_⟩
      · refine hp.trans ?_
        rw [List.map_cons]
        refine ((indexInsert_perm (toLower b.title) b index).append_right _).trans ?_
        exact List.perm_middle.symm
      · intro x hx
        rcases List.mem_cons.1 hx with hx1 | hx1
        · subst hx1
          simpa using hb
        · exact hl x hx1

theorem indexLoop_isSome (deleted : List Nat) : ∀ (bookmarks : List TvBookmark)
    (index : List (QString × TvBookmark)), (∀ b ∈ bookmarks, b.ptr ∉ deleted) →
    ∃ idx, indexLoop deleted bookmarks index = some idx
  | [], index, _ => ⟨index, rfl⟩
  | b :: bs, index, h => by
    unfold indexLoop
    have hb : b.ptr ∉ deleted := h b (List.mem_cons_self _ _)
    rw [if_neg (by simpa using hb)]
    exact indexLoop_isSome deleted bs _ (fun x hx => h x (List.mem_cons_of_mem _ hx))

theorem qDeleteAll_mem : ∀ (bookmarks : List TvBookmark) (deleted d : List Nat),
    qDeleteAll bookmarks deleted = some d →
    ∀ p ∈ d, p ∈ deleted ∨ p ∈ bookmarks.map TvBookmark.ptr
  | [], deleted, d, h, p, hp => by
    simp only [qDeleteAll, Option.some.injEq] at h
    subst h
    exact Or.inl hp
  | b :: bs, deleted, d, h, p, hp => by
    unfold qDeleteAll at h
    split at h
    · exact absurd h (by simp)
    · rcases qDeleteAll_mem bs _ d h p hp with h1 | h1
      · rcases List.mem_cons.1 h1 with h2 | h2
        · exact Or.inr (by simp [h2])
        · exact Or.inl h2
      · exact Or.inr (by
          rw [List.map_cons]
          exact List.mem_cons_of_mem _ h1)

theorem qDeleteAll_isSome : ∀ (bookmarks : List TvBookmark) (deleted : List Nat),
    (bookmarks.map TvBookmark.ptr).Nodup → (∀ b ∈ bookmarks, b.ptr ∉ deleted) →
    ∃ d, qDeleteAll bookmarks deleted = some d
  | [], deleted, _, _ => ⟨deleted, rfl⟩
  | b :: bs, deleted, hn, hl => by
    unfold qDeleteAll
    have hb : b.ptr ∉ deleted := hl b (List.mem_cons_self _ _)
    rw [if_neg (by simpa using hb)]
    rw [List.map_cons, List.nodup_cons] at hn
    refine qDeleteAll_isSome bs _ hn.2 ?_
    intro x hx hmem
    rcases List.mem_cons.1 hmem with h1 | h1
    · exact hn.1 (List.mem_map.2 ⟨x, hx, h1⟩)
    · exact hl x (List.mem_cons_of_mem _ hx) h1

theorem addBookmark_perm (bookmark : TvBookmark) {index : List (QString × TvBookmark)}
    {bookmarks : List TvBookmark}
    (h : index.Perm (bookmarks.map (fun b => (toLower b.title, b)))) :
    (indexInsert (toLower bookmark.title) bookmark index).Perm
      ((bookmarks ++ [bookmark]).map (fun b => (toLower b.title, b))) := by
  simp only [List.map_append, List.map_cons, List.map_nil]
  refine (indexInsert_perm _ _ _).trans ?_
  exact (List.Perm.cons _ h).trans (List.perm_append_singleton _ _).symm

theorem removeBookmark_perm (title : Nat → QString) (bookmark : TvBookmark)
    {index : List (QString × TvBookmark)} {bookmarks : List TvBookmark}
    (htitle : bookmark.title = title bookmark.ptr) (hlist : TitlesFixed title bookmarks)
    (h : index.Perm (bookmarks.map (fun b => (toLower b.title, b)))) :
    (indexRemove (toLower bookmark.title) bookmark index).Perm
      ((bookmarks.filter (fun b => !(b.ptr == bookmark.ptr))).map
        (fun b => (toLower b.title, b))) := by
  unfold indexRemove
  refine (h.filter _).trans ?_
  rw [List.filter_map]
  apply List.Perm.of_eq
  congr 1
  apply List.filter_congr
  intro b hb
  have hb1 := hlist b hb
  by_cases hp : b.ptr = bookmark.ptr
  · simp [hp, hb1, htitle]
  · simp [hp]

theorem bookmarkStep_inv (title : Nat → QString) (op : BookmarkOp) {h h1 : BookmarkHeap χ}
    (hop : TitlesFixed title op.bookmarks)
    (hlist : TitlesFixed title h.channelList.m_bookmarks)
    (hcons : IndexConsistent h.channelList) (hlive : BookmarksLive h)
    (hstep : bookmarkStep op h = some h1) :
    TitlesFixed title h1.channelList.m_bookmarks ∧ IndexConsistent h1.channelList ∧
      BookmarksLive h1 := by
  cases op with
  | addBookmark bookmark =>
    simp only [bookmarkStep, addBookmark] at hstep
    split at hstep
    · exact absurd hstep (by simp)
    · rename_i hb
      rw [Option.some.injEq] at hstep
      subst hstep
      refine ⟨?_, addBookmark_perm bookmark hcons, ?_⟩
      · intro b hb1
        rcases List.mem_append.1 hb1 with hb2 | hb2
        · exact hlist b hb2
        · exact hop b hb2
      · intro b hb1
        rcases List.mem_append.1 hb1 with hb2 | hb2
        · exact hlive b hb2
        · rw [List.mem_singleton.1 hb2]
          simpa using hb
  | removeBookmark bookmark flag =>
    simp only [bookmarkStep, removeBookmark] at hstep
    split at hstep
    · exact absurd hstep (by simp)
    · rw [Option.some.injEq] at hstep
      subst hstep
      refine ⟨?_, removeBookmark_perm title bookmark
        (hop bookmark (List.mem_singleton_self _)) hlist hcons, ?_⟩
      · intro b hb
        exact hlist b (List.mem_of_mem_filter hb)
      · intro b hb
        exact hlive b (List.mem_of_mem_filter hb)
  | replaceBookmarks bookmarks =>
    simp only [bookmarkStep, replaceBookmarks] at hstep
    cases hq : qDeleteAll h.channelList.m_bookmarks h.deleted with
    | none => simp [hq] at hstep
    | some d =>
      cases hi : indexLoop d bookmarks [] with
      | none => simp [hq, hi] at hstep
      | some idx =>
        simp only [hq, hi, Option.some.injEq] at hstep
        subst hstep
        obtain ⟨hp, hl⟩ := indexLoop_some d bookmarks [] idx hi
        exact ⟨hop, by simpa using hp, hl⟩

theorem bookmarkRun_inv (title : Nat → QString) : ∀ (ops : List BookmarkOp)
    {h r : BookmarkHeap χ}, (∀ op ∈ ops, TitlesFixed title op.bookmarks) →
    TitlesFixed title h.channelList.m_bookmarks → IndexConsistent h.channelList →
    BookmarksLive h → bookmarkRun ops h = some r →
    TitlesFixed title r.channelList.m_bookmarks ∧ IndexConsistent r.channelList ∧
      BookmarksLive r
  | [], h, r, _, hlist, hcons, hlive, hrun => by
    simp only [bookmarkRun, Option.some.injEq] at hrun
    subst hrun
    exact ⟨hlist, hcons, hlive⟩
  | op :: ops, h, r, hops, hlist, hcons, hlive, hrun => by
    simp only [bookmarkRun] at hrun
    cases hstep : bookmarkStep op h with
    | none => simp [hstep] at hrun
    | some h1 =>
      simp only [hstep] at hrun
      obtain ⟨h1l, h1c, h1v⟩ := bookmarkStep_inv title op (hops op (List.mem_cons_self _ _))
        hlist hcons hlive hstep
      exact bookmarkRun_inv title ops (fun o ho => hops o (List.mem_cons_of_mem _ ho))
        h1l h1c h1v hrun

theorem bookmarkStep_fresh (op : BookmarkOp) {h : BookmarkHeap χ}
    (hnodup : (h.channelList.m_bookmarks.map TvBookmark.ptr).Nodup) (hlive : BookmarksLive h)
    (hfresh : freshOp op h = true) :
    ∃ h1, bookmarkStep op h = some h1 ∧
      (h1.channelList.m_bookmarks.map TvBookmark.ptr).Nodup ∧ BookmarksLive h1 := by
  cases op with
  | addBookmark bookmark =>
    simp only [freshOp, Bool.and_eq_true, Bool.not_eq_true'] at hfresh
    have hd : bookmark.ptr ∉ h.deleted := by simpa using hfresh.1
    have hl : bookmark.ptr ∉ h.channelList.m_bookmarks.map TvBookmark.ptr := by
      simpa using hfresh.2
    have hstep : bookmarkStep (.addBookmark bookmark) h =
        some { h with
          channelList :=
            { h.channelList with
              m_bookmarks := h.channelList.m_bookmarks ++ [bookmark]
              m_indexedBookmarks :=
                indexInsert (toLower bookmark.title) bookmark
                  h.channelList.m_indexedBookmarks } } := by
      simp only [bookmarkStep, addBookmark]
      rw [if_neg (by simpa using hd)]
    refine ⟨_, hstep, ?_, ?_⟩
    · show ((h.channelList.m_bookmarks ++ [bookmark]).map TvBookmark.ptr).Nodup
      rw [List.map_append, List.map_cons, List.map_nil]
      exact List.Nodup.append hnodup (List.nodup_singleton _)
        (by
          intro p hp1 hp2
          rw [List.mem_singleton] at hp2
          subst hp2
          exact hl hp1)
    · intro b hb
      have hb0 : b ∈ h.channelList.m_bookmarks ++ [bookmark] := hb
      rcases List.mem_append.1 hb0 with hb2 | hb2
      · exact hlive b hb2
      · rw [List.mem_singleton.1 hb2]
        exact hd
  | removeBookmark bookmark flag =>
    simp only [freshOp, Bool.not_eq_true'] at hfresh
    have hd : bookmark.ptr ∉ h.deleted := by simpa using hfresh
    have hstep : bookmarkStep (.removeBookmark bookmark flag) h =
        some { h with
          channelList :=
            { h.channelList with
              m_bookmarks :=
                h.channelList.m_bookmarks.filter (fun b => !(b.ptr == bookmark.ptr))
              m_indexedBookmarks :=
                indexRemove (toLower bookmark.title) bookmark
                  h.channelList.m_indexedBookmarks } } := by
      simp only [bookmarkStep, removeBookmark]
      rw [if_neg (by simpa using hd)]
    refine ⟨_, hstep, ?_, ?_⟩
    · show ((h.channelList.m_bookmarks.filter (fun b => !(b.ptr == bookmark.ptr))).map
        TvBookmark.ptr).Nodup
      exact List.Nodup.sublist (List.Sublist.map _ (List.filter_sublist _)) hnodup
    · intro b hb
      have hb0 : b ∈ h.channelList.m_bookmarks.filter (fun b => !(b.ptr == bookmark.ptr)) := hb
      exact hlive b (List.mem_of_mem_filter hb0)
  | replaceBookmarks bookmarks =>
    simp only [freshOp, Bool.and_eq_true, decide_eq_true_eq, List.all_eq_true,
      Bool.not_eq_true'] at hfresh
    obtain ⟨hn, hall⟩ := hfresh
    obtain ⟨d, hd⟩ := qDeleteAll_isSome h.channelList.m_bookmarks h.deleted hnodup hlive
    have hnew : ∀ b ∈ bookmarks, b.ptr ∉ d := by
      intro b hb hmem
      rcases qDeleteAll_mem _ _ d hd b.ptr hmem with h1 | h1
      · exact absurd h1 (by simpa using (hall b hb).1)
      · exact absurd h1 (by simpa using (hall b hb).2)
    obtain ⟨idx, hidx⟩ := indexLoop_isSome d bookmarks [] hnew
    have hstep : bookmarkStep (.replaceBookmarks bookmarks) h =
        some
          { channelList :=
              { h.channelList with m_bookmarks := bookmarks, m_indexedBookmarks := idx }
            deleted := d } := by
      simp only [bookmarkStep, replaceBookmarks, hd, hidx]
    exact ⟨_, hstep, hn, hnew⟩

theorem bookmarkRun_fresh : ∀ (ops : List BookmarkOp) {h : BookmarkHeap χ},
    (h.channelList.m_bookmarks.map TvBookmark.ptr).Nodup → BookmarksLive h →
    freshRun ops h = true → ∃ r, bookmarkRun ops h = some r
  | [], h, _, _, _ => ⟨h, rfl⟩
  | op :: ops, h, hnodup, hlive, hfresh => by
    simp only [freshRun, Bool.and_eq_true] at hfresh
    obtain ⟨h1, hstep, hn1, hl1⟩ := bookmarkStep_fresh op hnodup hlive hfresh.1
    have hrest := hfresh.2
    rw [hstep] at hrest
    obtain ⟨r, hr⟩ := bookmarkRun_fresh ops hn1 hl1 hrest
    exact ⟨r, by simp only [bookmarkRun, hstep]; exact hr⟩

/-! # The claims -/

/-- C1: starting from an empty queue, after every sequence of scheduler operations (each
`requestData` carrying at least one candidate URL) the run succeeds and the pending-request
queue is sorted by non-decreasing priority: for positions `i < j`, the priority at `i` is
at most the priority at `j`. -/
theorem queue_sorted_after_every_sequence (load : QUrl → QByteArray → QUrl → χ → χ)
    (s0 : TvChannelList χ) (hempty : s0.m_requests = []) (ops : List Op)
    (hops : ∀ op ∈ ops, op.wellFormed) :
    ∃ s, run load ops s0 = some s ∧
      ∀ (i j : Nat) (a b : Request), i < j → s.m_requests[i]? = some a →
        s.m_requests[j]? = some b → a.priority ≤ b.priority := by
  obtain ⟨s, hs, hq, _⟩ := run_inv load ops (s := s0) (by rw [hempty]; exact QueueInv.nil) hops
  refine ⟨s, hs, ?_⟩
  intro i j a b hij ha hb
  obtain ⟨hi, rfl⟩ := List.getElem?_eq_some.1 ha
  obtain ⟨hj, rfl⟩ := List.getElem?_eq_some.1 hb
  exact List.pairwise_iff_getElem.1 hq.sorted i j hi hj hij

/-- Witness for C1: three `requestData` calls from the initial state. -/
theorem queue_sorted_after_every_sequence_witness :
    ∃ s, run exLoad exOverlapOps exInit = some s ∧
      ∀ (i j : Nat) (a b : Request), i < j → s.m_requests[i]? = some a →
        s.m_requests[j]? = some b → a.priority ≤ b.priority :=
  queue_sorted_after_every_sequence exLoad exInit rfl exOverlapOps (by decide)

/-- C2 as stated fails: after three cache-missing `requestData` calls with non-empty
candidate lists, the queue holds two requests of priority 1 that share URL 2. -/
theorem duplicate_suppression_counterexample :
    ∃ s a b, run exLoad exOverlapOps exInit = some s ∧ s.m_requests = [a, b] ∧
      a.priority = b.priority ∧ ∃ u, u ∈ a.urls ∧ u ∈ b.urls := by
  have h : (run exLoad exOverlapOps exInit).map (fun s => s.m_requests) =
      some [exRequest [2, 3] 1, exRequest [4, 2] 1] := by decide
  cases hrun : run exLoad exOverlapOps exInit with
  | none => simp [hrun] at h
  | some s =>
    simp only [hrun, Option.map_some', Option.some.injEq] at h
    exact ⟨s, _, _, rfl, h, rfl, exUrl 2, by decide, by decide⟩

/-- C2, amended: starting from an empty queue, after every sequence of scheduler operations
(each `requestData` carrying at least one candidate URL) no two queued requests of equal
priority are such that the first candidate URL of the later one is among the candidate URLs
of the earlier one; in particular they never have the same first URL. -/
theorem duplicate_suppression_by_first_url (load : QUrl → QByteArray → QUrl → χ → χ)
    (s0 : TvChannelList χ) (hempty : s0.m_requests = []) (ops : List Op)
    (hops : ∀ op ∈ ops, op.wellFormed) :
    ∃ s, run load ops s0 = some s ∧
      ∀ (i j : Nat) (a b : Request), i < j → s.m_requests[i]? = some a →
        s.m_requests[j]? = some b → a.priority = b.priority →
          (∀ u, b.urls.head? = some u → u ∉ a.urls) ∧ a.urls.head? ≠ b.urls.head? := by
  obtain ⟨s, hs, hq, _⟩ := run_inv load ops (s := s0) (by rw [hempty]; exact QueueInv.nil) hops
  refine ⟨s, hs, ?_⟩
  intro i j a b hij ha hb hp
  obtain ⟨hi, rfl⟩ := List.getElem?_eq_some.1 ha
  obtain ⟨hj, rfl⟩ := List.getElem?_eq_some.1 hb
  have hno := List.pairwise_iff_getElem.1 hq.norepeat i j hi hj hij hp
  refine ⟨hno, ?_⟩
  intro heq
  have hne := hq.urls _ (List.getElem_mem hi)
  cases hu : (s.m_requests[i]).urls with
  | nil => exact hne hu
  | cons u us =>
    rw [hu, List.head?_cons] at heq
    exact hno u heq.symm (by rw [hu]; exact List.mem_cons_self u us)

/-- Witness for C2, amended: three `requestData` calls from the initial state. -/
theorem duplicate_suppression_by_first_url_witness :
    ∃ s, run exLoad exOverlapOps exInit = some s ∧
      ∀ (i j : Nat) (a b : Request), i < j → s.m_requests[i]? = some a →
        s.m_requests[j]? = some b → a.priority = b.priority →
          (∀ u, b.urls.head? = some u → u ∉ a.urls) ∧ a.urls.head? ≠ b.urls.head? :=
  duplicate_suppression_by_first_url exLoad exInit rfl exOverlapOps (by decide)

theorem progressOf_bounds (done toDo : Int) (hd : 0 ≤ done) :
    0 ≤ progressOf done toDo ∧ progressOf done toDo ≤ 1 := by
  unfold progressOf
  split
  · rename_i hlt
    have h1 : (0 : ℚ) ≤ (done : ℚ) := by exact_mod_cast hd
    have h2 : (0 : ℚ) < (toDo : ℚ) := by exact_mod_cast lt_of_le_of_lt hd hlt
    have h3 : (done : ℚ) ≤ (toDo : ℚ) := by exact_mod_cast le_of_lt hlt
    exact ⟨div_nonneg h1 (le_of_lt h2), (div_le_one h2).2 h3⟩
  · exact ⟨zero_le_one, le_refl _⟩

/-- C3: after every sequence of scheduler operations from the initial state (each
`requestData` carrying at least one candidate URL) the run succeeds, the stored progress
lies in `[0, 1]`, it is exactly `1` when `m_requestsToDo` is `0` or `m_requestsDone` has
reached `m_requestsToDo`, and it is `m_requestsDone / m_requestsToDo` otherwise. -/
theorem progress_invariant (load : QUrl → QByteArray → QUrl → χ → χ) (startUrl : QUrl)
    (refresh : Int) (model : χ) (bookmarks : List TvBookmark)
    (index : List (QString × TvBookmark)) (ops : List Op) (hops : ∀ op ∈ ops, op.wellFormed) :
    ∃ s, run load ops (TvChannelList.init startUrl refresh model bookmarks index) = some s ∧
      0 ≤ s.m_progress ∧ s.m_progress ≤ 1 ∧
      (s.m_requestsToDo = 0 ∨ s.m_requestsToDo ≤ s.m_requestsDone → s.m_progress = 1) ∧
      (¬ (s.m_requestsToDo = 0 ∨ s.m_requestsToDo ≤ s.m_requestsDone) →
        s.m_progress = (s.m_requestsDone : ℚ) / (s.m_requestsToDo : ℚ)) := by
  obtain ⟨s, hs, _, hp⟩ := run_inv load ops
    (s := TvChannelList.init startUrl refresh model bookmarks index) QueueInv.nil hops
  have hprog := hp (progressInv_init startUrl refresh model bookmarks index)
  have hb := progressOf_bounds s.m_requestsDone s.m_requestsToDo hprog.done_nonneg
  have hd := hprog.done_nonneg
  refine ⟨s, hs, ?_, ?_, ?_, ?_⟩
  · rw [hprog.progress]; exact hb.1
  · rw [hprog.progress]; exact hb.2
  · intro h
    rw [hprog.progress, progressOf, if_neg (by omega)]
  · intro h
    rw [hprog.progress, progressOf, if_pos (by omega)]

/-- Witness for C3: three `requestData` calls from the initial state. -/
theorem progress_invariant_witness :
    ∃ s, run exLoad exOverlapOps exInit = some s ∧
      0 ≤ s.m_progress ∧ s.m_progress ≤ 1 ∧
      (s.m_requestsToDo = 0 ∨ s.m_requestsToDo ≤ s.m_requestsDone → s.m_progress = 1) ∧
      (¬ (s.m_requestsToDo = 0 ∨ s.m_requestsToDo ≤ s.m_requestsDone) →
        s.m_progress = (s.m_requestsDone : ℚ) / (s.m_requestsToDo : ℚ)) :=
  progress_invariant exLoad (exUrl 1) 24 [] [] [] exOverlapOps (by decide)

/-- C4: for every queue and every `first` and `last`, `trimRequests(first, last)` leaves
exactly the original queue without the requests whose priority lies in `[first, last]`, the
others in their original order, and leaves the in-flight request untouched; after
`trimRequests(1, 2)` no queued request has priority 1 or 2 and the priority-0 requests are
the same as before. -/
theorem trimRequests_postcondition (first last : Int) (s : TvChannelList χ) :
    (trimRequests first last s).m_requests =
        s.m_requests.filter (fun r => !(decide (first ≤ r.priority) && decide (r.priority ≤ last))) ∧
      (trimRequests first last s).m_currentRequest = s.m_currentRequest ∧
      (trimRequests first last s).m_reply = s.m_reply ∧
      (∀ r ∈ (trimRequests 1 2 s).m_requests, r.priority ≠ 1 ∧ r.priority ≠ 2) ∧
      (trimRequests 1 2 s).m_requests.filter (fun r => decide (r.priority = 0)) =
        s.m_requests.filter (fun r => decide (r.priority = 0)) := by
  refine ⟨trimRequests_requests first last s, (trimRequests_frame first last s).1,
    (trimRequests_frame first last s).2, ?_, ?_⟩
  · intro r hr
    rw [trimRequests_requests, List.mem_filter] at hr
    have h := hr.2
    simp only [Bool.not_eq_true', Bool.and_eq_false_iff, decide_eq_false_iff_not, not_le] at h
    omega
  · rw [trimRequests_requests, List.filter_filter]
    apply List.filter_congr
    intro r _
    by_cases h0 : r.priority = 0
    · simp [h0]
    · simp [h0]

/-- C5: between two steps that each start a network fetch there is a `throttleTimeout`
step (after the first, no later than the second); `nextPending` starts no fetch while
`m_throttled` is set; every step that starts a fetch leaves `m_throttled` set; no step
other than `throttleTimeout` clears it; and in every trace that can happen in real time from
the initial state, where `throttleTimeout` runs only when the single-shot timer armed for
1000 ms at the dispatch is due, the GETs are issued at least 1000 ms apart, however early
the fetches finish. -/
theorem throttle_between_dispatches (load : QUrl → QByteArray → QUrl → χ → χ) :
    (∀ (s s1 s2 : TvChannelList χ) (op op2 : Op) (mid : List Op),
      step load op s = some s1 → startsFetch load op s = true → run load mid s1 = some s2 →
      startsFetch load op2 s2 = true → ∃ o ∈ mid ++ [op2], o.isThrottleTimeout = true) ∧
    (∀ (s s1 : TvChannelList χ) (now : Int), s.m_throttled = true →
      nextPending now s = some s1 → s1.m_nam = s.m_nam) ∧
    (∀ (s s1 : TvChannelList χ) (op : Op), step load op s = some s1 →
      startsFetch load op s = true → s1.m_throttled = true) ∧
    (∀ (s s1 : TvChannelList χ) (op : Op), s.m_throttled = true →
      op.isThrottleTimeout = false → step load op s = some s1 → s1.m_throttled = true) ∧
    (∀ (startUrl : QUrl) (refresh : Int) (model : χ) (bookmarks : List TvBookmark)
      (index : List (QString × TvBookmark)) (t0 : Int) (ops : List Op),
      timedTrace load t0 (TvChannelList.init startUrl refresh model bookmarks index) ops = true →
      ∃ s, run load ops (TvChannelList.init startUrl refresh model bookmarks index) = some s ∧
        s.m_nam.Chain' (fun later earlier => earlier.1 + 1000 ≤ later.1)) := by
  refine ⟨?_, ?_, ?_, ?_, ?_⟩
  · intro s s1 s2 op op2 mid hstep hf hrun hf2
    by_contra hno
    simp only [List.mem_append, List.mem_singleton, not_exists, not_and,
      Bool.not_eq_true] at hno
    have h1 := (startsFetch_throttled hstep hf).1
    have h2 := run_throttled h1 (fun o ho => hno o (Or.inl ho)) hrun
    cases hstep2 : step load op2 s2 with
    | none => simp [startsFetch, hstep2] at hf2
    | some s3 =>
      rcases (startsFetch_throttled hstep2 hf2).2 with h3 | h3
      · rw [h2.1] at h3
        exact absurd h3 (by simp)
      · rw [hno op2 (Or.inr rfl)] at h3
        exact absurd h3 (by simp)
  · intro s s1 now hthr h
    rcases nextPending_throttle h with h1 | h1
    · exact h1.1
    · have h2 := h1.1
      rw [hthr] at h2
      exact absurd h2 (by simp)
  · intro s s1 op hstep hf
    exact (startsFetch_throttled hstep hf).1
  · intro s s1 op hthr hop hstep
    rcases step_throttle hop hstep with h1 | ⟨_, _, h1, _⟩
    · rw [h1.2.1]
      exact hthr
    · rw [hthr] at h1
      exact absurd h1 (by simp)
  · intro startUrl refresh model bookmarks index t0 ops h
    obtain ⟨s1, _, hrun, hinv⟩ :=
      timedTrace_throttleInv (throttleInv_init t0 startUrl refresh model bookmarks index) h
    exact ⟨s1, hrun, hinv.spaced⟩

/-- Witness for C5: a timed trace in which the first fetch finishes after 200 ms and the
second GET is issued when the timer fires, 1000 ms after the first. -/
theorem throttle_between_dispatches_witness :
    timedTrace exLoad 0 exInit exThrottleOps = true ∧
    (run exLoad exThrottleOps exInit).map (fun s => s.m_nam.map Prod.fst) = some [1000, 0] ∧
    ∃ s, run exLoad exThrottleOps exInit = some s ∧
      s.m_nam.Chain' (fun later earlier => earlier.1 + 1000 ≤ later.1) :=
  ⟨by decide, by decide,
    (throttle_between_dispatches exLoad).2.2.2.2 (exUrl 1) 24 [] [] [] 0 exThrottleOps
      (by decide)⟩

/-- C6: `nextPending` leaves the queue and the in-flight slot as they are when the in-flight
URL is valid, the queue is empty or the throttle flag is set; otherwise it removes exactly the
head of the queue and puts that request's first candidate URL in flight, with one GET for it.
And after every sequence of operations from the initial state whose candidate URLs are all
valid, a reply is outstanding exactly when the in-flight URL is valid, and while one is
outstanding no operation other than its `requestFinished` issues a GET. -/
theorem single_fetch_in_flight (load : QUrl → QByteArray → QUrl → χ → χ) :
    (∀ (now : Int) (s : TvChannelList χ),
      (s.m_currentRequest.isValid || s.m_requests.isEmpty || s.m_throttled) = true →
      ∃ s1, nextPending now s = some s1 ∧ s1.m_requests = s.m_requests ∧
        s1.m_currentRequest = s.m_currentRequest ∧ s1.m_reply = s.m_reply ∧
        s1.m_nam = s.m_nam) ∧
    (∀ (now : Int) (s : TvChannelList χ) (req : Request) (rest : List Request) (url : QUrl)
      (us : List QUrl),
      (s.m_currentRequest.isValid || s.m_requests.isEmpty || s.m_throttled) = false →
      s.m_requests = req :: rest → req.urls = url :: us →
      ∃ s1, nextPending now s = some s1 ∧ s1.m_requests = rest ∧
        s1.m_currentRequest = url ∧ s1.m_reply = true ∧ s1.m_nam = (now, url) :: s.m_nam) ∧
    (∀ (startUrl : QUrl) (refresh : Int) (model : χ) (bookmarks : List TvBookmark)
      (index : List (QString × TvBookmark)) (ops : List Op),
      (∀ op ∈ ops, op.wellFormed ∧ op.validUrls) →
      ∃ s, run load ops (TvChannelList.init startUrl refresh model bookmarks index) = some s ∧
        s.m_reply = s.m_currentRequest.isValid ∧
        ∀ (op : Op) (s1 : TvChannelList χ), s.m_reply = true → op.isRequestFinished = false →
          step load op s = some s1 → s1.m_nam = s.m_nam) := by
  refine ⟨?_, ?_, ?_⟩
  · intro now s hc
    refine ⟨_, nextPending_idle now hc, ?_⟩
    rw [forceProgressUpdate_eq]
    exact ⟨rfl, rfl, rfl, rfl⟩
  · intro now s req rest url us hc hreqs hurls
    simp only [Bool.or_eq_false_iff] at hc
    refine ⟨_, nextPending_dispatch now hc.1.1 hc.2 hreqs hurls, ?_⟩
    rw [forceProgressUpdate_eq]
    exact ⟨rfl, rfl, rfl, rfl⟩
  · intro startUrl refresh model bookmarks index ops hops
    obtain ⟨s, hs, _, _⟩ := run_inv load ops
      (s := TvChannelList.init startUrl refresh model bookmarks index) QueueInv.nil
      (fun op hop => (hops op hop).1)
    have hinv : InFlightInv s :=
      run_inflight ⟨rfl, fun r hr => by simp [TvChannelList.init] at hr⟩
        (fun op hop => (hops op hop).2) hs
    refine ⟨s, hs, hinv.reply, ?_⟩
    intro op s1 hreply hop hstep
    exact step_busy_slot (by rw [← hinv.reply]; exact hreply) hop hstep

/-- Witness for C6: two `requestData` calls with valid URLs, the completion of the first
fetch and the throttle timer firing. -/
theorem single_fetch_in_flight_witness :
    (∀ op ∈ exThrottleOps, op.wellFormed ∧ op.validUrls) ∧
    ∃ s, run exLoad exThrottleOps exInit = some s ∧
      s.m_reply = s.m_currentRequest.isValid ∧
      ∀ (op : Op) (s1 : TvChannelList LoadLog), s.m_reply = true →
        op.isRequestFinished = false → step exLoad op s = some s1 → s1.m_nam = s.m_nam :=
  ⟨by decide,
    (single_fetch_in_flight exLoad).2.2 (exUrl 1) 24 [] [] [] exThrottleOps (by decide)⟩

/-- C7, the code at a failing input: in a sorted index the bookmarks under "news" give
`ShouldMatch` and `TitleMatch`, none of them a stronger verdict, and a bookmark under "sport"
gives a specific match; for a programme titled "News", `matchBookmarks` returns the specific
match with the bookmark indexed under "sport", not `TitleMatch` with bookmark 2.  Without
the "sport" entry it returns `TitleMatch` and bookmark 2, in either order of the two
candidates. -/
theorem titleMatch_precedence_lost_past_key :
    IndexSorted exIndexTitle ∧
    candidates (toLower exNews.title) exIndexTitle =
      [exBookmark 1 "News", exBookmark 2 "News"] ∧
    (∀ b ∈ candidates (toLower exNews.title) exIndexTitle,
      (exVerdict b exNews 0).isSpecific = false) ∧
    (∃ b ∈ candidates (toLower exNews.title) exIndexTitle,
      exVerdict b exNews 0 = TvBookmark.Match.TitleMatch) ∧
    matchBookmarks exVerdict (exMatcher exIndexTitle) exNews none 0 =
      (TvBookmark.Match.Specific 0, some (exBookmark 3 "Sport")) ∧
    matchBookmarks exVerdict
        (exMatcher [("news", exBookmark 1 "News"), ("news", exBookmark 2 "News")])
        exNews none 0 =
      (TvBookmark.Match.TitleMatch, some (exBookmark 2 "News")) ∧
    matchBookmarks exVerdict
        (exMatcher [("news", exBookmark 2 "News"), ("news", exBookmark 1 "News")])
        exNews none 0 =
      (TvBookmark.Match.TitleMatch, some (exBookmark 2 "News")) := by
  refine ⟨?_, by decide, by decide, by decide, by decide, by decide, by decide⟩
  unfold IndexSorted
  decide

/-- C8, the code at a failing input: in a sorted index the only bookmark under "news"
gives `NoMatch` and a bookmark under "sport" gives a specific match; for a programme titled
"News" `matchBookmarks` returns the bookmark indexed under "sport", while the same index
without that entry gives `NoMatch`. -/
theorem matchBookmarks_scans_past_key :
    IndexSorted exIndexSpecific ∧
    candidates (toLower exNews.title) exIndexSpecific = [exBookmark 4 "News"] ∧
    matchBookmarks exVerdict (exMatcher exIndexSpecific) exNews none 0 =
      (TvBookmark.Match.Specific 0, some (exBookmark 3 "Sport")) ∧
    matchBookmarks exVerdict (exMatcher [("news", exBookmark 4 "News")]) exNews none 0 =
      (TvBookmark.Match.NoMatch, none) := by
  refine ⟨?_, by decide, by decide, by decide⟩
  unfold IndexSorted
  decide

/-- C9, the code at a failing input: every bookmark indexed under "news" gives `NoMatch`,
yet for a programme titled "News" `matchBookmarks` returns `ShouldMatch` with the bookmark
indexed under "sport". -/
theorem matchBookmarks_not_noMatch :
    IndexSorted exIndexShould ∧
    (∀ b ∈ candidates (toLower exNews.title) exIndexShould,
      exVerdict b exNews 0 = TvBookmark.Match.NoMatch) ∧
    matchBookmarks exVerdict (exMatcher exIndexShould) exNews none 0 =
      (TvBookmark.Match.ShouldMatch, some (exBookmark 1 "Sport")) := by
  refine ⟨?_, by decide, by decide⟩
  unfold IndexSorted
  decide

/-- C10 as stated fails: after URL 2 was fetched at 200 ms, a request for the candidates
`[2, 3]` with expected Last-Modified 77 arrives at 300 ms with nothing in flight; only URL 3
is cached with Last-Modified 77, yet the document handed to `load` is the cached copy of
URL 2, which was fetched within the last hour. -/
theorem freshness_first_hit_counterexample :
    run exLoad exFetchOps exInit = some exFetched ∧
    (exFetched.m_currentRequest.isValid &&
      (exRequest [2, 3] 1).urls.contains exFetched.m_currentRequest) = false ∧
    (exRequest [2, 3] 1).urls.find? (lastModifiedHit exCache (some 77)) = some (exUrl 3) ∧
    exCache.data (exUrl 3) = some [3, 3] ∧
    requestData exLoad exCache 300 (exRequest [2, 3] 1) (some 77) (-1) exFetched =
      some { exFetched with
        m_model := exLoad exFetched.m_startUrl [2, 2] (exUrl 2) exFetched.m_model } ∧
    exLoad exFetched.m_startUrl [2, 2] (exUrl 2) exFetched.m_model ≠
      exLoad exFetched.m_startUrl [3, 3] (exUrl 3) exFetched.m_model := by
  refine ⟨by rfl, by decide, by decide, by decide, by rfl, by decide⟩

/-- C10, amended: for every candidate-URL list and valid expected Last-Modified time `T`, if
some candidate has valid cache metadata with Last-Modified equal to `T` and a readable cached
stream, and no candidate is in flight, then `requestData` resolves from the cache: it hands
to `load` the cached document of the first candidate, in candidate order, that is such a hit
or was fetched by this process within the last 60 minutes with a readable cached stream, and
changes nothing else, so the request is not queued.  When no candidate was fetched that
recently, this is the first candidate whose Last-Modified equals `T`. -/
theorem freshness_hit_resolves_from_cache (load : QUrl → QByteArray → QUrl → χ → χ)
    (cache : QAbstractNetworkCache) (now : Int) (req : Request) (T refreshAge : Int)
    (s : TvChannelList χ)
    (hflight : (s.m_currentRequest.isValid && req.urls.contains s.m_currentRequest) = false)
    (hhit : ∃ u ∈ req.urls, lastModifiedHit cache (some T) u = true) :
    ∃ url device,
      req.urls.find? (fun u => lastModifiedHit cache (some T) u ||
        recentFetchHit cache s.m_lastFetch now u) = some url ∧
      cache.data url = some device ∧
      requestData load cache now req (some T) refreshAge s =
        some { s with m_model := load s.m_startUrl device url s.m_model } ∧
      ((∀ u ∈ req.urls, recentFetchHit cache s.m_lastFetch now u = false) →
        req.urls.find? (lastModifiedHit cache (some T)) = some url) := by
  obtain ⟨u, hu, hlm⟩ := hhit
  cases hfind : req.urls.find? (fun u => lastModifiedHit cache (some T) u ||
      recentFetchHit cache s.m_lastFetch now u) with
  | none =>
    have := List.find?_eq_none.1 hfind u hu
    simp [hlm] at this
  | some url =>
    have hpred := List.find?_some hfind
    have hdata : (cache.data url).isSome = true := by
      simp only [lastModifiedHit, recentFetchHit, Bool.or_eq_true, Bool.and_eq_true] at hpred
      rcases hpred with h1 | h1 <;> exact h1.2
    obtain ⟨device, hdev⟩ := Option.isSome_iff_exists.1 hdata
    refine ⟨url, device, rfl, hdev, ?_, ?_⟩
    · unfold requestData
      rw [if_neg (by rw [hflight]; simp), findFresh_lastmod, hfind]
      simp only [hdev, Option.map_some']
    · intro hrecent
      rw [← hfind]
      exact find?_congr_mem (fun x hx => by simp [hrecent x hx])

/-- Witness for C10, amended: the cache holds URL 3 with Last-Modified 77 and nothing was
fetched recently, so the request for `[2, 3]` is resolved from the cache. -/
theorem freshness_hit_resolves_from_cache_witness :
    ∃ url device,
      (exRequest [2, 3] 1).urls.find? (fun u => lastModifiedHit exCache (some 77) u ||
        recentFetchHit exCache exInit.m_lastFetch 300 u) = some url ∧
      exCache.data url = some device ∧
      requestData exLoad exCache 300 (exRequest [2, 3] 1) (some 77) (-1) exInit =
        some { exInit with m_model := exLoad exInit.m_startUrl device url exInit.m_model } ∧
      ((∀ u ∈ (exRequest [2, 3] 1).urls, recentFetchHit exCache exInit.m_lastFetch 300 u = false) →
        (exRequest [2, 3] 1).urls.find? (lastModifiedHit exCache (some 77)) = some url) :=
  freshness_hit_resolves_from_cache exLoad exCache 300 (exRequest [2, 3] 1) 77 (-1) exInit
    (by decide) (by decide)

/-- C11 as stated fails: URL 2 was fetched at 200 ms and its cache entry has Last-Modified 50;
a request for `[2]` with expected Last-Modified 77 arrives at 300 ms with nothing in flight.
No candidate has Last-Modified 77, yet the cached copy of URL 2 is read and merged, and the
request is not queued. -/
theorem freshness_miss_counterexample :
    run exLoad exFetchOps exInit = some exFetched ∧
    (∀ u ∈ (exRequest [2] 1).urls, (exCache.metaData u).lastModified ≠ some 77) ∧
    (exFetched.m_currentRequest.isValid &&
      (exRequest [2] 1).urls.contains exFetched.m_currentRequest) = false ∧
    requestData exLoad exCache 300 (exRequest [2] 1) (some 77) (-1) exFetched =
      some { exFetched with m_model := exFetched.m_model ++ [(exUrl 2, [2, 2])] } ∧
    exFetched.m_requests = [] ∧
    exFetched.m_model ++ [(exUrl 2, [2, 2])] ≠ exFetched.m_model := by
  refine ⟨by rfl, by decide, by decide, by rfl, by rfl, by decide⟩

/-- C11, amended: for every non-empty candidate-URL list and valid expected Last-Modified time
`T`, if every candidate's cache entry has a Last-Modified time different from `T` and no
candidate was fetched by this process within the last 60 minutes with a readable cached
stream, then `requestData` resolves Stale: nothing is read from the cache and the channel
model is unchanged; and unless a candidate is in flight or a queued request of the same
priority lists the first candidate, the request is added to the queue, `m_requestsToDo` grows
by one, and after `nextPending` the request is queued or its first URL is in flight. -/
theorem freshness_miss_goes_to_queue (load : QUrl → QByteArray → QUrl → χ → χ)
    (cache : QAbstractNetworkCache) (now : Int) (req : Request) (T refreshAge : Int)
    (s : TvChannelList χ) (url : QUrl) (us : List QUrl)
    (hmod : ∀ u ∈ req.urls, (cache.metaData u).lastModified ≠ some T)
    (hrecent : ∀ u ∈ req.urls, recentFetchHit cache s.m_lastFetch now u = false)
    (hurls : req.urls = url :: us) (hq : UrlsNonempty s.m_requests) :
    findFresh cache s.m_lastFetch now (some T) refreshAge req.urls = none ∧
    ∃ s1, requestData load cache now req (some T) refreshAge s = some s1 ∧
      s1.m_model = s.m_model ∧
      ((s.m_currentRequest.isValid && req.urls.contains s.m_currentRequest) = false →
        (∀ r ∈ s.m_requests, r.priority = req.priority → url ∉ r.urls) →
          s1.m_requestsToDo = s.m_requestsToDo + 1 ∧
          (req ∈ s1.m_requests ∨ s1.m_currentRequest = url)) := by
  have hfresh := findFresh_stale cache s.m_lastFetch now T refreshAge req.urls hmod hrecent
  obtain ⟨s1, hs1, hmodel, _, hins, _⟩ :=
    requestData_stale load cache now req (some T) refreshAge s hfresh hurls hq
  refine ⟨hfresh, s1, hs1, hmodel, ?_⟩
  intro hbail hnew
  refine hins hbail ?_
  intro hnone
  obtain ⟨r, hr, hp, hu⟩ := insertIndex_none hnone
  exact hnew r hr hp hu

/-- Witness for C11, amended: nothing was fetched yet and URL 2 is cached with Last-Modified
50, so the request for `[2]` with expected Last-Modified 77 is not served from the cache. -/
theorem freshness_miss_goes_to_queue_witness :
    findFresh exCache exInit.m_lastFetch 300 (some 77) (-1) (exRequest [2] 1).urls = none ∧
    ∃ s1, requestData exLoad exCache 300 (exRequest [2] 1) (some 77) (-1) exInit = some s1 ∧
      s1.m_model = exInit.m_model ∧
      ((exInit.m_currentRequest.isValid &&
          (exRequest [2] 1).urls.contains exInit.m_currentRequest) = false →
        (∀ r ∈ exInit.m_requests, r.priority = (exRequest [2] 1).priority →
          exUrl 2 ∉ r.urls) →
          s1.m_requestsToDo = exInit.m_requestsToDo + 1 ∧
          (exRequest [2] 1 ∈ s1.m_requests ∨ s1.m_currentRequest = exUrl 2)) :=
  freshness_miss_goes_to_queue exLoad exCache 300 (exRequest [2] 1) 77 (-1) exInit (exUrl 2) []
    (by decide) (by decide) rfl (by intro r hr; simp [exInit, TvChannelList.init] at hr)

/-- C12: with no expected Last-Modified time, `refreshAge == -1` and no candidate recorded in
the recently-fetched map within the last 60 minutes, `requestData` reads nothing from the
cache and leaves the channel model alone, whatever the cache holds; and `reload()` with a
valid start URL leaves the start URL either listed by a queued request of priority 0 or in
flight. -/
theorem forced_reload_bypasses_cache (load : QUrl → QByteArray → QUrl → χ → χ) :
    (∀ (cache : QAbstractNetworkCache) (now : Int) (req : Request) (s : TvChannelList χ)
      (url : QUrl) (us : List QUrl), req.urls = url :: us → UrlsNonempty s.m_requests →
      (∀ u ∈ req.urls, (QDateTime.isValid (lastFetchValue s.m_lastFetch u) &&
        QDateTime.ge (lastFetchValue s.m_lastFetch u)
          (QDateTime.addSecs (some now) (-(60 * 60)))) = false) →
      findFresh cache s.m_lastFetch now none (-1) req.urls = none ∧
      ∃ s1, requestData load cache now req none (-1) s = some s1 ∧ s1.m_model = s.m_model) ∧
    (∀ (cache : QAbstractNetworkCache) (now : Int) (s : TvChannelList χ),
      s.m_startUrl.isValid = true → UrlsNonempty s.m_requests →
      ∃ s1, reload load cache now s = some s1 ∧ s1.m_model = s.m_model ∧
        ((∃ r ∈ s1.m_requests, r.priority = 0 ∧ s.m_startUrl ∈ r.urls) ∨
          s1.m_currentRequest = s.m_startUrl)) := by
  refine ⟨?_, ?_⟩
  · intro cache now req s url us hurls hq hrecent
    have hfresh := findFresh_forced cache s.m_lastFetch now req.urls hrecent
    obtain ⟨s1, hs1, hmodel, _⟩ :=
      requestData_stale load cache now req none (-1) s hfresh hurls hq
    exact ⟨hfresh, s1, hs1, hmodel⟩
  · intro cache now s hvalid hq
    have hfresh : findFresh cache [] now none (-1) [s.m_startUrl] = none :=
      findFresh_forced cache [] now [s.m_startUrl]
        (fun u _ => by simp [lastFetchValue, QDateTime.isValid])
    obtain ⟨s1, hs1, hmodel, _, _, hwhere⟩ :=
      requestData_stale load cache now
        { urls := [s.m_startUrl], priority := 0, channel := none, date := none } none (-1)
        { s with m_lastFetch := [] } hfresh rfl hq
    refine ⟨s1, ?_, hmodel, ?_⟩
    · simp only [reload, refreshChannels, hvalid, if_true]
      exact hs1
    · rcases hwhere with h | h | ⟨_, h⟩
      · exact Or.inl h
      · exact Or.inr h
      · exact Or.inr (by simpa using h)

/-- Witness for C12: the cache holds the start URL 1 and the URL was fetched at 200 ms.
More than an hour later a forced request for it finds nothing fresh, where the same request
with the refresh age 24 is answered from the cache; and at 300 ms `reload()` leaves the model
alone and puts the start URL in flight, where `refreshChannels(false)` merges the cached copy
and sends nothing. -/
theorem forced_reload_bypasses_cache_witness :
    (findFresh exStartCache exStartFetched.m_lastFetch 3700000 none (-1)
        (exRequest [1] 0).urls = none ∧
      ∃ s1, requestData exLoad exStartCache 3700000 (exRequest [1] 0) none (-1)
          exStartFetched = some s1 ∧ s1.m_model = exStartFetched.m_model) ∧
    findFresh exStartCache exStartFetched.m_lastFetch 3700000 none 24
      (exRequest [1] 0).urls = some (exUrl 1, [1, 1]) ∧
    (exStartFetched.m_startUrl.isValid = true ∧
      ∃ s1, reload exLoad exStartCache 300 exStartFetched = some s1 ∧
        s1.m_model = exStartFetched.m_model ∧
        ((∃ r ∈ s1.m_requests, r.priority = 0 ∧ exStartFetched.m_startUrl ∈ r.urls) ∨
          s1.m_currentRequest = exStartFetched.m_startUrl)) ∧
    (reload exLoad exStartCache 300 exStartFetched).map
        (fun s => (s.m_model, s.m_requests, s.m_currentRequest, s.m_nam)) =
      some (exStartFetched.m_model, [], exUrl 1, [(300, exUrl 1), (0, exUrl 1)]) ∧
    (refreshChannels exLoad exStartCache 300 false exStartFetched).map
        (fun s => (s.m_model, s.m_requests, s.m_currentRequest, s.m_nam)) =
      some (exStartFetched.m_model ++ [(exUrl 1, [1, 1])], [], QUrl.null, [(0, exUrl 1)]) :=
  ⟨(forced_reload_bypasses_cache exLoad).1 exStartCache 3700000 (exRequest [1] 0)
      exStartFetched (exUrl 1) [] rfl (by decide) (by decide),
    by decide,
    ⟨rfl, (forced_reload_bypasses_cache exLoad).2 exStartCache 300 exStartFetched rfl
      (by decide)⟩,
    by rfl, by rfl⟩

/-- C13: for every state with a reply outstanding for the in-flight URL `u` (and a candidate
URL in every queued request), `requestFinished` succeeds; afterwards no queued request lists
`u`, and the queue is exactly the previously queued requests that did not list `u`, in their
original order, either all of them or all but the head, which `nextPending` then put in
flight. -/
theorem requestFinished_purges_duplicates (load : QUrl → QByteArray → QUrl → χ → χ)
    (now : Int) (s : TvChannelList χ) (hreply : s.m_reply = true)
    (hq : UrlsNonempty s.m_requests) :
    ∃ s1, requestFinished load now s = some s1 ∧
      (∀ r ∈ s1.m_requests, s.m_currentRequest ∉ r.urls) ∧
      (s1.m_requests = s.m_requests.filter (fun r => !r.urls.contains s.m_currentRequest) ∨
        ∃ head us,
          s.m_requests.filter (fun r => !r.urls.contains s.m_currentRequest) =
            head :: s1.m_requests ∧
          head.urls = s1.m_currentRequest :: us) := by
  obtain ⟨s4, hs4, hfin⟩ := requestFinished_eq load now hreply hq
  have hf := finishReply_fields load now s
  have hq1 : UrlsNonempty (finishReply load now s).m_requests := by
    rw [hf.1]
    exact urlsNonempty_filter hq _
  obtain ⟨s5, hs5, _, _, _, _, hcase⟩ := nextPending_outcome now hq1
  rw [hs4, Option.some.injEq] at hs5
  subst hs5
  have hreqs : ∀ (t : TvChannelList χ),
      t = (if !s4.m_currentRequest.isValid && s4.m_busy && s4.m_requests.isEmpty then
        { s4 with m_busy := false, m_progress := 1, m_requestsToDo := 0, m_requestsDone := 0 }
        else s4) → t.m_requests = s4.m_requests ∧ t.m_currentRequest = s4.m_currentRequest := by
    intro t ht
    subst ht
    split <;> exact ⟨rfl, rfl⟩
  obtain ⟨hr1, hc1⟩ := hreqs _ rfl
  refine ⟨_, hfin, ?_, ?_⟩
  · intro r hr
    rw [hr1] at hr
    have hmem : r ∈ s.m_requests.filter (fun r => !r.urls.contains s.m_currentRequest) := by
      rcases hcase with ⟨hsame, _⟩ | ⟨head, us, hhead, _⟩
      · rw [← hf.1, ← hsame]; exact hr
      · rw [← hf.1, hhead]; exact List.mem_cons_of_mem head hr
    have := (List.mem_filter.1 hmem).2
    simpa using this
  · rw [hr1, hc1]
    rcases hcase with ⟨hsame, _⟩ | ⟨head, us, hhead, hurls, _⟩
    · exact Or.inl (by rw [hsame, hf.1])
    · exact Or.inr ⟨head, us, by rw [← hf.1, hhead], hurls⟩

/-- Witness for C13: URL 9 is in flight and the requests `[5, 9]`, `[3]`, `[9, 6]` and `[4]`
are queued; the fetch finishes.  The two requests that list URL 9 are purged, `[3]` is taken
off the head and dispatched, and `[4]` stays queued. -/
theorem requestFinished_purges_duplicates_witness :
    exPurge.m_requests.filter (fun r => !r.urls.contains exPurge.m_currentRequest) =
      [exRequest [3] 1, exRequest [4] 2] ∧
    (requestFinished exLoad 200 exPurge).map
        (fun s => (s.m_requests, s.m_currentRequest, s.m_requestsToDo, s.m_requestsDone)) =
      some ([exRequest [4] 2], exUrl 3, 3, 1) ∧
    ∃ s1, requestFinished exLoad 200 exPurge = some s1 ∧
      (∀ r ∈ s1.m_requests, exPurge.m_currentRequest ∉ r.urls) ∧
      (s1.m_requests =
          exPurge.m_requests.filter (fun r => !r.urls.contains exPurge.m_currentRequest) ∨
        ∃ head us,
          exPurge.m_requests.filter (fun r => !r.urls.contains exPurge.m_currentRequest) =
            head :: s1.m_requests ∧
          head.urls = s1.m_currentRequest :: us) :=
  ⟨by decide, by decide, requestFinished_purges_duplicates exLoad 200 exPurge rfl (by decide)⟩

/-- C15: for every state with a reply outstanding, `requestFinished` with an empty body and
with a non-empty body both succeed and give the same queue, `m_requestsToDo`,
`m_requestsDone`, busy flag, progress, in-flight slot, reply and throttle flag.  With the
empty body the channel model is untouched and nothing is added to the recently-fetched map;
with the non-empty body the body is merged.  In both cases the queue is a part of the old
queue: no retry is added. -/
theorem failure_handled_like_success (load : QUrl → QByteArray → QUrl → χ → χ) (now : Int)
    (s : TvChannelList χ) (bytes : QByteArray) (hbytes : bytes ≠ [])
    (hreply : s.m_reply = true) (hq : UrlsNonempty s.m_requests) :
    ∃ sE sN, requestFinished load now { s with m_contents := [] } = some sE ∧
      requestFinished load now { s with m_contents := bytes } = some sN ∧
      sE.m_requests = sN.m_requests ∧ sE.m_requestsToDo = sN.m_requestsToDo ∧
      sE.m_requestsDone = sN.m_requestsDone ∧ sE.m_busy = sN.m_busy ∧
      sE.m_progress = sN.m_progress ∧ sE.m_currentRequest = sN.m_currentRequest ∧
      sE.m_reply = sN.m_reply ∧ sE.m_throttled = sN.m_throttled ∧
      sE.m_model = s.m_model ∧
      sN.m_model = load s.m_startUrl bytes s.m_currentRequest s.m_model ∧
      sE.m_lastFetch.Sublist s.m_lastFetch ∧
      sE.m_requests.Sublist s.m_requests := by
  obtain ⟨e4, he4, hE⟩ := requestFinished_eq load now
    (s := { s with m_contents := [] }) hreply hq
  have hfE := finishReply_fields load now { s with m_contents := [] }
  have hfN := finishReply_fields load now { s with m_contents := bytes }
  have hne : bytes.isEmpty = false := by
    cases bytes with
    | nil => exact absurd rfl hbytes
    | cons b bs => rfl
  simp only [List.isEmpty_nil, if_true, hne, Bool.false_eq_true, if_false] at hfE hfN
  have tE := finishReply_throttle load now { s with m_contents := [] }
  have tN := finishReply_throttle load now { s with m_contents := bytes }
  have hsame : SameScheduling (finishReply load now { s with m_contents := [] })
      (finishReply load now { s with m_contents := bytes }) :=
    ⟨by rw [hfE.1, hfN.1], by rw [hfE.2.1, hfN.2.1], by rw [hfE.2.2.1, hfN.2.2.1],
      by rw [hfE.2.2.2.2.2.1, hfN.2.2.2.2.2.1],
      by rw [hfE.2.2.2.2.2.2.1, hfN.2.2.2.2.2.2.1],
      by rw [hfE.2.2.2.1, hfN.2.2.2.1], by rw [hfE.2.2.2.2.1, hfN.2.2.2.2.1],
      by rw [tE.2.1, tN.2.1],
      by rw [hfE.2.2.2.2.2.2.2.1, hfN.2.2.2.2.2.2.2.1],
      by rw [tE.1, tN.1], by rw [tE.2.2, tN.2.2]⟩
  obtain ⟨n4, hn4, h4, ⟨hmE, hmN⟩, hlf⟩ := sameScheduling_nextPending hsame he4
  have hN : requestFinished load now { s with m_contents := bytes } =
      some (if !n4.m_currentRequest.isValid && n4.m_busy && n4.m_requests.isEmpty then
        { n4 with m_busy := false, m_progress := 1, m_requestsToDo := 0, m_requestsDone := 0 }
        else n4) := by
    unfold requestFinished
    rw [if_neg (by simp [hreply])]
    simp only [hn4]
    split <;> rfl
  have hsubq : e4.m_requests.Sublist s.m_requests := by
    have hq1 : UrlsNonempty (finishReply load now { s with m_contents := [] }).m_requests := by
      rw [hfE.1]
      exact urlsNonempty_filter hq _
    obtain ⟨s5, hs5, _, _, _, _, hcase⟩ := nextPending_outcome now hq1
    rw [he4, Option.some.injEq] at hs5
    subst hs5
    have hfilt : (finishReply load now { s with m_contents := [] }).m_requests.Sublist
        s.m_requests := by
      rw [hfE.1]
      exact List.filter_sublist _
    rcases hcase with ⟨hsm, _⟩ | ⟨head, us, hhead, _⟩
    · rw [hsm]; exact hfilt
    · exact (List.sublist_cons_self head e4.m_requests).trans (by rw [← hhead]; exact hfilt)
  have hc : (!n4.m_currentRequest.isValid && n4.m_busy && n4.m_requests.isEmpty) =
      (!e4.m_currentRequest.isValid && e4.m_busy && e4.m_requests.isEmpty) := by
    rw [h4.current, h4.busy, h4.requests]
  refine ⟨_, _, hE, hN, ?_⟩
  by_cases hcE : (!e4.m_currentRequest.isValid && e4.m_busy && e4.m_requests.isEmpty) = true
  · rw [if_pos hcE, if_pos (by rw [hc]; exact hcE)]
    exact ⟨h4.requests, rfl, rfl, rfl, rfl, h4.current, h4.reply, h4.throttled,
      by rw [← hfE.2.2.2.2.2.2.2.2.1]; exact hmE,
      by rw [← hfN.2.2.2.2.2.2.2.2.1]; exact hmN,
      by rw [← hfE.2.2.2.2.2.2.2.2.2]; exact hlf, hsubq⟩
  · rw [if_neg hcE, if_neg (by rw [hc]; exact hcE)]
    exact ⟨h4.requests, h4.toDo, h4.done, h4.busy, h4.progress, h4.current, h4.reply,
      h4.throttled, by rw [← hfE.2.2.2.2.2.2.2.2.1]; exact hmE,
      by rw [← hfN.2.2.2.2.2.2.2.2.1]; exact hmN,
      by rw [← hfE.2.2.2.2.2.2.2.2.2]; exact hlf, hsubq⟩

/-- Witness for C15: URL 9 is in flight with `[2, 3]` queued; the fetch ends with an empty
body and with a four-byte body. -/
theorem failure_handled_like_success_witness :
    ∃ sE sN, requestFinished exLoad 200 { exQueued with m_contents := [] } = some sE ∧
      requestFinished exLoad 200 { exQueued with m_contents := [60, 116, 118, 62] } = some sN ∧
      sE.m_requests = sN.m_requests ∧ sE.m_requestsToDo = sN.m_requestsToDo ∧
      sE.m_requestsDone = sN.m_requestsDone ∧ sE.m_busy = sN.m_busy ∧
      sE.m_progress = sN.m_progress ∧ sE.m_currentRequest = sN.m_currentRequest ∧
      sE.m_reply = sN.m_reply ∧ sE.m_throttled = sN.m_throttled ∧
      sE.m_model = exQueued.m_model ∧
      sN.m_model = exLoad exQueued.m_startUrl [60, 116, 118, 62] exQueued.m_currentRequest
        exQueued.m_model ∧
      sE.m_lastFetch.Sublist exQueued.m_lastFetch ∧
      sE.m_requests.Sublist exQueued.m_requests :=
  failure_handled_like_success exLoad 200 exQueued [60, 116, 118, 62] (by decide) rfl
    (by decide)

/-- C16: from every state, after `abort()` the queue is empty, nothing is in flight, both
counters are zero, busy is false and progress is 1, while the channel model (registry and
active-channel list), the bookmark list and index, the recently-fetched map and the throttle
flag are as before. -/
theorem abort_postcondition_and_frame (s : TvChannelList χ) :
    (abort s).m_requests = [] ∧ (abort s).m_currentRequest.isValid = false ∧
    (abort s).m_reply = false ∧ (abort s).m_requestsToDo = 0 ∧
    (abort s).m_requestsDone = 0 ∧ (abort s).m_busy = false ∧ (abort s).m_progress = 1 ∧
    (abort s).m_model = s.m_model ∧ (abort s).m_bookmarks = s.m_bookmarks ∧
    (abort s).m_indexedBookmarks = s.m_indexedBookmarks ∧
    (abort s).m_lastFetch = s.m_lastFetch ∧ (abort s).m_throttled = s.m_throttled :=
  ⟨rfl, rfl, rfl, rfl, rfl, rfl, rfl, rfl, rfl, rfl, rfl, rfl⟩

/-- C14 as stated fails: a request whose only URL is invalid is handed to the network, a
second request is queued and trimmed again, which resets the scheduler while the reply is
still outstanding; when that reply finishes the queue is empty and nothing is in flight, but
`m_requestsDone` is 1. -/
theorem idle_reset_counterexample :
    (∀ op ∈ exInvalidOps, op.wellFormed) ∧
    (run exLoad exInvalidOps exInit).map (fun s =>
      (s.m_requests, s.m_currentRequest.isValid, s.m_reply, s.m_busy, s.m_requestsToDo,
        s.m_requestsDone)) = some ([], false, false, false, 0, 1) := by
  refine ⟨by decide, by decide⟩

/-- C14, amended: in every state reached from the initial state by operations whose candidate
URLs are all valid, `requestFinished` succeeds, and if it leaves the queue empty with nothing
in flight then busy is false, progress is 1 and both counters are 0; and from every state, a
`trimRequests` call that removed at least one request and left the queue empty with nothing
in flight leaves busy false, progress 1 and both counters 0. -/
theorem idle_reset (load : QUrl → QByteArray → QUrl → χ → χ) :
    (∀ (startUrl : QUrl) (refresh : Int) (model : χ) (bookmarks : List TvBookmark)
      (index : List (QString × TvBookmark)) (ops : List Op) (now : Int),
      (∀ op ∈ ops, op.wellFormed ∧ op.validUrls) →
      ∃ s s1, run load ops (TvChannelList.init startUrl refresh model bookmarks index) = some s ∧
        requestFinished load now s = some s1 ∧
        (s1.m_requests = [] → s1.m_currentRequest.isValid = false →
          s1.m_busy = false ∧ s1.m_progress = 1 ∧ s1.m_requestsToDo = 0 ∧
            s1.m_requestsDone = 0)) ∧
    (∀ (s : TvChannelList χ) (first last : Int),
      (trimRequests first last s).m_requests.length < s.m_requests.length →
      (trimRequests first last s).m_requests = [] →
      (trimRequests first last s).m_currentRequest.isValid = false →
      (trimRequests first last s).m_busy = false ∧ (trimRequests first last s).m_progress = 1 ∧
        (trimRequests first last s).m_requestsToDo = 0 ∧
        (trimRequests first last s).m_requestsDone = 0) := by
  refine ⟨?_, ?_⟩
  · intro startUrl refresh model bookmarks index ops now hops
    obtain ⟨s, hs, hq, _⟩ := run_inv load ops
      (s := TvChannelList.init startUrl refresh model bookmarks index) QueueInv.nil
      (fun op hop => (hops op hop).1)
    have hinv : IdleInv s :=
      run_idleInv (idleInv_init startUrl refresh model bookmarks index)
        (fun op hop => (hops op hop).2) hs
    obtain ⟨s1, hs1, _⟩ := requestFinished_inv load now hq
    exact ⟨s, s1, hs, hs1, (requestFinished_idleInv hs1 hinv).idle⟩
  · intro s first last hlen
    have hfr := trimRequests_frame first last s
    have hreq := trimRequests_requests first last s
    have hflag := trimLoop_removed first last s.m_requests s.m_requestsToDo
      (by rw [trimLoop_fst, ← hreq]; exact hlen)
    rw [hreq, hfr.1]
    intro hq hv
    have hq1 : (trimLoop first last s.m_requests s.m_requestsToDo false).1 = [] := by
      rw [trimLoop_fst]; exact hq
    unfold trimRequests
    simp [hflag, hq1, hv]

/-- Witness for C14, amended: two requests with valid URLs, the first fetch finishing and the
timer firing; then the second fetch finishes. -/
theorem idle_reset_witness :
    (∀ op ∈ exThrottleOps, op.wellFormed ∧ op.validUrls) ∧
    ∃ s s1, run exLoad exThrottleOps exInit = some s ∧
      requestFinished exLoad 1100 s = some s1 ∧
      (s1.m_requests = [] → s1.m_currentRequest.isValid = false →
        s1.m_busy = false ∧ s1.m_progress = 1 ∧ s1.m_requestsToDo = 0 ∧
          s1.m_requestsDone = 0) :=
  ⟨by decide, (idle_reset exLoad).1 (exUrl 1) 24 [] [] [] exThrottleOps 1100 (by decide)⟩

/-- C19: when `requestData` reaches the queue (no candidate in flight, no cache hit, no queued
request of the same priority listing the first candidate), the request is inserted right
after the leading requests whose priority is at most its own, that is before the first queued
request with a strictly greater priority or at the end; the other requests keep their order;
`m_requestsToDo` grows by exactly one; and on a sorted queue every request behind the new one
has a strictly greater priority, so requests of equal priority stay ahead of it and are
dispatched, head first, in the order they were enqueued. -/
theorem stable_insert_position (load : QUrl → QByteArray → QUrl → χ → χ)
    (cache : QAbstractNetworkCache) (now : Int) (req : Request) (lastmod : QDateTime)
    (refreshAge : Int) (s : TvChannelList χ) (url : QUrl) (us : List QUrl)
    (hflight : (s.m_currentRequest.isValid && req.urls.contains s.m_currentRequest) = false)
    (hfresh : findFresh cache s.m_lastFetch now lastmod refreshAge req.urls = none)
    (hurls : req.urls = url :: us)
    (hnew : ∀ r ∈ s.m_requests, r.priority = req.priority → url ∉ r.urls) :
    requestData load cache now req lastmod refreshAge s =
      nextPending now
        { s with
          m_requests :=
            s.m_requests.takeWhile (fun r => decide (r.priority ≤ req.priority)) ++
              req :: s.m_requests.dropWhile (fun r => decide (r.priority ≤ req.priority))
          m_requestsToDo := s.m_requestsToDo + 1 } ∧
    (∀ r, (s.m_requests.dropWhile (fun r => decide (r.priority ≤ req.priority))).head? =
      some r → req.priority < r.priority) ∧
    (∀ r ∈ s.m_requests.takeWhile (fun r => decide (r.priority ≤ req.priority)),
      r.priority ≤ req.priority) ∧
    (SortedQueue s.m_requests →
      (∀ r ∈ s.m_requests.dropWhile (fun r => decide (r.priority ≤ req.priority)),
        req.priority < r.priority) ∧
      SortedQueue (s.m_requests.takeWhile (fun r => decide (r.priority ≤ req.priority)) ++
        req :: s.m_requests.dropWhile (fun r => decide (r.priority ≤ req.priority)))) ∧
    (∀ s1, requestData load cache now req lastmod refreshAge s = some s1 →
      s1.m_requestsToDo = s.m_requestsToDo + 1) := by
  obtain ⟨index, hidx⟩ := insertIndex_isSome hnew
  obtain ⟨hins, _⟩ := @qlistInsert_eq _ req _ _ hidx
  have heq : requestData load cache now req lastmod refreshAge s =
      nextPending now
        { s with
          m_requests :=
            s.m_requests.takeWhile (fun r => decide (r.priority ≤ req.priority)) ++
              req :: s.m_requests.dropWhile (fun r => decide (r.priority ≤ req.priority))
          m_requestsToDo := s.m_requestsToDo + 1 } := by
    unfold requestData
    rw [if_neg (by rw [hflight]; simp), hfresh]
    simp only [hurls, hidx, hins]
  have htake : ∀ r ∈ s.m_requests.takeWhile (fun r => decide (r.priority ≤ req.priority)),
      r.priority ≤ req.priority := by
    intro r hr
    simpa using List.mem_takeWhile_imp hr
  refine ⟨heq, ?_, htake, ?_, ?_⟩
  · intro r hr
    have := List.head?_dropWhile_not (fun r : Request => decide (r.priority ≤ req.priority))
      s.m_requests
    rw [hr] at this
    have h2 : ¬ r.priority ≤ req.priority := by simpa using this
    omega
  · intro hs
    have hdrop := dropWhile_sorted_gt (p := req.priority) hs
    refine ⟨hdrop, ?_⟩
    have hsplit : s.m_requests =
        s.m_requests.takeWhile (fun r => decide (r.priority ≤ req.priority)) ++
          s.m_requests.dropWhile (fun r => decide (r.priority ≤ req.priority)) :=
      (List.takeWhile_append_dropWhile _ _).symm
    have hs2 : SortedQueue
        (s.m_requests.takeWhile (fun r => decide (r.priority ≤ req.priority)) ++
          s.m_requests.dropWhile (fun r => decide (r.priority ≤ req.priority))) := by
      rw [← hsplit]; exact hs
    have hp := List.pairwise_append.1 hs2
    refine List.pairwise_append.2 ⟨hp.1, List.pairwise_cons.2 ⟨?_, hp.2.1⟩, ?_⟩
    · intro r hr
      exact le_of_lt (hdrop r hr)
    · intro a ha b hb
      rcases List.mem_cons.1 hb with h | h
      · subst h
        exact htake a ha
      · exact hp.2.2 a ha b h
  · intro s1 hs1
    rw [heq] at hs1
    exact nextPending_toDo hs1

/-- Witness for C19: with URL 9 in flight and `[2, 3]` queued at priority 1, a request for
`[4]` at priority 1 is placed behind it. -/
theorem stable_insert_position_witness :
    requestData exLoad emptyCache 6 (exRequest [4] 1) none (-1) exQueued =
      nextPending 6
        { exQueued with
          m_requests :=
            exQueued.m_requests.takeWhile (fun r => decide (r.priority ≤ 1)) ++
              exRequest [4] 1 :: exQueued.m_requests.dropWhile (fun r => decide (r.priority ≤ 1))
          m_requestsToDo := exQueued.m_requestsToDo + 1 } ∧
    (run exLoad [.requestData emptyCache 6 (exRequest [4] 1) none (-1)] exQueued).map
      (fun s => s.m_requests) = some [exRequest [2, 3] 1, exRequest [4] 1] :=
  ⟨(stable_insert_position exLoad emptyCache 6 (exRequest [4] 1) none (-1) exQueued (exUrl 4) []
    (by decide) (by decide) rfl (by decide)).1, by decide⟩

/-- C20 as stated fails: two bookmarks indexed under "news" both give `TitleMatch` and no
bookmark gives a stronger verdict; `matchBookmarks` returns the second one in iteration
order, not the first. -/
theorem tie_rule_counterexample :
    candidates (toLower exNews.title) exIndexTie = [exBookmark 2 "News", exBookmark 6 "News"] ∧
    (∀ b ∈ candidates (toLower exNews.title) exIndexTie,
      exTieVerdict b exNews 0 = TvBookmark.Match.TitleMatch) ∧
    matchBookmarks exTieVerdict (exMatcher exIndexTie) exNews none 0 =
      (TvBookmark.Match.TitleMatch, some (exBookmark 6 "News")) ∧
    exBookmark 6 "News" ≠ exBookmark 2 "News" := by
  refine ⟨by decide, by decide, by decide, by decide⟩

open TvBookmark.Match in
/-- C20, amended: for every programme for which no bookmark yields a verdict stronger than
`TitleMatch` and every bookmark indexed under another key yields `NoMatch`, when one or more
candidates yield the winning tier `T` (`TitleMatch`, or `ShouldMatch` with no `TitleMatch`
present), `matchBookmarks` returns `T` with the last of them in index iteration order: the
returned bookmark is indexed under the lower-cased title, yields `T`, and no entry after it
yields `T`. -/
theorem tie_keeps_last (verdict : TvBookmark → TvProgramme → Nat → TvBookmark.Match)
    (s : TvChannelList χ) (programme : TvProgramme) (bookmark : Option TvBookmark)
    (options : Nat) (T : TvBookmark.Match)
    (hT : T = TitleMatch ∨ (T = ShouldMatch ∧
      ∀ e ∈ s.m_indexedBookmarks, verdict e.2 programme options ≠ TitleMatch))
    (hmax : ∀ e ∈ s.m_indexedBookmarks, (verdict e.2 programme options).isSpecific = false)
    (hother : ∀ e ∈ s.m_indexedBookmarks, e.1 ≠ toLower programme.title →
      verdict e.2 programme options = NoMatch)
    (hsome : ∃ e ∈ s.m_indexedBookmarks, verdict e.2 programme options = T) :
    ∃ pre b post, s.m_indexedBookmarks = pre ++ (toLower programme.title, b) :: post ∧
      verdict b programme options = T ∧
      (∀ x ∈ post, verdict x.2 programme options ≠ T) ∧
      matchBookmarks verdict s programme bookmark options = (T, some b) := by
  obtain ⟨pre, x, post, hsplit, hx, hpost⟩ :=
    exists_last_with (fun e : QString × TvBookmark => verdict e.2 programme options = T)
      s.m_indexedBookmarks hsome
  have hmem : ∀ y, y ∈ pre ∨ y = x ∨ y ∈ post → y ∈ s.m_indexedBookmarks := by
    intro y hy
    rw [hsplit]
    simp only [List.mem_append, List.mem_cons]
    tauto
  have hTne : T ≠ NoMatch := by
    rcases hT with h | ⟨h, _⟩ <;> (rw [h]; simp)
  have hkey : x.1 = toLower programme.title := by
    by_contra hne
    have := hother x (hmem x (Or.inr (Or.inl rfl))) hne
    rw [hx] at this
    exact hTne this
  have hfind : constFind (toLower programme.title) s.m_indexedBookmarks =
      constFind (toLower programme.title) pre ++ x :: post := by
    rw [hsplit]
    exact constFind_append_hit post hkey pre
  have htier : ∀ y ∈ s.m_indexedBookmarks,
      verdict y.2 programme options = NoMatch ∨ verdict y.2 programme options = ShouldMatch ∨
        verdict y.2 programme options = TitleMatch := by
    intro y hy
    have := hmax y hy
    cases hv : verdict y.2 programme options with
    | NoMatch => exact Or.inl rfl
    | ShouldMatch => exact Or.inr (Or.inl rfl)
    | TitleMatch => exact Or.inr (Or.inr rfl)
    | Specific kind =>
      rw [hv] at this
      exact absurd this (by simp [TvBookmark.Match.isSpecific])
  refine ⟨pre, x.2, post, by rw [hsplit, ← hkey], hx, hpost, ?_⟩
  unfold matchBookmarks
  rw [hfind]
  rcases hT with hT1 | ⟨hT1, hnoTitle⟩
  · subst hT1
    refine matchLoop_lastTitle (fun b => verdict b programme options) x post hx ?_ _ _ _ ?_
    · intro y hy
      rcases htier y (hmem y (Or.inr (Or.inr hy))) with h | h | h
      · exact Or.inl h
      · exact Or.inr h
      · exact absurd h (hpost y hy)
    · intro y hy
      exact hmax y (hmem y (Or.inl (constFind_subset hy)))
  · subst hT1
    refine matchLoop_lastShould (fun b => verdict b programme options) x post hx ?_ _ _ _
      (by simp) ?_
    · intro y hy
      rcases htier y (hmem y (Or.inr (Or.inr hy))) with h | h | h
      · exact h
      · exact absurd h (hpost y hy)
      · exact absurd h (hnoTitle y (hmem y (Or.inr (Or.inr hy))))
    · intro y hy
      have hyi := hmem y (Or.inl (constFind_subset hy))
      rcases htier y hyi with h | h | h
      · exact Or.inl h
      · exact Or.inr h
      · exact absurd h (hnoTitle y hyi)

/-- Witness for C20, amended: two `TitleMatch` bookmarks under "news"; the second one in
iteration order is returned. -/
theorem tie_keeps_last_witness :
    ∃ pre b post,
      (exMatcher exIndexTie).m_indexedBookmarks = pre ++ (toLower exNews.title, b) :: post ∧
      exTieVerdict b exNews 0 = TvBookmark.Match.TitleMatch ∧
      (∀ x ∈ post, exTieVerdict x.2 exNews 0 ≠ TvBookmark.Match.TitleMatch) ∧
      matchBookmarks exTieVerdict (exMatcher exIndexTie) exNews none 0 =
        (TvBookmark.Match.TitleMatch, some b) :=
  tie_keeps_last exTieVerdict (exMatcher exIndexTie) exNews none 0 TvBookmark.Match.TitleMatch
    (Or.inl rfl) (by decide) (by decide) (by decide)

/-- C18: `load` does not deduplicate programmes.  For every channel id `c`, every programme
content and every stream in which exactly two `programme` elements name `c`, both with that
content (the other tokens before `</tv>` or the end of the stream concern other channels),
merging the stream into a registry where `c` has no programmes leaves `c` with exactly the two
programmes built from the element, in stream order, and `programmesChanged` reports `c`
once. -/
theorem merge_keeps_duplicate_programmes (env : LoadEnv) (startUrl url : QUrl)
    (m : ChannelModel) (c : QString) (body : XmlBody) (pre mid post tail : List TvItem)
    (hpre : ∀ i ∈ pre, TvItem.avoids c i = true) (hmid : ∀ i ∈ mid, TvItem.avoids c i = true)
    (hpost : ∀ i ∈ post, TvItem.avoids c i = true)
    (htail : tail = [] ∨ tail.head? = some TvItem.endTv)
    (hempty : ∀ ch, channelValue m.m_channels c = some ch → ch.programmes = []) :
    (channelValue
        (TvChannelList.load env startUrl
          (pre ++ TvItem.programme c body :: (mid ++ TvItem.programme c body :: (post ++ tail)))
          url m).1.m_channels c).map TvChannel.programmes =
      some [env.programmeLoad c body, env.programmeLoad c body] ∧
    (TvChannelList.load env startUrl
      (pre ++ TvItem.programme c body :: (mid ++ TvItem.programme c body :: (post ++ tail)))
      url m).2.programmesChanged.count c = 1 := by
  have h := loadLoop_programme_twice env c body pre mid post tail hpre hmid hpost htail
    { model := m, newChannels := false, newProgrammes := [] } rfl
  have hold : ((channelValue m.m_channels c).map TvChannel.programmes).getD [] = [] := by
    cases hv : channelValue m.m_channels c with
    | none => rfl
    | some ch => exact hempty ch hv
  refine ⟨?_, h.2⟩
  rw [load_frame env startUrl _ url TvChannel.programmes (fun _ _ => rfl) c m, h.1]
  show some (((channelValue m.m_channels c).map TvChannel.programmes).getD [] ++ _) = _
  rw [hold]
  rfl

/-- C18 at a concrete stream: a channel element for "A", then the programme element "p" of
the unknown channel "C" twice, into the empty registry. -/
theorem merge_keeps_duplicate_programmes_witness :
    (channelValue
        (TvChannelList.load exEnv (exUrl 1)
          ([TvItem.channel "A" ""] ++ TvItem.programme "C" "p" ::
            ([TvItem.other] ++ TvItem.programme "C" "p" :: ([] ++ [TvItem.endTv])))
          (exUrl 1) exEmptyModel).1.m_channels "C").map TvChannel.programmes =
      some [exEnv.programmeLoad "C" "p", exEnv.programmeLoad "C" "p"] ∧
    (TvChannelList.load exEnv (exUrl 1)
      ([TvItem.channel "A" ""] ++ TvItem.programme "C" "p" ::
        ([TvItem.other] ++ TvItem.programme "C" "p" :: ([] ++ [TvItem.endTv])))
      (exUrl 1) exEmptyModel).2.programmesChanged.count "C" = 1 :=
  merge_keeps_duplicate_programmes exEnv (exUrl 1) (exUrl 1) exEmptyModel "C" "p"
    [TvItem.channel "A" ""] [TvItem.other] [] [TvItem.endTv]
    (by decide) (by decide) (by decide) (Or.inr rfl) (by decide)

/-- C17, counterexample: the first document declares data for channel "A" only, the second
one sends "A" again without data.  The second load changed a channel, no channel of the
registry reports `hasDataFor` afterwards, and the registry holds "A" and "BB"; the claim asks
for both channels in the active list, but the flag `m_hasDataFor` set by the first load is
still set and the list is empty. -/
theorem active_channels_counterexample :
    (TvChannelList.load exEnv (exUrl 1) exNoDataForItems (exUrl 2)
        exAfterFirst).2.channelsChanged = true ∧
      exAfterSecond.m_channels.map Prod.fst = ["A", "BB"] ∧
      (∀ e ∈ exAfterSecond.m_channels, e.2.hasDataFor = false) ∧
      exAfterSecond.m_hasDataFor = true ∧
      exAfterSecond.m_activeChannels = [] ∧
      exAfterFirst.m_activeChannels = ["A"] := by
  decide

/-- C17 (amended): after every load that added or changed at least one channel, started from
a registry with distinct keys whose flag `m_hasDataFor` covers it, and for a channel
comparison that is a strict weak order, the active-channel list has no duplicates and is
ordered by the comparison; if the flag `m_hasDataFor` is set it contains exactly the registry
channels that report `hasDataFor`, and if the flag is not set it contains every channel of
the registry.  The flag is set whenever some channel of the registry reports `hasDataFor`,
so the first case of the claim holds as it is written. -/
theorem active_channels_projection (env : LoadEnv) (startUrl url : QUrl)
    (items : List TvItem) (m : ChannelModel)
    (hasym : ∀ a b, env.compare a b < 0 → ¬ env.compare b a < 0)
    (htrans : ∀ a b c, env.compare a c < 0 → env.compare a b < 0 ∨ env.compare b c < 0)
    (hkeys : (m.m_channels.map Prod.fst).Nodup) (hinv : FlagInv m)
    (hchanged : (TvChannelList.load env startUrl items url m).2.channelsChanged = true) :
    (TvChannelList.load env startUrl items url m).1.m_activeChannels.Nodup ∧
    (TvChannelList.load env startUrl items url m).1.m_activeChannels.Pairwise
      (fun k1 k2 =>
        sortActiveChannels env (TvChannelList.load env startUrl items url m).1.m_channels k2 k1
          = false) ∧
    ((TvChannelList.load env startUrl items url m).1.m_hasDataFor = true →
      ∀ k, k ∈ (TvChannelList.load env startUrl items url m).1.m_activeChannels ↔
        ∃ ch, channelValue (TvChannelList.load env startUrl items url m).1.m_channels k
            = some ch ∧ ch.hasDataFor = true) ∧
    ((TvChannelList.load env startUrl items url m).1.m_hasDataFor = false →
      ∀ k, k ∈ (TvChannelList.load env startUrl items url m).1.m_activeChannels ↔
        (channelValue (TvChannelList.load env startUrl items url m).1.m_channels k).isSome
          = true) ∧
    ((∃ k ch, channelValue (TvChannelList.load env startUrl items url m).1.m_channels k
          = some ch ∧ ch.hasDataFor = true) →
      (TvChannelList.load env startUrl items url m).1.m_hasDataFor = true) := by
  have hnew : (loadLoop env items
      { model := m, newChannels := false, newProgrammes := [] }).newChannels = true := hchanged
  have hl : (TvChannelList.load env startUrl items url m).1 =
      rebuildActiveChannels env startUrl
        (loadLoop env items { model := m, newChannels := false, newProgrammes := [] }).model := by
    unfold TvChannelList.load
    simp only [hnew, if_true]
  rw [hl]
  have hk := loadLoop_keys_nodup env items
    { model := m, newChannels := false, newProgrammes := [] } hkeys
  have hf := loadLoop_flagInv env items
    { model := m, newChannels := false, newProgrammes := [] } hinv
  obtain ⟨h1, h2, h3, h4⟩ := rebuildActiveChannels_spec env startUrl _ hasym htrans hk
  refine ⟨h1, h2, h3, h4, ?_⟩
  rintro ⟨k, ch, hv, hd⟩
  rw [(rebuildActiveChannels_fields env startUrl _).2.1]
  have hm := rebuildActiveChannels_frame env startUrl TvChannel.hasDataFor (fun _ _ => rfl) k
    (loadLoop env items { model := m, newChannels := false, newProgrammes := [] }).model
  rw [hv] at hm
  obtain ⟨ch0, hv0, hd0⟩ := Option.map_eq_some'.1 hm.symm
  exact hf k ch0 hv0 (hd0.trans hd)

/-- C17 at the first example document, loaded into the empty registry. -/
theorem active_channels_projection_witness :
    exAfterFirst.m_activeChannels.Nodup ∧
    exAfterFirst.m_activeChannels.Pairwise
      (fun k1 k2 => sortActiveChannels exEnv exAfterFirst.m_channels k2 k1 = false) ∧
    (exAfterFirst.m_hasDataFor = true →
      ∀ k, k ∈ exAfterFirst.m_activeChannels ↔
        ∃ ch, channelValue exAfterFirst.m_channels k = some ch ∧ ch.hasDataFor = true) ∧
    (exAfterFirst.m_hasDataFor = false →
      ∀ k, k ∈ exAfterFirst.m_activeChannels ↔
        (channelValue exAfterFirst.m_channels k).isSome = true) ∧
    ((∃ k ch, channelValue exAfterFirst.m_channels k = some ch ∧ ch.hasDataFor = true) →
      exAfterFirst.m_hasDataFor = true) :=
  active_channels_projection exEnv (exUrl 1) (exUrl 1) exDataForItems exEmptyModel
    (fun a b h => by simp only [exEnv] at h ⊢; omega)
    (fun a b c h => by simp only [exEnv] at h ⊢; omega)
    (by decide) (fun k ch hv => by simp [exEmptyModel, channelValue] at hv) (by decide)

/-- C25: for every request whose candidate-URL list contains the URL in flight (the valid
`m_currentRequest`), `requestData` returns at once: the state afterwards is the state before,
so nothing is resolved from the cache or merged and the queue, both counters, busy, progress
and the in-flight slot are unchanged, whatever the priority and the cache. -/
theorem requestData_bails_when_in_flight (load : QUrl → QByteArray → QUrl → χ → χ)
    (cache : QAbstractNetworkCache) (now : Int) (req : Request) (lastmod : QDateTime)
    (refreshAge : Int) (s : TvChannelList χ) (hvalid : s.m_currentRequest.isValid = true)
    (hmem : s.m_currentRequest ∈ req.urls) :
    requestData load cache now req lastmod refreshAge s = some s := by
  unfold requestData
  rw [if_pos (by simp [hvalid, hmem])]

/-- Witness for C25: URL 9 is in flight and the request lists URLs 2 and 9; URL 2 is cached
and was fetched a moment ago, so the cache would have answered. -/
theorem requestData_bails_when_in_flight_witness :
    exQueued.m_currentRequest.isValid = true ∧
    findFresh exCache [(exUrl 2, 200)] 300 none (-1) (exRequest [2, 9] 0).urls ≠ none ∧
    requestData exLoad exCache 300 (exRequest [2, 9] 0) none (-1)
        { exQueued with m_lastFetch := [(exUrl 2, 200)] } =
      some { exQueued with m_lastFetch := [(exUrl 2, 200)] } :=
  ⟨rfl, by decide,
    requestData_bails_when_in_flight exLoad exCache 300 (exRequest [2, 9] 0) none (-1)
      { exQueued with m_lastFetch := [(exUrl 2, 200)] } rfl (by decide)⟩

/-- C21 as stated fails: the entry lists the foxtel number before the free-to-air one and the
channel has no number yet; both numbers are added. -/
theorem channel_number_order_counterexample :
    TvChannel.new.channelNumbers = [] ∧
    (loadOzTivoChannel [("foxtel", "101"), ("freeview", "2")] TvChannel.new).1.channelNumbers =
      ["101", "2"] ∧
    (loadOzTivoChannel [("freeview", "2"), ("foxtel", "101")] TvChannel.new).1.channelNumbers =
      ["2"] := by
  decide

/-- C21, amended: when the channel already has a number, or the first `number` element of
its entry is not a foxtel one, `loadOzTivoChannelData(reader, channel)` appends exactly the
non-foxtel numbers of the entry, in the order of the entry: a foxtel number is not added once
a number is recorded for the channel. -/
theorem channel_number_preference (numbers : List (QString × QString)) (channel : TvChannel)
    (h : channel.channelNumbers ≠ [] ∨
      ∃ system num rest, numbers = (system, num) :: rest ∧ system ≠ "foxtel") :
    (loadOzTivoChannel numbers channel).1.channelNumbers =
      channel.channelNumbers ++ (numbers.filter (fun e => !(e.1 == "foxtel"))).map Prod.snd := by
  rcases h with h | ⟨system, num, rest, hn, hs⟩
  · exact loadOzTivoChannel_numbered numbers channel h
  · rw [hn]
    exact loadOzTivoChannel_first system num rest channel hs

/-- Witness for C21, amended: a free-to-air number comes first; the two free-to-air numbers
are kept and the foxtel number between them is left out. -/
theorem channel_number_preference_witness :
    (loadOzTivoChannel [("freeview", "2"), ("foxtel", "101"), ("freeview", "22")]
        TvChannel.new).1.channelNumbers =
      TvChannel.new.channelNumbers ++
        ([("freeview", "2"), ("foxtel", "101"), ("freeview", "22")].filter
          (fun e => !(e.1 == "foxtel"))).map Prod.snd :=
  channel_number_preference [("freeview", "2"), ("foxtel", "101"), ("freeview", "22")]
    TvChannel.new (Or.inr ⟨"freeview", "2", [("foxtel", "101"), ("freeview", "22")], rfl,
      by decide⟩)

/-- C24: start from a state whose title index is consistent with its bookmark list and whose
listed bookmarks are not deleted (the empty list and index that the constructor leaves are
such a state) and run any sequence of `addBookmark`, `removeBookmark` and `replaceBookmarks`
on bookmarks whose titles do not change.  Whenever the sequence runs without reading a deleted
bookmark or deleting one twice, the index holds exactly the pairs (lower-cased title of `b`,
`b`) for the bookmarks `b` of the list, each as often as `b` is in the list, a bookmark is a
value of the index if and only if it is in the list, and no listed bookmark is deleted.  The
sequence does run when the listed bookmarks are distinct and every operation is called with
new bookmarks. -/
theorem bookmark_index_consistent (title : Nat → QString) (ops : List BookmarkOp)
    (h : BookmarkHeap χ) (hops : ∀ op ∈ ops, TitlesFixed title op.bookmarks)
    (hlist : TitlesFixed title h.channelList.m_bookmarks)
    (hcons : IndexConsistent h.channelList) (hlive : BookmarksLive h) :
    (∀ r, bookmarkRun ops h = some r →
      r.channelList.m_indexedBookmarks.Perm
        (r.channelList.m_bookmarks.map (fun b => (toLower b.title, b))) ∧
      (∀ e, r.channelList.m_indexedBookmarks.countP (fun x => decide (x = e)) =
        (r.channelList.m_bookmarks.map (fun b => (toLower b.title, b))).countP
          (fun x => decide (x = e))) ∧
      (∀ b, (∃ key, (key, b) ∈ r.channelList.m_indexedBookmarks) ↔
        b ∈ r.channelList.m_bookmarks) ∧
      BookmarksLive r) ∧
    ((h.channelList.m_bookmarks.map TvBookmark.ptr).Nodup → freshRun ops h = true →
      ∃ r, bookmarkRun ops h = some r) := by
  refine ⟨?_, fun hnodup hfresh => bookmarkRun_fresh ops hnodup hlive hfresh⟩
  intro r hrun
  obtain ⟨_, hc, hl⟩ := bookmarkRun_inv title ops hops hlist hcons hlive hrun
  have hp : r.channelList.m_indexedBookmarks.Perm
      (r.channelList.m_bookmarks.map (fun b => (toLower b.title, b))) := hc
  refine ⟨hp, fun e => hp.countP_eq _, ?_, hl⟩
  intro b
  constructor
  · rintro ⟨key, hk⟩
    obtain ⟨b1, hb1, he⟩ := List.mem_map.1 (hp.mem_iff.1 hk)
    have : b1 = b := congrArg Prod.snd he
    rw [← this]
    exact hb1
  · intro hb
    exact ⟨toLower b.title, hp.mem_iff.2 (List.mem_map.2 ⟨b, hb, rfl⟩)⟩

/-- Witness for C24, from the state the constructor leaves.  The first sequence adds,
removes and replaces new bookmarks; it runs, deletes bookmarks 1 and 2 and ends with bookmarks
3 and 4 in the list and under "sport" in the index.  The second adds bookmark 1 twice and
removes it, and adds bookmark 2 twice; the index holds bookmark 2 twice.  Replacing the list
while it holds a bookmark twice, or by a list that holds a bookmark of the old list, has no
defined result. -/
theorem bookmark_index_consistent_witness :
    (bookmarkRun exBookmarkOps exHeap).map
        (fun h => (h.channelList.m_bookmarks, h.channelList.m_indexedBookmarks, h.deleted)) =
      some ([exBookmark 3 "Sport", exBookmark 4 "Sport"],
        [("sport", exBookmark 4 "Sport"), ("sport", exBookmark 3 "Sport")], [2, 1]) ∧
    (bookmarkRun exTwiceOps exHeap).map
        (fun h => (h.channelList.m_bookmarks, h.channelList.m_indexedBookmarks, h.deleted)) =
      some ([exBookmark 2 "Sport", exBookmark 2 "Sport"],
        [("sport", exBookmark 2 "Sport"), ("sport", exBookmark 2 "Sport")], []) ∧
    (bookmarkRun exDoubleFreeOps exHeap).isNone = true ∧
    (bookmarkRun exReuseOps exHeap).isNone = true ∧
    ((∀ r, bookmarkRun exBookmarkOps exHeap = some r →
      r.channelList.m_indexedBookmarks.Perm
        (r.channelList.m_bookmarks.map (fun b => (toLower b.title, b))) ∧
      (∀ e, r.channelList.m_indexedBookmarks.countP (fun x => decide (x = e)) =
        (r.channelList.m_bookmarks.map (fun b => (toLower b.title, b))).countP
          (fun x => decide (x = e))) ∧
      (∀ b, (∃ key, (key, b) ∈ r.channelList.m_indexedBookmarks) ↔
        b ∈ r.channelList.m_bookmarks) ∧
      BookmarksLive r) ∧
    ((exHeap.channelList.m_bookmarks.map TvBookmark.ptr).Nodup →
      freshRun exBookmarkOps exHeap = true → ∃ r, bookmarkRun exBookmarkOps exHeap = some r)) ∧
    (∃ r, bookmarkRun exBookmarkOps exHeap = some r) ∧
    (∀ r, bookmarkRun exTwiceOps exHeap = some r →
      r.channelList.m_indexedBookmarks.Perm
        (r.channelList.m_bookmarks.map (fun b => (toLower b.title, b)))) :=
  ⟨by decide, by decide, by decide, by decide,
    bookmark_index_consistent exTitle exBookmarkOps exHeap (by decide) (by decide)
      (List.Perm.refl _) (fun b hb => by simp [exHeap, exInit, TvChannelList.init] at hb),
    (bookmark_index_consistent exTitle exBookmarkOps exHeap (by decide) (by decide)
      (List.Perm.refl _) (fun b hb => by simp [exHeap, exInit, TvChannelList.init] at hb)).2
      (by decide) (by decide),
    fun r hr => ((bookmark_index_consistent exTitle exTwiceOps exHeap (by decide) (by decide)
      (List.Perm.refl _)
      (fun b hb => by simp [exHeap, exInit, TvChannelList.init] at hb)).1 r hr).1⟩

/-- C22 as stated fails: a request whose only URL is invalid is handed to the network, a
second request is queued and trimmed again, and the reply finishes.  Then nothing is queued
or in flight and `m_requestsToDo` is 0, but `m_requestsDone` is 1: the equation fails and
`m_requestsDone` exceeds `m_requestsToDo`. -/
theorem counter_conservation_counterexample :
    (∀ op ∈ exInvalidOps, op.wellFormed) ∧
    (run exLoad exInvalidOps exInit).map (fun s =>
      (s.m_requestsToDo, s.m_requestsDone, s.m_requests.length, s.m_currentRequest.isValid,
        s.m_reply)) = some (0, 1, 0, false, false) ∧
    (run exLoad exInvalidOps exInit).map (fun s =>
      decide (s.m_requestsToDo = s.m_requestsDone + (s.m_requests.length : Int) +
        (if s.m_currentRequest.isValid then 1 else 0))) = some false ∧
    (run exLoad exInvalidOps exInit).map (fun s =>
      decide (s.m_requestsDone ≤ s.m_requestsToDo)) = some false := by
  refine ⟨by decide, by decide, by decide, by decide⟩

/-- C22, amended: in every state reached from the initial state by operations whose candidate
URLs are all valid, `m_requestsToDo` is `m_requestsDone` plus the number of queued requests
plus 1 if a fetch is in flight (the in-flight URL is valid, which is the case exactly when a
reply is outstanding); so `0 ≤ m_requestsDone ≤ m_requestsToDo`. -/
theorem counter_conservation (load : QUrl → QByteArray → QUrl → χ → χ) (startUrl : QUrl)
    (refresh : Int) (model : χ) (bookmarks : List TvBookmark)
    (index : List (QString × TvBookmark)) (ops : List Op)
    (hops : ∀ op ∈ ops, op.wellFormed ∧ op.validUrls) :
    ∃ s, run load ops (TvChannelList.init startUrl refresh model bookmarks index) = some s ∧
      s.m_requestsToDo =
        s.m_requestsDone + (s.m_requests.length : Int) +
          (if s.m_currentRequest.isValid then 1 else 0) ∧
      s.m_reply = s.m_currentRequest.isValid ∧
      0 ≤ s.m_requestsDone ∧ s.m_requestsDone ≤ s.m_requestsToDo ∧ 0 ≤ s.m_requestsToDo := by
  obtain ⟨s, hs, _, hp⟩ := run_inv load ops
    (s := TvChannelList.init startUrl refresh model bookmarks index) QueueInv.nil
    (fun op hop => (hops op hop).1)
  have hdone := (hp (progressInv_init startUrl refresh model bookmarks index)).done_nonneg
  have hflow := run_flowInv (flowInv_init startUrl refresh model bookmarks index)
    (fun op hop => (hops op hop).2) hs
  have hc := hflow.count
  refine ⟨s, hs, hc, hflow.inflight.reply, hdone, ?_, ?_⟩
  · split at hc <;> omega
  · split at hc <;> omega

/-- Witness for C22, amended: three requests with valid URLs, one dispatched and two
queued. -/
theorem counter_conservation_witness :
    ∃ s, run exLoad exOverlapOps exInit = some s ∧
      s.m_requestsToDo =
        s.m_requestsDone + (s.m_requests.length : Int) +
          (if s.m_currentRequest.isValid then 1 else 0) ∧
      s.m_reply = s.m_currentRequest.isValid ∧
      0 ≤ s.m_requestsDone ∧ s.m_requestsDone ≤ s.m_requestsToDo ∧ 0 ≤ s.m_requestsToDo :=
  counter_conservation exLoad (exUrl 1) 24 [] [] [] exOverlapOps (by decide)

/-- C23: in every state reached from the initial state by operations whose candidate URLs
are all valid, if the queue is non-empty and no fetch is in flight then the throttle flag is
set and the throttle timer is armed, and `throttleTimeout` then dispatches the head of the
queue; and whenever a fetch is in flight (the in-flight URL is valid, equivalently a reply is
outstanding), busy is true. -/
theorem no_stalled_queue (load : QUrl → QByteArray → QUrl → χ → χ) (startUrl : QUrl)
    (refresh : Int) (model : χ) (bookmarks : List TvBookmark)
    (index : List (QString × TvBookmark)) (ops : List Op)
    (hops : ∀ op ∈ ops, op.wellFormed ∧ op.validUrls) :
    ∃ s, run load ops (TvChannelList.init startUrl refresh model bookmarks index) = some s ∧
      (s.m_requests ≠ [] → s.m_currentRequest.isValid = false →
        s.m_throttled = true ∧ s.m_throttleTimer.isSome = true ∧
        ∀ now, ∃ s1 head us, step load (.throttleTimeout now) s = some s1 ∧
          s.m_requests = head :: s1.m_requests ∧ head.urls = s1.m_currentRequest :: us ∧
          s1.m_currentRequest.isValid = true ∧ s1.m_reply = true) ∧
      (s.m_currentRequest.isValid = true → s.m_busy = true) ∧
      s.m_reply = s.m_currentRequest.isValid := by
  obtain ⟨s, hs, hq, _⟩ := run_inv load ops
    (s := TvChannelList.init startUrl refresh model bookmarks index) QueueInv.nil
    (fun op hop => (hops op hop).1)
  have hflow := run_flowInv (flowInv_init startUrl refresh model bookmarks index)
    (fun op hop => (hops op hop).2) hs
  refine ⟨s, hs, ?_, hflow.busy, hflow.inflight.reply⟩
  intro hne hcur
  have hthr := hflow.stall hne hcur
  refine ⟨hthr, hflow.armed hthr, ?_⟩
  intro now
  cases hreqs : s.m_requests with
  | nil => exact absurd hreqs hne
  | cons head rest =>
    have hhead : head ∈ s.m_requests := by rw [hreqs]; exact List.mem_cons_self _ _
    cases hurls : head.urls with
    | nil => exact absurd hurls (hq.urls head hhead)
    | cons url us =>
      have hvalid : url.isValid = true :=
        hflow.inflight.valid head hhead url (by rw [hurls]; exact List.mem_cons_self _ _)
      refine ⟨forceProgressUpdate (startFetch now rest url
        { { s with m_throttleTimer := none } with m_throttled := false }), head, us,
        ?_, ?_, ?_, ?_, ?_⟩
      · have hd : nextPending now
            { { s with m_throttleTimer := none } with m_throttled := false } =
            some (forceProgressUpdate (startFetch now rest url
              { { s with m_throttleTimer := none } with m_throttled := false })) :=
          nextPending_dispatch now hcur rfl hreqs hurls
        exact hd
      · rw [forceProgressUpdate_eq]
        rfl
      · rw [forceProgressUpdate_eq]
        exact hurls
      · rw [forceProgressUpdate_eq]
        exact hvalid
      · rw [forceProgressUpdate_eq]
        rfl

/-- Witness for C23.  After three requests with valid URLs the first is in flight and busy is
set, the other two wait behind it.  After URL 2 was fetched and a request for URL 3 arrived
at 250 ms, that request is queued with nothing in flight, the throttle is set and the timer
is armed for 1000 ms; `throttleTimeout` then puts URL 3 in flight. -/
theorem no_stalled_queue_witness :
    (∃ s, run exLoad exOverlapOps exInit = some s ∧
      (s.m_requests ≠ [] → s.m_currentRequest.isValid = false →
        s.m_throttled = true ∧ s.m_throttleTimer.isSome = true ∧
        ∀ now, ∃ s1 head us, step exLoad (.throttleTimeout now) s = some s1 ∧
          s.m_requests = head :: s1.m_requests ∧ head.urls = s1.m_currentRequest :: us ∧
          s1.m_currentRequest.isValid = true ∧ s1.m_reply = true) ∧
      (s.m_currentRequest.isValid = true → s.m_busy = true) ∧
      s.m_reply = s.m_currentRequest.isValid) ∧
    (∃ s, run exLoad exStallOps exInit = some s ∧
      (s.m_requests ≠ [] → s.m_currentRequest.isValid = false →
        s.m_throttled = true ∧ s.m_throttleTimer.isSome = true ∧
        ∀ now, ∃ s1 head us, step exLoad (.throttleTimeout now) s = some s1 ∧
          s.m_requests = head :: s1.m_requests ∧ head.urls = s1.m_currentRequest :: us ∧
          s1.m_currentRequest.isValid = true ∧ s1.m_reply = true) ∧
      (s.m_currentRequest.isValid = true → s.m_busy = true) ∧
      s.m_reply = s.m_currentRequest.isValid) ∧
    (run exLoad exStallOps exInit).map
        (fun s => (s.m_requests, s.m_currentRequest.isValid, s.m_throttled,
          s.m_throttleTimer)) =
      some ([exRequest [3] 1], false, true, some 1000) ∧
    (run exLoad (exStallOps ++ [.throttleTimeout 1000]) exInit).map
        (fun s => (s.m_requests, s.m_currentRequest, s.m_reply, s.m_busy)) =
      some ([], exUrl 3, true, true) :=
  ⟨no_stalled_queue exLoad (exUrl 1) 24 [] [] [] exOverlapOps (by decide),
    no_stalled_queue exLoad (exUrl 1) 24 [] [] [] exStallOps (by decide),
    by decide, by decide⟩

end TvGuide
